import Mathlib

/-!
# libsfz: path decomposition and composition, and the directory walk

A shallow embedding of the pure path functions of libsfz
(`src/posix/sfz/os.cpp` and `src/win/sfz/os.cpp`, namespace `sfz::path`) and
of the POSIX `walk`, whose operating-system side is the list of entries that
`fts_read` returns and whose visitor side is the trace of callbacks.

A `pn::string_view` is modelled by the list of its runes (`List Char`).  The
source addresses strings by byte offset, but every offset it computes is the
offset of a separator, of a `:` or of the end of a rune, so cutting the rune
list at the corresponding rune index yields the same substrings.

`rfind`, `find`, `substr` and `partition` belong to the string library the
source is written against; they are given their usual meaning here, and
`offset()` of a reverse iterator is the offset just past the rune it refers
to, the reading under which `split("a")` has the basename `a`.  Offsets
are mathematical integers (`npos` is `-1`): a path is taken to be shorter than
`2^31` runes, the range of the `int` the source keeps an offset in.
-/

namespace Sfz

/-! ## String primitives -/

/-- The value of `string_view::npos`: the "not found" offset. -/
def npos : Int := -1

/-- Offset of the last occurrence of rune `c` in `s`, or `npos` when `c` does
not occur (`string_view::rfind`). -/
def rfind : List Char → Char → Int
  | [], _ => npos
  | x :: xs, c =>
    let r := rfind xs c
    if r ≠ npos then r + 1 else if x = c then 0 else npos

/-- Two-argument `string_view::substr(index, size)`. -/
def substr (s : List Char) (index size : Nat) : List Char :=
  (s.drop index).take size

/-- One-argument `string_view::substr(index)`: everything from `index` on. -/
def substrFrom (s : List Char) (index : Nat) : List Char :=
  s.drop index

/-! ## POSIX (`src/posix/sfz/os.cpp`) -/

namespace Posix

/-- The POSIX path separator, `sep{'/'}`. -/
def sep : Char := '/'

/-- POSIX `path::splitdrive`: there are no drives. -/
def splitdrive (path : List Char) : List Char × List Char :=
  ([], path)

/-- POSIX `path::basename`. -/
def basename (path : List Char) : List Char :=
  if path = [sep] then
    path
  else
    if _h1 : rfind path sep = npos then
      path
    else if _h2 : rfind path sep = (path.length : Int) - 1 then
      basename (substr path 0 (path.length - 1))
    else
      substrFrom path (rfind path sep + 1).toNat
termination_by path.length
decreasing_by
  simp only [substr, List.drop_zero, List.length_take]
  simp only [npos] at _h1
  omega

/-- POSIX `path::dirname`. -/
def dirname (path : List Char) : List Char :=
  if rfind path sep = 0 then
    [sep]
  else if _h1 : rfind path sep = npos then
    ['.']
  else if _h2 : rfind path sep = (path.length : Int) - 1 then
    dirname (substr path 0 (path.length - 1))
  else
    substr path 0 (rfind path sep).toNat
termination_by path.length
decreasing_by
  simp only [substr, List.drop_zero, List.length_take]
  simp only [npos] at _h1
  omega

/-- POSIX `path::split`. -/
def split (path : List Char) : List Char × List Char :=
  (dirname path, basename path)

/-- First loop of POSIX `path::joinv`: scans the segments (the one examined
has index `i`) for the last non-empty one that begins with the separator.  The
state is the current `root` and `from_segment`, where `none` stands for
`segments.end()`. -/
def joinvScan : List (List Char) → Nat → List Char × Option Nat → List Char × Option Nat
  | [], _, st => st
  | seg :: rest, i, st =>
    if seg.isEmpty then
      joinvScan rest (i + 1) st
    else if seg.head? = some sep then
      joinvScan rest (i + 1) (seg, some i)
    else
      joinvScan rest (i + 1) st

/-- Body of the second loop of POSIX `path::joinv`: appends one segment to
`result`, putting a separator first when `result` is non-empty and does not
already end with one. -/
def joinvAppend (result seg : List Char) : List Char :=
  let result :=
    if result ≠ [] then
      if result.getLast? ≠ some sep then result ++ [sep] else result
    else result
  result ++ seg

/-- Where the second loop of `joinv` starts: at `segments.begin()` when
`from_segment` is still `segments.end()` (`none`), and one past `from_segment`
otherwise. -/
def joinvStart (from_segment : Option Nat) : Nat :=
  match from_segment with
  | none => 0
  | some i => i + 1

/-- POSIX `path::joinv`. -/
def joinv (root : List Char) (segments : List (List Char)) : List Char :=
  let st := joinvScan segments 0 (root, none)
  let result := st.1
  let start := joinvStart st.2
  (segments.drop start).foldl joinvAppend result

end Posix

/-! ## POSIX functions with every precondition of the string library checked

The same four functions, written so that nothing is taken on trust: a call
consumes one unit of fuel, a substring must lie inside the string, and a rune is
only read from a position that exists.  They serve to state that the plain
functions above are total and free of errors. -/

/-- What can go wrong in a checked run. -/
inductive Fault where
  | outOfFuel
  | outOfRange
  | emptyDeref
  deriving DecidableEq, Repr

/-- Checked `substr(index, size)`: the range must lie inside `s`. -/
def substrChecked (s : List Char) (index size : Int) : Except Fault (List Char) :=
  if 0 ≤ index ∧ 0 ≤ size ∧ index + size ≤ (s.length : Int) then
    .ok (substr s index.toNat size.toNat)
  else
    .error .outOfRange

/-- Checked `substr(index)`: `index` must lie inside `s` or at its end. -/
def substrFromChecked (s : List Char) (index : Int) : Except Fault (List Char) :=
  if 0 ≤ index ∧ index ≤ (s.length : Int) then
    .ok (substrFrom s index.toNat)
  else
    .error .outOfRange

namespace Posix

/-- POSIX `path::basename` with fuel and checked substrings. -/
def basenameChecked : Nat → List Char → Except Fault (List Char)
  | 0, _ => .error .outOfFuel
  | fuel + 1, path =>
    if path = [sep] then
      .ok path
    else
      if rfind path sep = npos then
        .ok path
      else if rfind path sep = (path.length : Int) - 1 then
        match substrChecked path 0 ((path.length : Int) - 1) with
        | .ok shorter => basenameChecked fuel shorter
        | .error e => .error e
      else
        substrFromChecked path (rfind path sep + 1)

/-- POSIX `path::dirname` with fuel and checked substrings. -/
def dirnameChecked : Nat → List Char → Except Fault (List Char)
  | 0, _ => .error .outOfFuel
  | fuel + 1, path =>
    if rfind path sep = 0 then
      .ok [sep]
    else if rfind path sep = npos then
      .ok ['.']
    else if rfind path sep = (path.length : Int) - 1 then
      match substrChecked path 0 ((path.length : Int) - 1) with
      | .ok shorter => dirnameChecked fuel shorter
      | .error e => .error e
    else
      substrChecked path 0 (rfind path sep)

/-- POSIX `path::split` over the checked functions. -/
def splitChecked (fuel : Nat) (path : List Char) : Except Fault (List Char × List Char) :=
  match dirnameChecked fuel path with
  | .error e => .error e
  | .ok d =>
    match basenameChecked fuel path with
    | .error e => .error e
    | .ok b => .ok (d, b)

/-- First loop of `joinv`, reading the first rune of a segment only through a
checked dereference. -/
def joinvScanChecked :
    List (List Char) → Nat → List Char × Option Nat → Except Fault (List Char × Option Nat)
  | [], _, st => .ok st
  | seg :: rest, i, st =>
    if seg.isEmpty then
      joinvScanChecked rest (i + 1) st
    else
      match seg.head? with
      | none => .error .emptyDeref
      | some c =>
        if c = sep then
          joinvScanChecked rest (i + 1) (seg, some i)
        else
          joinvScanChecked rest (i + 1) st

/-- Body of the second loop of `joinv`, reading the last rune of `result` only
through a checked dereference. -/
def joinvAppendChecked (result seg : List Char) : Except Fault (List Char) :=
  if result ≠ [] then
    match result.getLast? with
    | none => .error .emptyDeref
    | some c => if c ≠ sep then .ok (result ++ [sep] ++ seg) else .ok (result ++ seg)
  else
    .ok (result ++ seg)

/-- Second loop of `joinv` over the checked body. -/
def joinvLoopChecked : List (List Char) → List Char → Except Fault (List Char)
  | [], result => .ok result
  | seg :: rest, result =>
    match joinvAppendChecked result seg with
    | .error e => .error e
    | .ok r => joinvLoopChecked rest r

/-- POSIX `path::joinv` over the checked loops; the iterator the second loop
starts from must lie inside the segment list or at its end. -/
def joinvChecked (root : List Char) (segments : List (List Char)) : Except Fault (List Char) :=
  match joinvScanChecked segments 0 (root, none) with
  | .error e => .error e
  | .ok st =>
    let start := joinvStart st.2
    if start ≤ segments.length then
      joinvLoopChecked (segments.drop start) st.1
    else
      .error .outOfRange

/-! ## The specification's vocabulary for POSIX paths -/

/-- The two-argument join of the specification: `b` when `b` begins with the
separator, `a ++ b` when `a` is empty or ends with the separator, and
`a ++ "/" ++ b` otherwise. -/
def specJoin2 (a b : List Char) : List Char :=
  if b.head? = some sep then b
  else if a = [] ∨ a.getLast? = some sep then a ++ b
  else a ++ [sep] ++ b

/-- The specification's reading of `joinv`: the left fold of `specJoin2` over
the segments, starting from `root`. -/
def specJoinv (root : List Char) (segments : List (List Char)) : List Char :=
  segments.foldl specJoin2 root

/-- The fields of a path: the pieces between separators, empty pieces
included, so that a path with `n` separators has `n + 1` fields. -/
def fields : List Char → List (List Char)
  | [] => [[]]
  | c :: cs =>
    if c = sep then
      [] :: fields cs
    else
      match fields cs with
      | [] => [[c]]
      | f :: fs => (c :: f) :: fs

/-- The components that survive normalization: the fields that are neither
empty (runs of separators, a leading or trailing separator) nor `.`. -/
def components (p : List Char) : List (List Char) :=
  (fields p).filter (fun f => decide (f ≠ []) && decide (f ≠ ['.']))

/-- Separator normalization of the specification: runs of `/` collapse to one,
a trailing `/` is dropped (the root `/` stays), and `.` components are
dropped. -/
def normalize (p : List Char) : List Char :=
  (if p.head? = some sep then [sep] else []) ++ [sep].intercalate (components p)

end Posix

/-! ## POSIX `walk` (`src/posix/sfz/os.cpp`)

The operating system's side of `walk` is `fts_open` and the entries that
successive `fts_read` calls return until `NULL`; the visitor's side is the
sequence of callbacks it receives, kept here as a trace. -/

namespace Posix

/-- The `fts_info` values of `<fts.h>`, a system header; the values are those
of the BSD and GNU headers, and only their being distinct matters here. -/
def FTS_D : Nat := 1

/-- See `FTS_D`: a directory that causes a cycle. -/
def FTS_DC : Nat := 2

/-- See `FTS_D`: none of the other types. -/
def FTS_DEFAULT : Nat := 3

/-- See `FTS_D`: a directory that cannot be read. -/
def FTS_DNR : Nat := 4

/-- See `FTS_D`: a dot entry. -/
def FTS_DOT : Nat := 5

/-- See `FTS_D`: a directory in post-order. -/
def FTS_DP : Nat := 6

/-- See `FTS_D`: an error entry. -/
def FTS_ERR : Nat := 7

/-- See `FTS_D`: a regular file. -/
def FTS_F : Nat := 8

/-- See `FTS_D`: no `stat` information, with an error. -/
def FTS_NS : Nat := 10

/-- See `FTS_D`: no `stat` information was requested. -/
def FTS_NSOK : Nat := 11

/-- See `FTS_D`: a symbolic link. -/
def FTS_SL : Nat := 12

/-- See `FTS_D`: a symbolic link with a non-existent target. -/
def FTS_SLNONE : Nat := 13

/-- The `fts_open` option bits of `<fts.h>` that `walk` uses. -/
def FTS_LOGICAL : Nat := 0x002

/-- See `FTS_LOGICAL`. -/
def FTS_NOCHDIR : Nat := 0x004

/-- See `FTS_LOGICAL`. -/
def FTS_PHYSICAL : Nat := 0x010

/-- `WalkType` of the library's interface. -/
inductive WalkType where
  | WALK_PHYSICAL
  | WALK_LOGICAL
  deriving DecidableEq, Repr

/-- What `walk` hands on from `struct stat`; it is only passed through. -/
structure Stat where
  st_mode : Nat
  st_size : Nat
  st_mtime : Nat
  deriving DecidableEq, Repr

/-- The fields of an `FTSENT` that `walk` reads. -/
structure FtsEnt where
  fts_info : Nat
  fts_path : List Char
  fts_statp : Stat
  deriving DecidableEq, Repr

/-- The seven callbacks of `TreeWalker`. -/
inductive Callback where
  | pre_directory
  | cycle_directory
  | other
  | post_directory
  | file
  | symlink
  | broken_symlink
  deriving DecidableEq, Repr

/-- One call of the visitor: which callback, with which path and stat. -/
structure Call where
  callback : Callback
  path : List Char
  stat : Stat
  deriving DecidableEq, Repr

/-- The three `std::runtime_error`s `walk` throws, with the values their
messages are formatted from. -/
inductive WalkError where
  | fts_open (root : List Char) (strerror : List Char)
  | fts_read (fts_path : List Char) (strerror : List Char)
  | invalid_type (fts_info : Nat)
  deriving DecidableEq, Repr

/-- The message of each error: `fts_open: {0}: {1}`, `fts_read: {0}: {1}` and
`walk: got invalid type {0}`. -/
def WalkError.message : WalkError → List Char
  | .fts_open root strerror => "fts_open: ".toList ++ root ++ ": ".toList ++ strerror
  | .fts_read fts_path strerror => "fts_read: ".toList ++ fts_path ++ ": ".toList ++ strerror
  | .invalid_type fts_info => "walk: got invalid type ".toList ++ (Nat.repr fts_info).toList

/-- The `switch` in the loop of `walk`: the call it makes for an entry, or the
error it throws.  `strerror` is the text of `posix_strerror()`. -/
def walkEntry (strerror : List Char) (ent : FtsEnt) : Except WalkError Call :=
  if ent.fts_info = FTS_D then .ok ⟨.pre_directory, ent.fts_path, ent.fts_statp⟩
  else if ent.fts_info = FTS_DC then .ok ⟨.cycle_directory, ent.fts_path, ent.fts_statp⟩
  else if ent.fts_info = FTS_DEFAULT then .ok ⟨.other, ent.fts_path, ent.fts_statp⟩
  else if ent.fts_info = FTS_DP then .ok ⟨.post_directory, ent.fts_path, ent.fts_statp⟩
  else if ent.fts_info = FTS_F then .ok ⟨.file, ent.fts_path, ent.fts_statp⟩
  else if ent.fts_info = FTS_SL then .ok ⟨.symlink, ent.fts_path, ent.fts_statp⟩
  else if ent.fts_info = FTS_SLNONE then .ok ⟨.broken_symlink, ent.fts_path, ent.fts_statp⟩
  else if ent.fts_info = FTS_DNR ∨ ent.fts_info = FTS_ERR ∨ ent.fts_info = FTS_NS then
    .error (.fts_read ent.fts_path strerror)
  else
    .error (.invalid_type ent.fts_info)

/-- The `while (FTSENT* ent = fts_read(fts))` loop over the entries still to
come; `trace` holds the calls made so far.  Returns the calls made and the
error thrown, if any. -/
def walkLoop (strerror : List Char) : List FtsEnt → List Call → List Call × Option WalkError
  | [], trace => (trace, none)
  | ent :: rest, trace =>
    match walkEntry strerror ent with
    | .ok call => walkLoop strerror rest (trace ++ [call])
    | .error e => (trace, some e)

/-- The options `walk` passes to `fts_open`. -/
def walkOptions (type : WalkType) : Nat :=
  if type = .WALK_PHYSICAL then FTS_NOCHDIR ||| FTS_PHYSICAL else FTS_NOCHDIR ||| FTS_LOGICAL

/-- POSIX `walk`.  `fts_open` stands for the operating system: for a root and
options it gives `none` (a `NULL` handle) or the entries `fts_read` returns. -/
def walk (fts_open : List Char → Nat → Option (List FtsEnt)) (strerror : List Char)
    (root : List Char) (type : WalkType) : List Call × Option WalkError :=
  match fts_open root (walkOptions type) with
  | none => ([], some (.fts_open root strerror))
  | some entries => walkLoop strerror entries []

/-- The callback the specification assigns to an entry type: `FTS_D` to
`pre_directory`, `FTS_DP` to `post_directory`, `FTS_DC` to `cycle_directory`,
`FTS_F` to `file`, `FTS_SL` to `symlink`, `FTS_SLNONE` to `broken_symlink`,
`FTS_DEFAULT` to `other`; `none` for every other type. -/
def specCallback (fts_info : Nat) : Option Callback :=
  if fts_info = FTS_D then some .pre_directory
  else if fts_info = FTS_DP then some .post_directory
  else if fts_info = FTS_DC then some .cycle_directory
  else if fts_info = FTS_F then some .file
  else if fts_info = FTS_SL then some .symlink
  else if fts_info = FTS_SLNONE then some .broken_symlink
  else if fts_info = FTS_DEFAULT then some .other
  else none

/-- The call the specification expects for an entry of a visited type. -/
def specCall (ent : FtsEnt) : Option Call :=
  (specCallback ent.fts_info).map (fun cb => ⟨cb, ent.fts_path, ent.fts_statp⟩)

/-- The entry types the specification lists as enumeration failures. -/
def isFailureType (fts_info : Nat) : Bool :=
  fts_info = FTS_DNR || fts_info = FTS_ERR || fts_info = FTS_NS

end Posix

/-! ## Windows (`src/win/sfz/os.cpp`) -/

/-- Offset of the first occurrence of `needle` in `s`, or `npos`
(`string_view::find`). -/
def find : List Char → List Char → Int
  | [], needle => if needle = [] then 0 else npos
  | x :: xs, needle =>
    if needle.isPrefixOf (x :: xs) then 0
    else
      let r := find xs needle
      if r ≠ npos then r + 1 else npos

/-- Modelled from the spec: `partition(&found, separator, &input)`, which
`splitdrive` calls and whose body is not among the sources (string-utils.hpp
only declares a `partition`).  It cuts `input` at the first occurrence of
`separator`: it returns whether the separator occurs, the new `found` and the
new `input`; when the separator does not occur, `found` takes the whole input
and `input` becomes empty. -/
def partition (separator input : List Char) : Bool × List Char × List Char :=
  let at_ := find input separator
  if at_ = npos then
    (false, input, [])
  else
    (true, substr input 0 at_.toNat, substrFrom input (at_.toNat + separator.length))

namespace Win

/-- The Windows path separator, `sep{'\\'}`. -/
def sep : Char := '\\'

/-- Windows `is_sep`: both slashes separate. -/
def is_sep (r : Char) : Bool :=
  r = '/' || r = '\\'

/-- Windows `path::splitdrive`. -/
def splitdrive (path : List Char) : List Char × List Char :=
  match path with
  | [] => ([], path)
  | [_] => ([], path)
  | _ :: second :: _ =>
    let first_two := substr path 0 2
    let remainder := substrFrom path 2
    if second = ':' then
      (first_two, remainder)
    else if first_two = ['\\', '\\'] then
      let r1 := partition ['\\'] remainder
      if r1.1 && !r1.2.1.isEmpty then
        let r2 := partition ['\\'] r1.2.2
        if r2.1 then
          if !r2.2.1.isEmpty then
            let drive_len := ((path.length : Int) - (r2.2.2.length : Int) - 1).toNat
            (substr path 0 drive_len, substrFrom path drive_len)
          else
            ([], path)
        else if !r2.2.1.isEmpty then
          (path, [])
        else
          ([], path)
      else
        ([], path)
    else
      ([], path)

end Win

/-! ## Windows `joinv` and `split` -/

namespace Win

/-- Whether a string begins with a separator: `is_sep(*s.begin())`, read only
where the string is non-empty. -/
def beginsWithSep (s : List Char) : Bool :=
  match s.head? with
  | some r => is_sep r
  | none => false

/-- Whether a string ends with a separator: `is_sep(*--s.end())`, read only
where the string is non-empty. -/
def endsWithSep (s : List Char) : Bool :=
  match s.getLast? with
  | some r => is_sep r
  | none => false

/-- The variables of the first loop of Windows `path::joinv`; `from_segment` is
`none` for `segments.end()`. -/
structure JoinvState where
  drive : List Char
  local_ : List Char
  from_segment : Option Nat
  deriving DecidableEq, Repr

/-- First loop of Windows `path::joinv`; the segment examined has index `i`. -/
def joinvScan : List (List Char) → Nat → JoinvState → JoinvState
  | [], _, st => st
  | seg :: rest, i, st =>
    if seg.isEmpty then
      joinvScan rest (i + 1) st
    else
      let drive_local := splitdrive seg
      if !drive_local.1.isEmpty then
        joinvScan rest (i + 1) ⟨drive_local.1, drive_local.2, some i⟩
      else if beginsWithSep seg then
        joinvScan rest (i + 1) ⟨st.drive, seg, some i⟩
      else
        joinvScan rest (i + 1) st

/-- Body of the second loop of Windows `path::joinv`: a separator is put
before the segment unless `result` is empty, is a bare drive, or already ends
with a separator. -/
def joinvAppend (result seg : List Char) : List Char :=
  let result :=
    if result ≠ [] then
      if !((splitdrive result).2.isEmpty || endsWithSep result) then result ++ [sep]
      else result
    else result
  result ++ seg

/-- Windows `path::joinv`. -/
def joinv (root : List Char) (segments : List (List Char)) : List Char :=
  let drive_local := splitdrive root
  let st := joinvScan segments 0 ⟨drive_local.1, drive_local.2, none⟩
  let result := st.drive ++ st.local_
  let start := Posix.joinvStart st.from_segment
  (segments.drop start).foldl joinvAppend result

/-- The drive in force once the first loop of `joinv` has gone over `root` and
the segments `pre`: the value of its variable `drive` at that point. -/
def joinvDrive (root : List Char) (pre : List (List Char)) : List Char :=
  (joinvScan pre 0 ⟨(splitdrive root).1, (splitdrive root).2, none⟩).drive

/-- One segment's effect on the pair (drive in force, joined path), read off
the two loops of `joinv`: a segment with a drive starts afresh, a segment that
begins with a separator is put behind the drive in force, any other segment is
appended by the second loop. -/
def joinvStep (st : List Char × List Char) (seg : List Char) : List Char × List Char :=
  if (splitdrive seg).1 ≠ [] then ((splitdrive seg).1, seg)
  else if beginsWithSep seg then (st.1, st.1 ++ seg)
  else (st.1, joinvAppend st.2 seg)

/-- The three optional offsets of the scan in Windows `path::split`. -/
structure SplitScan where
  basename_end : Option Nat
  basename_start : Option Nat
  dirname_end : Option Nat
  deriving DecidableEq, Repr

/-- The scan of Windows `path::split`, from `local.rbegin()` to `local.rend()`.
The list holds the runes still to visit, last rune of `local` first: its head
`r` is the rune `*it` and its tail `before` the runes in front of it.
`it.offset()` of the reverse iterator is the offset just past `r` in `local`
(that of the forward iterator underneath), `before.length + 1`. -/
def splitLoop (drive_size : Nat) : List Char → SplitScan → SplitScan
  | [], st => st
  | r :: before, st =>
    let offset := before.length + 1
    if is_sep r then
      if st.basename_end.isNone then
        splitLoop drive_size before st
      else if st.basename_start.isNone then
        splitLoop drive_size before { st with basename_start := some (offset + drive_size) }
      else
        splitLoop drive_size before st
    else
      if st.basename_end.isNone then
        splitLoop drive_size before { st with basename_end := some (offset + drive_size) }
      else if st.basename_start.isNone then
        splitLoop drive_size before st
      else if st.dirname_end.isNone then
        { st with dirname_end := some (offset + drive_size) }
      else
        splitLoop drive_size before st

/-- Windows `path::split`. -/
def split (path : List Char) : List Char × List Char :=
  if path.isEmpty then
    (['.'], [])
  else
    let drive_local := splitdrive path
    let drive := drive_local.1
    let local_ := drive_local.2
    if local_.isEmpty then
      (drive, local_)
    else
      let st := splitLoop drive.length local_.reverse ⟨none, none, none⟩
      match st.basename_end with
      | none => (substr path 0 (drive.length + 1), substr path drive.length 1)
      | some basename_end =>
        let basename_start := st.basename_start.getD drive.length
        let dirname_end := st.dirname_end.getD basename_start
        if basename_start = 0 then
          (['.'], substr path basename_start (basename_end - basename_start))
        else if dirname_end = 0 then
          (substr path 0 1, substr path basename_start (basename_end - basename_start))
        else
          (substr path 0 dirname_end,
            substr path basename_start (basename_end - basename_start))

/-- The offsets Windows `split` cuts the path at once its scan has found a
basename: `(dirname_end, basename_start, basename_end)` with the defaults
applied; `none` when the scan finds no basename. -/
def splitOffsets (path : List Char) : Option (Nat × Nat × Nat) :=
  let drive := (splitdrive path).1
  let local_ := (splitdrive path).2
  let st := splitLoop drive.length local_.reverse ⟨none, none, none⟩
  match st.basename_end with
  | none => none
  | some basename_end =>
    let basename_start := st.basename_start.getD drive.length
    let dirname_end := st.dirname_end.getD basename_start
    some (dirname_end, basename_start, basename_end)

/-- Pairs two checked results; the first error wins. -/
def pairChecked (a b : Except Fault (List Char)) : Except Fault (List Char × List Char) :=
  match a with
  | .error e => .error e
  | .ok x =>
    match b with
    | .error e => .error e
    | .ok y => .ok (x, y)

/-- Windows `path::split` with every substring checked: the sizes are the
differences the source computes, as integers. -/
def splitChecked (path : List Char) : Except Fault (List Char × List Char) :=
  if path.isEmpty then
    .ok (['.'], [])
  else
    let drive_local := splitdrive path
    let drive := drive_local.1
    let local_ := drive_local.2
    if local_.isEmpty then
      .ok (drive, local_)
    else
      let st := splitLoop drive.length local_.reverse ⟨none, none, none⟩
      match st.basename_end with
      | none =>
        pairChecked (substrChecked path 0 ((drive.length : Int) + 1))
          (substrChecked path (drive.length : Int) 1)
      | some basename_end =>
        let basename_start := st.basename_start.getD drive.length
        let dirname_end := st.dirname_end.getD basename_start
        if basename_start = 0 then
          pairChecked (.ok ['.'])
            (substrChecked path (basename_start : Int)
              ((basename_end : Int) - (basename_start : Int)))
        else if dirname_end = 0 then
          pairChecked (substrChecked path 0 1)
            (substrChecked path (basename_start : Int)
              ((basename_end : Int) - (basename_start : Int)))
        else
          pairChecked (substrChecked path 0 (dirname_end : Int))
            (substrChecked path (basename_start : Int)
              ((basename_end : Int) - (basename_start : Int)))

/-- Windows `path::dirname`. -/
def dirname (path : List Char) : List Char :=
  (split path).1

/-- Windows `path::basename`. -/
def basename (path : List Char) : List Char :=
  (split path).2

/-! ### The specification's vocabulary for Windows paths -/

/-- The fields of the part of a path after the drive: the pieces between
separators, `/` and backslash alike, empty pieces included. -/
def fields : List Char → List (List Char)
  | [] => [[]]
  | c :: cs =>
    if is_sep c then
      [] :: fields cs
    else
      match fields cs with
      | [] => [[c]]
      | f :: fs => (c :: f) :: fs

/-- The components that survive normalization: the fields that are neither
empty (runs of separators, a leading or trailing separator) nor `.`. -/
def components (p : List Char) : List (List Char) :=
  (fields p).filter (fun f => decide (f ≠ []) && decide (f ≠ ['.']))

/-- The location a Windows path denotes up to separator normalization: its
drive, whether the part after the drive begins with a separator, and the
components of that part. -/
structure Location where
  drive : List Char
  rooted : Bool
  components : List (List Char)
  deriving DecidableEq, Repr

/-- Separator normalization of the specification for Windows: the drive is
kept, `/` and backslash are the same separator, runs of separators after the
drive collapse, and `.` components are dropped. -/
def normalize (p : List Char) : Location :=
  ⟨(splitdrive p).1, beginsWithSep (splitdrive p).2, components (splitdrive p).2⟩

/-- Whether a text has the form of a UNC machine, two backslashes and a name:
two backslashes followed by a text without backslash, with no separator at the
end. -/
def isMachine (dir : List Char) : Bool :=
  match dir with
  | '\\' :: '\\' :: rest => decide ('\\' ∉ rest) && !endsWithSep dir
  | _ => false

end Win

/-! ## Windows `walk` (`src/win/sfz/os.cpp`)

The operating system's side of the Windows `walk` is what `FindFirstFileA`,
`FindNextFileA` and `stat` answer; it is kept here as a finite tree.  The
visitor's side is the sequence of callbacks, as for POSIX. -/

namespace Win

/-- `FILE_ATTRIBUTE_DIRECTORY` of the Windows headers. -/
def FILE_ATTRIBUTE_DIRECTORY : Nat := 0x10

/-- `FILE_ATTRIBUTE_REPARSE_POINT` of the Windows headers. -/
def FILE_ATTRIBUTE_REPARSE_POINT : Nat := 0x400

/-- `IO_REPARSE_TAG_SYMLINK` of the Windows headers. -/
def IO_REPARSE_TAG_SYMLINK : Nat := 0xA000000C

/-- The fields of a `WIN32_FIND_DATAA` that `walk` reads. -/
structure FindData where
  cFileName : List Char
  dwFileAttributes : Nat
  dwReserved0 : Nat
  deriving DecidableEq, Repr

mutual
/-- What the operating system answers about one path: its find data, the
result of `stat` (`none` when `stat` fails) and what enumerating the path's
contents gives. -/
inductive Entry where
  | mk (file_data : FindData) (st : Option Posix.Stat) (dir : Listing)
/-- One enumeration: `failed` when `FindFirstFileA` gives
`INVALID_HANDLE_VALUE`; otherwise the entry `FindFirstFileA` returns, the
entries the successive `FindNextFileA` calls return, and whether the call that
ends them leaves `ERROR_NO_MORE_FILES` as the last error. -/
inductive Listing where
  | failed
  | found (first : Entry) (next : Entries) (no_more_files : Bool)
/-- The entries of successive `FindNextFileA` calls. -/
inductive Entries where
  | nil
  | cons (entry : Entry) (rest : Entries)
end

/-- The find data of an entry. -/
def Entry.file_data : Entry → FindData
  | .mk file_data _ _ => file_data

/-- The two kinds of `std::runtime_error` the Windows `walk` throws, with the
path their messages name: `walk: {0}: {1}` and `stat: {0}: {1}`. -/
inductive WalkError where
  | walk (root : List Char)
  | stat (path : List Char)
  deriving DecidableEq, Repr

mutual
/-- Windows `visit_file`: the calls made and the error thrown, if any. -/
def visit_file (path : List Char) : Entry → List Posix.Call × Option WalkError
  | .mk file_data st dir =>
    match st with
    | none => ([], some (.stat path))
    | some st =>
      if file_data.dwFileAttributes &&& FILE_ATTRIBUTE_DIRECTORY ≠ 0 then
        let r := walk_dir path dir
        match r.2 with
        | some e => (⟨.pre_directory, path, st⟩ :: r.1, some e)
        | none => (⟨.pre_directory, path, st⟩ :: r.1 ++ [⟨.post_directory, path, st⟩], none)
      else if file_data.dwFileAttributes &&& FILE_ATTRIBUTE_REPARSE_POINT = 0 then
        ([⟨.file, path, st⟩], none)
      else if file_data.dwReserved0 = IO_REPARSE_TAG_SYMLINK then
        ([⟨.symlink, path, st⟩], none)
      else
        ([⟨.other, path, st⟩], none)
/-- Windows `walk_dir`.  The handle `FindFirstFileA` gives is never null, so
the first test never throws; after a failed `FindFirstFileA` the loop has no
round and the last error is not `ERROR_NO_MORE_FILES`.  The entry that
`FindFirstFileA` itself returns is not looked at. -/
def walk_dir (root : List Char) : Listing → List Posix.Call × Option WalkError
  | .failed => ([], some (.walk root))
  | .found _ next no_more_files =>
    let r := walk_next root next
    match r.2 with
    | some e => (r.1, some e)
    | none => if no_more_files then (r.1, none) else (r.1, some (.walk root))
/-- The `while (FindNextFileA(list.h, &file_data))` loop of `walk_dir`. -/
def walk_next (root : List Char) : Entries → List Posix.Call × Option WalkError
  | .nil => ([], none)
  | .cons entry rest =>
    if entry.file_data.cFileName = ['.'] ∨ entry.file_data.cFileName = ['.', '.'] then
      walk_next root rest
    else
      let r := visit_file (root ++ '\\' :: entry.file_data.cFileName) entry
      match r.2 with
      | some e => (r.1, some e)
      | none =>
        let r2 := walk_next root rest
        (r.1 ++ r2.1, r2.2)
end

/-- Windows `walk`; `found` is what `FindFirstFileA(root)` answers, `none` for
`INVALID_HANDLE_VALUE`.  The source discards `type` (`static_cast<void>(type)`). -/
def walk (root : List Char) (type : Posix.WalkType) (found : Option Entry) :
    List Posix.Call × Option WalkError :=
  let _ := type
  match found with
  | none => ([], some (.walk root))
  | some entry => visit_file root entry

/-- The names a `FindNextFileA` loop visits: all but `.` and `..`. -/
def Entries.names : Entries → List (List Char)
  | .nil => []
  | .cons entry rest =>
    if entry.file_data.cFileName = ['.'] ∨ entry.file_data.cFileName = ['.', '.'] then
      Entries.names rest
    else
      entry.file_data.cFileName :: Entries.names rest

mutual
/-- A tree as a file system gives it: in every enumeration that the traversal
reaches, the visited names hold no backslash and are pairwise different. -/
def Entry.valid : Entry → Bool
  | .mk _ _ dir => Listing.valid dir
/-- Validity of one enumeration. -/
def Listing.valid : Listing → Bool
  | .failed => true
  | .found _ next _ => Entries.valid next
/-- Validity of the entries of the `FindNextFileA` calls. -/
def Entries.valid : Entries → Bool
  | .nil => true
  | .cons entry rest =>
    (entry.file_data.cFileName = ['.'] ∨ entry.file_data.cFileName = ['.', '.'] ∨
      ('\\' ∉ entry.file_data.cFileName ∧
        entry.file_data.cFileName ∉ Entries.names rest ∧ Entry.valid entry = true)) &&
    Entries.valid rest
end

end Win

/-! ## Traces: the specification's vocabulary -/

/-- Whether path `p` lies beneath directory `d`: `p` begins with `d` followed
by the separator. -/
def beneath (sep : Char) (d p : List Char) : Bool :=
  (d ++ [sep]).isPrefixOf p

/-- The order the specification asks of two calls `a`, `b` made in this order:
`b` is not the `pre_directory` of a directory that `a` lies beneath, and `a` is
not the `post_directory` of a directory that `b` lies beneath. -/
def ordered (sep : Char) (a b : Posix.Call) : Bool :=
  !(b.callback == .pre_directory && beneath sep b.path a.path) &&
    !(a.callback == .post_directory && beneath sep a.path b.path)

/-- A well-nested trace: `pre_directory(d)` precedes every callback for a path
beneath `d`, and `post_directory(d)` follows all of them. -/
def WellNested (sep : Char) (trace : List Posix.Call) : Prop :=
  trace.Pairwise (fun a b => ordered sep a b = true)

instance (sep : Char) (trace : List Posix.Call) : Decidable (WellNested sep trace) := by
  unfold WellNested
  infer_instance

/-- Reads a trace against the stack of the directories that are open: a call
other than `post_directory` must be for a path beneath the innermost open
directory, `pre_directory` opens its path, `post_directory` must name the
innermost open directory and closes it, nothing may follow once every
directory is closed, and none may stay open. -/
def closes (sep : Char) : List (List Char) → List Posix.Call → Bool
  | stack, [] => stack.isEmpty
  | [], _ :: _ => false
  | d :: up, c :: rest =>
    match c.callback with
    | .post_directory => c.path == d && closes sep up rest
    | .pre_directory => beneath sep d c.path && closes sep (c.path :: d :: up) rest
    | _ => beneath sep d c.path && closes sep (d :: up) rest

/-- A trace that is one complete visit of `root`: a single call for a
non-directory, or `pre_directory(root)`, calls for paths beneath it in
properly closed directories, and `post_directory(root)` last. -/
def oneVisit (sep : Char) (root : List Char) : List Posix.Call → Bool
  | [] => false
  | c :: rest =>
    c.path == root &&
      match c.callback with
      | .pre_directory => closes sep [root] rest
      | .post_directory => false
      | _ => rest.isEmpty

/-! ## `rmtree` (`src/posix/sfz/os.cpp` and `src/win/sfz/os.cpp`)

The two `rmtree`s differ only in the `walk` they call.  The operating system's
side is a finite set of existing paths. -/

/-- The two operations that the visitor of `rmtree` issues. -/
inductive FsOp where
  | unlink (path : List Char)
  | rmdir (path : List Char)
  deriving DecidableEq, Repr

/-- The path an operation names. -/
def FsOp.path : FsOp → List Char
  | .unlink path => path
  | .rmdir path => path

/-- `RmtreeVisitor`, the class local to `rmtree`: what each callback issues. -/
def RmtreeVisitor (c : Posix.Call) : Option FsOp :=
  match c.callback with
  | .pre_directory => none
  | .cycle_directory => none
  | .post_directory => some (.rmdir c.path)
  | .file => some (.unlink c.path)
  | .symlink => some (.unlink c.path)
  | .broken_symlink => some (.unlink c.path)
  | .other => some (.unlink c.path)

/-- One existing path of a file-system state, with whether it is a directory. -/
structure FsNode where
  path : List Char
  is_dir : Bool
  deriving DecidableEq, Repr

/-- The answer of `path::exists` in a state. -/
def path_exists (fs : List FsNode) (path : List Char) : Bool :=
  fs.any (fun n => n.path == path)

/-- The operating system's side of `unlink` and `rmdir`: `unlink` removes an
existing path that is not a directory, `rmdir` an existing directory with
nothing beneath it; `none` when the call fails, and the library function then
throws. -/
def FsOp.apply (sep : Char) (fs : List FsNode) : FsOp → Option (List FsNode)
  | .unlink path =>
    if fs.contains ⟨path, false⟩ then some (fs.filter (fun n => n.path != path)) else none
  | .rmdir path =>
    if fs.contains ⟨path, true⟩ && fs.all (fun n => !beneath sep path n.path) then
      some (fs.filter (fun n => n.path != path))
    else none

/-- The visitor of `rmtree` run over the calls of a walk: the operations
issued, the state left, and the operation whose failure ended the walk, if
any. -/
def rmtreeVisit (sep : Char) : List Posix.Call → List FsNode →
    List FsOp × List FsNode × Option FsOp
  | [], fs => ([], fs, none)
  | c :: rest, fs =>
    match RmtreeVisitor c with
    | none => rmtreeVisit sep rest fs
    | some op =>
      match FsOp.apply sep fs op with
      | none => ([op], fs, some op)
      | some fs2 =>
        let r := rmtreeVisit sep rest fs2
        (op :: r.1, r.2.1, r.2.2)

/-- What a call of `rmtree` does: how many walks it starts, the operations it
issues in order, the state it leaves, the operation whose failure it throws
and the error of `walk` it throws. -/
structure RmtreeResult (E : Type) where
  walks : Nat
  ops : List FsOp
  fs : List FsNode
  failed : Option FsOp
  walk_error : Option E
  deriving DecidableEq, Repr

namespace Posix

/-- POSIX `rmtree`. -/
def rmtree (fts_open : List Char → Nat → Option (List FtsEnt)) (strerror : List Char)
    (fs : List FsNode) (path : List Char) : RmtreeResult WalkError :=
  if path_exists fs path then
    let w := walk fts_open strerror path .WALK_PHYSICAL
    let r := rmtreeVisit sep w.1 fs
    ⟨1, r.1, r.2.1, r.2.2, if r.2.2.isSome then none else w.2⟩
  else
    ⟨0, [], fs, none, none⟩

/-- What `fts_read` returns for the tree `root/{file.txt, sub/inner.txt}` of
the specification's example. -/
def exampleEntries : List FtsEnt :=
  [⟨FTS_D, "root".toList, ⟨0, 0, 0⟩⟩,
   ⟨FTS_F, "root/file.txt".toList, ⟨0, 0, 0⟩⟩,
   ⟨FTS_D, "root/sub".toList, ⟨0, 0, 0⟩⟩,
   ⟨FTS_F, "root/sub/inner.txt".toList, ⟨0, 0, 0⟩⟩,
   ⟨FTS_DP, "root/sub".toList, ⟨0, 0, 0⟩⟩,
   ⟨FTS_DP, "root".toList, ⟨0, 0, 0⟩⟩]

/-- The state that holds the example tree. -/
def exampleFs : List FsNode :=
  [⟨"root".toList, true⟩, ⟨"root/file.txt".toList, false⟩, ⟨"root/sub".toList, true⟩,
   ⟨"root/sub/inner.txt".toList, false⟩]

end Posix

namespace Win

/-- Windows `rmtree`; `found` is what `FindFirstFileA(path)` answers. -/
def rmtree (found : Option Entry) (fs : List FsNode) (path : List Char) :
    RmtreeResult WalkError :=
  if path_exists fs path then
    let w := walk path .WALK_PHYSICAL found
    let r := rmtreeVisit sep w.1 fs
    ⟨1, r.1, r.2.1, r.2.2, if r.2.2.isSome then none else w.2⟩
  else
    ⟨0, [], fs, none, none⟩

/-- The entry `.` of an enumeration. -/
def exampleDot : Entry :=
  .mk ⟨['.'], FILE_ATTRIBUTE_DIRECTORY, 0⟩ (some ⟨0, 0, 0⟩) .failed

/-- The entry `..` of an enumeration. -/
def exampleDotDot : Entry :=
  .mk ⟨['.', '.'], FILE_ATTRIBUTE_DIRECTORY, 0⟩ (some ⟨0, 0, 0⟩) .failed

/-- A regular file. -/
def exampleFile (name : List Char) : Entry :=
  .mk ⟨name, 0x80, 0⟩ (some ⟨0, 0, 0⟩) .failed

/-- The directory `sub` of the specification's example, enumerated in name
order after `.` and `..`. -/
def exampleSub : Entry :=
  .mk ⟨"sub".toList, FILE_ATTRIBUTE_DIRECTORY, 0⟩ (some ⟨0, 0, 0⟩)
    (.found exampleDot (.cons exampleDotDot (.cons (exampleFile "inner.txt".toList) .nil)) true)

/-- The tree `root/{file.txt, sub/inner.txt}` of the specification's example. -/
def exampleRoot : Entry :=
  .mk ⟨"root".toList, FILE_ATTRIBUTE_DIRECTORY, 0⟩ (some ⟨0, 0, 0⟩)
    (.found exampleDot
      (.cons exampleDotDot (.cons (exampleFile "file.txt".toList) (.cons exampleSub .nil))) true)

/-- The state that holds the example tree. -/
def exampleFs : List FsNode :=
  [⟨"root".toList, true⟩, ⟨"root\\file.txt".toList, false⟩, ⟨"root\\sub".toList, true⟩,
   ⟨"root\\sub\\inner.txt".toList, false⟩]

/-- A directory whose enumeration starts with a file: `FindFirstFileA` returns
`a.txt`, and `FindNextFileA` then `b.txt`. -/
def firstEntryRoot : Entry :=
  .mk ⟨"root".toList, FILE_ATTRIBUTE_DIRECTORY, 0⟩ (some ⟨0, 0, 0⟩)
    (.found (exampleFile "a.txt".toList) (.cons (exampleFile "b.txt".toList) .nil) true)

/-- A symbolic link `link` to the directory `sub`: both attributes set, tag
`IO_REPARSE_TAG_SYMLINK`, and enumerating it lists the target. -/
def exampleLink : Entry :=
  .mk ⟨"link".toList, FILE_ATTRIBUTE_DIRECTORY ||| FILE_ATTRIBUTE_REPARSE_POINT,
      IO_REPARSE_TAG_SYMLINK⟩ (some ⟨0, 0, 0⟩)
    (.found exampleDot (.cons exampleDotDot (.cons (exampleFile "inner.txt".toList) .nil)) true)

/-- A directory `root` that holds only the link. -/
def linkRoot : Entry :=
  .mk ⟨"root".toList, FILE_ATTRIBUTE_DIRECTORY, 0⟩ (some ⟨0, 0, 0⟩)
    (.found exampleDot (.cons exampleDotDot (.cons exampleLink .nil)) true)

end Win

/-! ## Code points (`src/all/sfz/encoding.cpp`) -/

/-- The test `is_surrogate` of encoding.cpp, on the value of a `uint32_t`:
`(rune & 0xfffff800) == 0x00d800`. -/
def is_surrogate (rune : Nat) : Bool :=
  (rune &&& 0xfffff800) == 0x00d800

/-- The test `is_valid_code_point` of encoding.cpp, on the value of a
`uint32_t`. -/
def is_valid_code_point (rune : Nat) : Bool :=
  decide (rune ≤ 0x10ffff) && !is_surrogate rune

/-! ## POSIX `makedirs` (`src/posix/sfz/os.cpp`) -/

namespace Posix

/-- POSIX `makedirs`, with the operating system's answer to `path::isdir` as
`isdir` and one unit of fuel per call: the `mkdir` calls it makes, in order, or
`none` when the fuel runs out.  A failing `mkdir` is left out. -/
def makedirs (isdir : List Char → Bool) : Nat → List Char → Option (List (List Char))
  | 0, _ => none
  | fuel + 1, path =>
    if !isdir path then
      match makedirs isdir fuel (dirname path) with
      | none => none
      | some made => some (made ++ [path])
    else
      some []

/-- Where the iteration of `dirname` ends: the root for a path that begins
with the separator, `.` for any other. -/
def dirnameLimit (path : List Char) : List Char :=
  if path.head? = some sep then [sep] else ['.']

end Posix

/-! ## `string_to_int`, `upper` and `lower` (`include/all/sfz/string-utils.hpp`)

The header declares these functions; `string-utils.cpp`, which defines them,
is not among the sources. -/

/-- `StringToIntResult::Failure` of string-utils.hpp. -/
inductive Failure where
  | NONE
  | INVALID_LITERAL
  | INTEGER_OVERFLOW
  deriving DecidableEq, Repr

/-- An integer type `T` of `string_to_int<T>`: its width and whether it is
signed. -/
structure IntType where
  bits : Nat
  is_signed : Bool
  deriving DecidableEq, Repr

/-- The least value of the type. -/
def IntType.min (T : IntType) : Int :=
  if T.is_signed then -(2 ^ (T.bits - 1)) else 0

/-- The greatest value of the type. -/
def IntType.max (T : IntType) : Int :=
  if T.is_signed then 2 ^ (T.bits - 1) - 1 else 2 ^ T.bits - 1

/-- The eight types the tests instantiate `string_to_int` with: `int8_t`,
`int16_t`, `int32_t`, `int64_t`, `uint8_t`, `uint16_t`, `uint32_t`, `uint64_t`. -/
def intTypes : List IntType :=
  [⟨8, true⟩, ⟨16, true⟩, ⟨32, true⟩, ⟨64, true⟩,
   ⟨8, false⟩, ⟨16, false⟩, ⟨32, false⟩, ⟨64, false⟩]

/-- Modelled from the spec: the value of a decimal digit, `none` for any other
character; part of `string_to_int`, whose definition in string-utils.cpp is not
among the sources. -/
def digit (c : Char) : Option Int :=
  if '0' ≤ c ∧ c ≤ '9' then some ((c.toNat - 48 : Nat) : Int) else none

/-- Modelled from the spec: the digit loop of `string_to_int<T>` in base 10,
whose definition in string-utils.cpp is not among the sources.  It takes the
digits one at a time into `value`, away from zero on the side of the sign, and
stops with `INTEGER_OVERFLOW` at the first digit that would take the value out
of the range of `T`, and with `INVALID_LITERAL` at a character that is no
digit. -/
def string_to_int_digits (T : IntType) (negative : Bool) : List Char → Int → Failure × Int
  | [], value => (.NONE, value)
  | c :: rest, value =>
    match digit c with
    | none => (.INVALID_LITERAL, value)
    | some d =>
      if negative then
        if value * 10 - d < T.min then (.INTEGER_OVERFLOW, value)
        else string_to_int_digits T negative rest (value * 10 - d)
      else
        if T.max < value * 10 + d then (.INTEGER_OVERFLOW, value)
        else string_to_int_digits T negative rest (value * 10 + d)

/-- Modelled from the spec: `string_to_int<T>(s, out)` in base 10, whose
definition in string-utils.cpp is not among the sources: an optional `-`, then
one or more decimal digits.  Gives the failure and, on success, `out`. -/
def string_to_int (T : IntType) (s : List Char) : Failure × Option Int :=
  let negative : Bool := s.head? = some '-'
  let digits := if negative then s.tail else s
  if digits = [] then (.INVALID_LITERAL, none)
  else
    match string_to_int_digits T negative digits 0 with
    | (.NONE, value) => (.NONE, some value)
    | (failure, _) => (failure, none)

/-- The number a string of decimal digits denotes. -/
def decimal (digits : List Char) : Int :=
  digits.foldl (fun a c => a * 10 + (digit c).getD 0) 0

/-- The strings the claim is about: one or more decimal digits, optionally
preceded by `-`. -/
def isLiteral (s : List Char) : Bool :=
  match s with
  | '-' :: digits => !digits.isEmpty && digits.all (fun c => (digit c).isSome)
  | digits => !digits.isEmpty && digits.all (fun c => (digit c).isSome)

/-- The integer a literal denotes. -/
def denoted (s : List Char) : Int :=
  match s with
  | '-' :: digits => -decimal digits
  | digits => decimal digits

/-- Modelled from the spec: what `upper` does to one code point; its definition
in string-utils.cpp is not among the sources. -/
def upperRune (c : Char) : Char :=
  if 'a' ≤ c ∧ c ≤ 'z' then Char.ofNat (c.toNat - 32) else c

/-- Modelled from the spec: what `lower` does to one code point; its definition
in string-utils.cpp is not among the sources. -/
def lowerRune (c : Char) : Char :=
  if 'A' ≤ c ∧ c ≤ 'Z' then Char.ofNat (c.toNat + 32) else c

/-- Modelled from the spec: `upper`, whose definition in string-utils.cpp is
not among the sources, on the code points of the string. -/
def upper (s : List Char) : List Char :=
  s.map upperRune

/-- Modelled from the spec: `lower`, whose definition in string-utils.cpp is
not among the sources, on the code points of the string. -/
def lower (s : List Char) : List Char :=
  s.map lowerRune

/-- The ASCII lowercase letters, in order. -/
def lowercaseLetters : List Char := "abcdefghijklmnopqrstuvwxyz".toList

/-- The ASCII uppercase letters, in order. -/
def uppercaseLetters : List Char := "ABCDEFGHIJKLMNOPQRSTUVWXYZ".toList

/-! ## Encodings (`src/all/sfz/encoding.cpp`)

A `pn::string` is the list of its code points and a `pn::data` the list of its
bytes, both as natural numbers; a byte is below 256.  The conversion to
`uint8_t` in `byte = r.value()` is written `% 256`. -/

/-- The constant `kUnknownCodePoint`, REPLACEMENT CHARACTER. -/
def kUnknownCodePoint : Nat := 0x00fffd

/-- The constant `kAsciiUnknownCodePoint`, QUESTION MARK. -/
def kAsciiUnknownCodePoint : Nat := 0x00003f

namespace ascii

/-- The function `ascii::encode`. -/
def encode (string : List Nat) : List Nat :=
  string.foldl
    (fun out r => out ++ [if r < 0x80 then r % 256 else kAsciiUnknownCodePoint % 256]) []

/-- The function `ascii::decode`. -/
def decode (data : List Nat) : List Nat :=
  data.foldl (fun out byte => out ++ [if byte < 0x80 then byte else kUnknownCodePoint]) []

end ascii

namespace latin1

/-- The function `latin1::encode`; `'?'` is `0x3f`. -/
def encode (string : List Nat) : List Nat :=
  string.foldl (fun out r => out ++ [if r < 0x100 then r % 256 else 0x3f]) []

/-- The function `latin1::decode`. -/
def decode (data : List Nat) : List Nat :=
  data.foldl (fun out byte => out ++ [byte]) []

end latin1

namespace macroman

/-- The table `kMacRomanSupplement`: the code points of the bytes `0x80` to
`0xff`. -/
def kMacRomanSupplement : List Nat :=
  [0x00C4, 0x00C5, 0x00C7, 0x00C9, 0x00D1, 0x00D6, 0x00DC, 0x00E1,
   0x00E0, 0x00E2, 0x00E4, 0x00E3, 0x00E5, 0x00E7, 0x00E9, 0x00E8,
   0x00EA, 0x00EB, 0x00ED, 0x00EC, 0x00EE, 0x00EF, 0x00F1, 0x00F3,
   0x00F2, 0x00F4, 0x00F6, 0x00F5, 0x00FA, 0x00F9, 0x00FB, 0x00FC,
   0x2020, 0x00B0, 0x00A2, 0x00A3, 0x00A7, 0x2022, 0x00B6, 0x00DF,
   0x00AE, 0x00A9, 0x2122, 0x00B4, 0x00A8, 0x2260, 0x00C6, 0x00D8,
   0x221E, 0x00B1, 0x2264, 0x2265, 0x00A5, 0x00B5, 0x2202, 0x2211,
   0x220F, 0x03C0, 0x222B, 0x00AA, 0x00BA, 0x03A9, 0x00E6, 0x00F8,
   0x00BF, 0x00A1, 0x00AC, 0x221A, 0x0192, 0x2248, 0x2206, 0x00AB,
   0x00BB, 0x2026, 0x00A0, 0x00C0, 0x00C3, 0x00D5, 0x0152, 0x0153,
   0x2013, 0x2014, 0x201C, 0x201D, 0x2018, 0x2019, 0x00F7, 0x25CA,
   0x00FF, 0x0178, 0x2044, 0x20AC, 0x2039, 0x203A, 0xFB01, 0xFB02,
   0x2021, 0x00B7, 0x201A, 0x201E, 0x2030, 0x00C2, 0x00CA, 0x00C1,
   0x00CB, 0x00C8, 0x00CD, 0x00CE, 0x00CF, 0x00CC, 0x00D3, 0x00D4,
   0xF8FF, 0x00D2, 0x00DA, 0x00DB, 0x00D9, 0x0131, 0x02C6, 0x02DC,
   0x00AF, 0x02D8, 0x02D9, 0x02DA, 0x00B8, 0x02DD, 0x02DB, 0x02C7]

/-- The inner loop of `macroman::encode` over the table entries from index `i`
on: the byte of the first entry equal to `r`, and `'?'` when the loop ends
without one. -/
def encodeScan (r : Nat) : List Nat → Nat → Nat
  | [], _ => 0x3f
  | entry :: rest, i => if r = entry then (0x80 + i) % 256 else encodeScan r rest (i + 1)

/-- The body of the loop of `macroman::encode` for a table: the byte for one
code point. -/
def encodeRune (table : List Nat) (r : Nat) : Nat :=
  if r < 0x80 then r % 256 else encodeScan r table 0

/-- The body of the loop of `macroman::decode` for a table: the code point for
one byte; the index `byte - 0x80` is within the table for every byte. -/
def decodeByte (table : List Nat) (byte : Nat) : Nat :=
  if byte < 0x80 then byte else table.getD (byte - 0x80) 0

/-- The function `macroman::encode`. -/
def encode (string : List Nat) : List Nat :=
  string.foldl (fun out r => out ++ [encodeRune kMacRomanSupplement r]) []

/-- The function `macroman::decode`. -/
def decode (data : List Nat) : List Nat :=
  data.foldl (fun out byte => out ++ [decodeByte kMacRomanSupplement byte]) []

end macroman

/-! ## `Bytes` and `BytesPiece` (`src/all/sfz/Bytes.cpp`)

A `size_t` is a natural number below `2 ^ 64`, and every `size_t` sum and
product is taken modulo `2 ^ 64`.  An array or a pointer is the function that
gives the byte at each index from it.  In a constructor, `fresh` is the array
that `new uint8_t[n]` gives, of unspecified content; a constructor whose `new`
throws makes no object.  In `reserve`, `alloc n` is what `new uint8_t[n]`
gives: an array of unspecified content, or `none` when it throws
`std::bad_alloc`. -/

/-- Arithmetic in `size_t`: modulo `2 ^ 64`. -/
def size_t (n : Nat) : Nat :=
  n % 2 ^ 64

/-- The constant `kDefaultBytesSize`. -/
def kDefaultBytesSize : Nat := 16

/-- The function `memcpy(dst + at, src, n)`, on the array `dst`. -/
def memcpy (dst : Nat → Nat) (offset : Nat) (src : Nat → Nat) (n : Nat) : Nat → Nat :=
  fun i => if offset ≤ i ∧ i < offset + n then src (i - offset) else dst i

/-- The fields of a `BytesPiece`. -/
structure BytesPiece where
  _data : Nat → Nat
  _size : Nat

/-- The fields of a `Bytes`. -/
structure Bytes where
  _data : Nat → Nat
  _size : Nat
  _capacity : Nat

/-- How a call that may allocate ends: it returns, or `new` throws
`std::bad_alloc` and the exception leaves the call; each with the buffer as
the call leaves it. -/
inductive Outcome where
  | returned (b : Bytes)
  | bad_alloc (b : Bytes)

/-- The buffer as the call leaves it. -/
def Outcome.buffer : Outcome → Bytes
  | .returned b => b
  | .bad_alloc b => b

/-- Whether the call returned. -/
def Outcome.isReturned : Outcome → Bool
  | .returned _ => true
  | .bad_alloc _ => false

namespace Bytes

/-- The `while (new_capacity < capacity)` loop of `Bytes::reserve`, with one
unit of fuel for each test of the condition; `none` when the fuel runs out. -/
def reserveLoop : Nat → Nat → Nat → Option Nat
  | 0, _, _ => none
  | fuel + 1, capacity, new_capacity =>
    if new_capacity < capacity then reserveLoop fuel capacity (size_t (new_capacity * 2))
    else some new_capacity

/-- The function `Bytes::reserve`; `none` when the fuel of the loop runs out.
The array is allocated after the loop and before any field is written, so a
`std::bad_alloc` leaves the buffer as it was. -/
def reserve (fuel : Nat) (alloc : Nat → Option (Nat → Nat)) (b : Bytes) (capacity : Nat) :
    Option Outcome :=
  if b._capacity < capacity then
    match reserveLoop fuel capacity (size_t (b._capacity * 2)) with
    | none => none
    | some new_capacity =>
      match alloc new_capacity with
      | none => some (.bad_alloc b)
      | some new_data =>
        some (.returned ⟨memcpy new_data 0 b._data b._size, b._size, new_capacity⟩)
  else
    some (.returned b)

/-- The constructor `Bytes::Bytes()`. -/
def new (fresh : Nat → Nat) : Bytes :=
  ⟨fresh, 0, kDefaultBytesSize⟩

/-- The function `swap(Bytes& x, Bytes& y)`. -/
def swap (x y : Bytes) : Bytes × Bytes :=
  (⟨y._data, y._size, y._capacity⟩, ⟨x._data, x._size, x._capacity⟩)

/-- The representation invariant of the specification: `size <= capacity` and
`capacity >= 16`. -/
def Inv (b : Bytes) : Prop :=
  b._size ≤ b._capacity ∧ 16 ≤ b._capacity

instance (b : Bytes) : Decidable (Inv b) := by
  unfold Inv
  infer_instance

/-- An allocator that gives every array asked for. -/
def allocAll : Nat → Option (Nat → Nat) :=
  fun _ => some (fun _ => 0)

/-- An allocator that gives arrays of up to `2 ^ 32` bytes and throws
`std::bad_alloc` for larger ones. -/
def allocSmall : Nat → Option (Nat → Nat) :=
  fun n => if n ≤ 2 ^ 32 then some (fun _ => 0) else none

end Bytes

namespace BytesPiece

/-- The function `BytesPiece::substr(size_t index, size_t size)`; `none` is
`abort()`. -/
def substr (p : BytesPiece) (index size : Nat) : Option BytesPiece :=
  if size_t (index + size) > p._size then none
  else some ⟨fun i => p._data (index + i), size⟩

end BytesPiece

/-! ## `StringMap` (`include/all/sfz/string-map.hpp`)

The `std::map` behind a `StringMap` is the list of its entries in key order,
each entry a key with the value of its `WrappedValue`; `Compare` is the default,
the order of the keys as strings.  An iterator is a position in the list, and
`end()` is the length. -/

/-- The fields of a `StringMap<T>`. -/
structure StringMap (T : Type) where
  _map : List (List Char × T)

namespace StringMap

/-- The function `std::map::find`: the position of the entry with the key, or
`end()`. -/
def mapFind {T : Type} : List (List Char × T) → List Char → Nat
  | [], _ => 0
  | e :: rest, key => if e.1 = key then 0 else mapFind rest key + 1

/-- Where `std::map::insert` puts an entry with a new key: before the first
entry with a greater key.  Gives the entries and the position of the new one. -/
def mapPlace {T : Type} : List (List Char × T) → List Char × T → List (List Char × T) × Nat
  | [], entry => ([entry], 0)
  | e :: rest, entry =>
    if entry.1 < e.1 then (entry :: e :: rest, 0)
    else ((e :: (mapPlace rest entry).1), (mapPlace rest entry).2 + 1)

/-- The function `std::map::insert`: the entries, the position of the entry
with the key, and whether the entry was inserted. -/
def mapInsert {T : Type} (m : List (List Char × T)) (entry : List Char × T) :
    List (List Char × T) × Nat × Bool :=
  if mapFind m entry.1 = m.length then ((mapPlace m entry).1, (mapPlace m entry).2, true)
  else (m, mapFind m entry.1, false)

/-- The function `StringMap::insert`: the map it leaves, the iterator, and the
flag. -/
def insert {T : Type} (m : StringMap T) (pair : List Char × T) : StringMap T × Nat × Bool :=
  let key := pair.1
  let value := pair.2
  let it := mapFind m._map key
  if it = m._map.length then
    let inserted : List Char × T := (key, value)
    let it := (mapInsert m._map inserted).2.1
    (⟨(mapInsert m._map inserted).1⟩, it, true)
  else
    (m, it, false)

/-- The value bound to a key, if any. -/
def get {T : Type} : List (List Char × T) → List Char → Option T
  | [], _ => none
  | e :: rest, key => if e.1 = key then some e.2 else get rest key

/-- The number of entries, `size()`. -/
def size {T : Type} (m : StringMap T) : Nat :=
  m._map.length

end StringMap

/-! ## Basic facts about `rfind` -/

theorem rfind_nil (c : Char) : rfind [] c = npos := rfl

theorem rfind_cons (x : Char) (xs : List Char) (c : Char) :
    rfind (x :: xs) c =
      if rfind xs c ≠ npos then rfind xs c + 1 else if x = c then 0 else npos := rfl

theorem rfind_eq_npos_of_not_mem (s : List Char) (c : Char) (h : c ∉ s) :
    rfind s c = npos := by
  induction s with
  | nil => rfl
  | cons x xs ih =>
    simp only [List.mem_cons, not_or] at h
    have hx : ¬ x = c := fun e => h.1 e.symm
    rw [rfind_cons, ih h.2]
    simp [hx]

theorem rfind_append_cons (a b : List Char) (c : Char) (h : c ∉ b) :
    rfind (a ++ c :: b) c = (a.length : Int) := by
  induction a with
  | nil =>
    rw [List.nil_append, rfind_cons, rfind_eq_npos_of_not_mem b c h]
    simp
  | cons x xs ih =>
    have hne : (xs.length : Int) ≠ npos := by simp only [npos]; omega
    rw [List.cons_append, rfind_cons, ih, if_pos hne]
    simp

/-! ## How POSIX `dirname` and `basename` act on the shapes a path can have -/

namespace Posix

theorem substr_zero_append_singleton (p : List Char) (c : Char) :
    substr (p ++ [c]) 0 ((p ++ [c]).length - 1) = p := by
  simp [substr]

theorem rfind_append_sep (p : List Char) : rfind (p ++ [sep]) sep = (p.length : Int) :=
  rfind_append_cons p [] sep (by simp)

theorem dirname_of_not_mem (p : List Char) (h : sep ∉ p) : dirname p = ['.'] := by
  have hr := rfind_eq_npos_of_not_mem p sep h
  rw [dirname]
  simp [hr, npos]

theorem basename_of_not_mem (p : List Char) (h : sep ∉ p) : basename p = p := by
  have hr := rfind_eq_npos_of_not_mem p sep h
  rw [basename]
  simp [hr]

theorem dirname_sep : dirname [sep] = [sep] := by
  rw [dirname]
  simp [rfind_cons, rfind_nil, npos]

theorem basename_sep : basename [sep] = [sep] := by
  rw [basename]
  simp

theorem dirname_append_sep (p : List Char) (h : p ≠ []) :
    dirname (p ++ [sep]) = dirname p := by
  have hr := rfind_append_sep p
  have hlen : 0 < p.length := List.length_pos.mpr h
  conv_lhs => rw [dirname]
  have h0 : ¬ ((p.length : Int) = 0) := by omega
  have h1 : ¬ ((p.length : Int) = npos) := by simp only [npos]; omega
  have h2 : (p.length : Int) = ((p ++ [sep]).length : Int) - 1 := by simp
  rw [hr, if_neg h0, dif_neg h1, dif_pos h2, substr_zero_append_singleton]

theorem basename_append_sep (p : List Char) (h : p ≠ []) :
    basename (p ++ [sep]) = basename p := by
  have hr := rfind_append_sep p
  have hne : ¬ (p ++ [sep] = [sep]) := by
    intro e
    have := congrArg List.length e
    simp at this
    exact h this
  conv_lhs => rw [basename]
  have h1 : ¬ ((p.length : Int) = npos) := by simp only [npos]; omega
  have h2 : (p.length : Int) = ((p ++ [sep]).length : Int) - 1 := by simp
  rw [if_neg hne, hr, dif_neg h1, dif_pos h2, substr_zero_append_singleton]

theorem dirname_append_cons (a b : List Char) (hb : sep ∉ b) (hne : b ≠ []) :
    dirname (a ++ sep :: b) = if a = [] then [sep] else a := by
  have hr := rfind_append_cons a b sep hb
  have hlen : 0 < b.length := List.length_pos.mpr hne
  rw [dirname, hr]
  by_cases ha : a = []
  · subst ha
    simp
  · have hal : 0 < a.length := List.length_pos.mpr ha
    have h0 : ¬ ((a.length : Int) = 0) := by omega
    have h1 : ¬ ((a.length : Int) = npos) := by simp only [npos]; omega
    have h2 : ¬ ((a.length : Int) = ((a ++ sep :: b).length : Int) - 1) := by
      simp only [List.length_append, List.length_cons]
      push_cast
      omega
    rw [if_neg h0, dif_neg h1, dif_neg h2, if_neg ha]
    simp [substr]

theorem basename_append_cons (a b : List Char) (hb : sep ∉ b) (hne : b ≠ []) :
    basename (a ++ sep :: b) = b := by
  have hr := rfind_append_cons a b sep hb
  have hlen : 0 < b.length := List.length_pos.mpr hne
  have hns : ¬ (a ++ sep :: b = [sep]) := by
    intro e
    have := congrArg List.length e
    simp at this
    omega
  have h1 : ¬ ((a.length : Int) = npos) := by simp only [npos]; omega
  have h2 : ¬ ((a.length : Int) = ((a ++ sep :: b).length : Int) - 1) := by
    simp only [List.length_append, List.length_cons]
    push_cast
    omega
  rw [basename, if_neg hns, hr, dif_neg h1, dif_neg h2]
  have : ((a.length : Int) + 1).toNat = a.length + 1 := by omega
  simp [substrFrom, this]

end Posix

/-! ## POSIX `split` and trailing separators -/

namespace Posix

theorem split_append_sep (p : List Char) (h : p ≠ []) : split (p ++ [sep]) = split p := by
  simp only [split, dirname_append_sep p h, basename_append_sep p h]

theorem eq_dropLast_append_sep (p : List Char) (hlast : p.getLast? = some sep) :
    p = p.dropLast ++ [sep] := by
  have := List.dropLast_append_getLast? sep (by simpa using hlast)
  exact this.symm

/-- C1, as the code has it: for every path `P` of at least two characters whose
last character is `/`, `split P` equals `split` of `P` with that one trailing
`/` removed. -/
theorem split_dropLast_of_trailing_sep (P : List Char) (hlast : P.getLast? = some sep)
    (hlen : 2 ≤ P.length) : split P = split P.dropLast := by
  have hne : P.dropLast ≠ [] := by
    intro e
    have := congrArg List.length e
    simp only [List.length_dropLast, List.length_nil] at this
    omega
  conv_lhs => rw [eq_dropLast_append_sep P hlast]
  exact split_append_sep P.dropLast hne

/-- Witness for C1 as amended: the path `/a/b/`. -/
theorem split_dropLast_of_trailing_sep_witness :
    "/a/b/".toList.getLast? = some sep ∧ 2 ≤ "/a/b/".toList.length ∧
      split "/a/b/".toList = split "/a/b/".toList.dropLast :=
  ⟨by decide, by decide,
    split_dropLast_of_trailing_sep "/a/b/".toList (by decide) (by decide)⟩

/-- C1 fails at the root: `/` ends with the separator, `split "/"` is
`("/", "/")`, but `split ""` is `(".", "")`. -/
theorem split_root_ne_split_empty :
    ['/'].getLast? = some sep ∧ split ['/'] = (['/'], ['/']) ∧
      split (['/'].dropLast) = (['.'], []) ∧ split ['/'] ≠ split (['/'].dropLast) := by
  have h1 : split ['/'] = (['/'], ['/']) := by
    simp only [split]
    rw [show (['/'] : List Char) = [sep] from rfl, dirname_sep, basename_sep]
  have h2 : split (['/'].dropLast) = (['.'], []) := by
    simp only [split, List.dropLast]
    rw [dirname_of_not_mem [] (by simp), basename_of_not_mem [] (by simp)]
  refine ⟨by decide, h1, h2, ?_⟩
  rw [h1, h2]
  decide

/-- C2: for every non-empty path `P`, `split (P ++ "/")` equals `split P`: a
trailing separator belongs to the component before it. -/
theorem split_append_trailing_sep (P : List Char) (h : P ≠ []) :
    split (P ++ [sep]) = split P :=
  split_append_sep P h

/-- Witness for C2: `split "/a/b/" = split "/a/b" = ("/a", "b")`. -/
theorem split_append_trailing_sep_witness :
    "/a/b".toList ≠ [] ∧ split ("/a/b".toList ++ [sep]) = split "/a/b".toList ∧
      split "/a/b".toList = ("/a".toList, "b".toList) := by
  refine ⟨by decide, split_append_trailing_sep "/a/b".toList (by decide), ?_⟩
  have e : "/a/b".toList = "/a".toList ++ sep :: "b".toList := by decide
  rw [e]
  simp only [split]
  rw [dirname_append_cons _ _ (by decide) (by decide),
    basename_append_cons _ _ (by decide) (by decide)]
  decide

/-- POSIX `split` of a path without separator. -/
theorem split_eq_of_not_mem (P : List Char) (h : sep ∉ P) : split P = (['.'], P) := by
  simp only [split, dirname_of_not_mem P h, basename_of_not_mem P h]

/-- C6: for every path `P` that contains no `/`, `split P = (".", P)`. -/
theorem split_of_no_sep (P : List Char) (h : sep ∉ P) : split P = (['.'], P) := by
  rw [split_eq_of_not_mem P h]

/-- Witness for C6: the empty path, `split "" = (".", "")`. -/
theorem split_of_no_sep_witness : sep ∉ ([] : List Char) ∧ split [] = (['.'], []) :=
  ⟨by simp, split_of_no_sep [] (by simp)⟩

/-- C7: for every path `P` that does not end with `/` and whose last `/` is at
index `p`, `basename P` is the part of `P` after index `p`, and `dirname P` is
`/` when `p = 0` and the part of `P` before index `p` when `p > 0`. -/
theorem basename_dirname_at_last_sep (P : List Char) (p : Nat)
    (hat : P[p]? = some sep) (hlast : ∀ i, p < i → P[i]? ≠ some sep)
    (hend : P.getLast? ≠ some sep) :
    basename P = P.drop (p + 1) ∧ dirname P = if p = 0 then [sep] else P.take p := by
  have hp : p < P.length := by
    rcases List.getElem?_eq_some_iff.mp hat with ⟨h, _⟩
    exact h
  have hget : P[p] = sep := by
    rcases List.getElem?_eq_some_iff.mp hat with ⟨_, h⟩
    exact h
  have hdec : P = P.take p ++ sep :: P.drop (p + 1) := by
    rw [← hget, List.getElem_cons_drop P p hp, List.take_append_drop]
  have hb : sep ∉ P.drop (p + 1) := by
    intro hmem
    rcases List.getElem_of_mem hmem with ⟨j, hj, hjs⟩
    rw [List.getElem_drop] at hjs
    have hlt : p + 1 + j < P.length := by
      simp only [List.length_drop] at hj
      omega
    apply hlast (p + 1 + j) (by omega)
    rw [List.getElem?_eq_getElem hlt, hjs]
  have hne : P.drop (p + 1) ≠ [] := by
    intro e
    apply hend
    rw [hdec, e]
    simp
  have htake : P.take p = [] ↔ p = 0 := by
    constructor
    · intro e
      have := congrArg List.length e
      simp only [List.length_take, List.length_nil] at this
      omega
    · intro e
      simp [e]
  constructor
  · conv_lhs => rw [hdec]
    exact basename_append_cons _ _ hb hne
  · conv_lhs => rw [hdec]
    rw [dirname_append_cons _ _ hb hne]
    by_cases h0 : p = 0
    · rw [if_pos (htake.mpr h0), if_pos h0]
    · rw [if_neg (fun e => h0 (htake.mp e)), if_neg h0]

/-- Witness for C7: `/usr/lib`, whose last `/` is at index 4. -/
theorem basename_dirname_at_last_sep_witness :
    basename "/usr/lib".toList = "lib".toList ∧ dirname "/usr/lib".toList = "/usr".toList := by
  have hlast : ∀ i, 4 < i → "/usr/lib".toList[i]? ≠ some sep := by
    intro i hi
    have : i = 5 ∨ i = 6 ∨ i = 7 ∨ 8 ≤ i := by omega
    rcases this with h | h | h | h
    · subst h; decide
    · subst h; decide
    · subst h; decide
    · rw [List.getElem?_eq_none (by simpa using h)]
      simp
  exact basename_dirname_at_last_sep "/usr/lib".toList 4 (by decide) hlast (by decide)

/-- C9: for every path `P`, POSIX `splitdrive P = ("", P)`. -/
theorem splitdrive_eq (P : List Char) : splitdrive P = ([], P) := rfl

end Posix

namespace Win

/-- C10: for every path of at least two characters whose second character is
`:`, Windows `splitdrive` returns the first two characters and the rest of the
path, whatever the first character is. -/
theorem splitdrive_of_colon (path : List Char) (hlen : 2 ≤ path.length)
    (hcolon : path[1]? = some ':') :
    splitdrive path = (path.take 2, path.drop 2) := by
  match path, hlen, hcolon with
  | first :: second :: rest, _, hc =>
    simp only [List.getElem?_cons_succ, List.getElem?_cons_zero, Option.some.injEq] at hc
    subst hc
    simp [splitdrive, substr, substrFrom]

/-- Witness for C10: `1:\x`, whose first character is a digit. -/
theorem splitdrive_of_colon_witness :
    splitdrive ['1', ':', '\\', 'x'] = (['1', ':'], ['\\', 'x']) :=
  splitdrive_of_colon ['1', ':', '\\', 'x'] (by decide) (by decide)

end Win

/-! ## POSIX `joinv` is a left fold -/

namespace Posix

theorem joinvScan_cons (seg : List Char) (rest : List (List Char)) (i : Nat)
    (st : List Char × Option Nat) :
    joinvScan (seg :: rest) i st =
      if seg.head? = some sep then joinvScan rest (i + 1) (seg, some i)
      else joinvScan rest (i + 1) st := by
  cases seg with
  | nil => simp [joinvScan]
  | cons c cs => simp [joinvScan]

theorem joinvScan_append (xs ys : List (List Char)) (i : Nat) (st : List Char × Option Nat) :
    joinvScan (xs ++ ys) i st = joinvScan ys (i + xs.length) (joinvScan xs i st) := by
  induction xs generalizing i st with
  | nil => simp [joinvScan]
  | cons x xs ih =>
    have e : i + 1 + xs.length = i + (xs.length + 1) := by omega
    rw [List.cons_append, joinvScan_cons, joinvScan_cons, List.length_cons]
    split
    · rw [ih, e]
    · rw [ih, e]

/-- The iterator `joinvScan` ends with is either the one it started with or
points at one of the segments it has scanned. -/
theorem joinvScan_snd (xs : List (List Char)) (i : Nat) (st : List Char × Option Nat) :
    (joinvScan xs i st).2 = st.2 ∨
      ∃ j, (joinvScan xs i st).2 = some j ∧ i ≤ j ∧ j < i + xs.length := by
  induction xs generalizing i st with
  | nil => exact Or.inl rfl
  | cons x xs ih =>
    rw [joinvScan_cons, List.length_cons]
    split
    · rcases ih (i + 1) (x, some i) with h | ⟨j, hj, h1, h2⟩
      · exact Or.inr ⟨i, h, Nat.le_refl i, by omega⟩
      · exact Or.inr ⟨j, hj, by omega, by omega⟩
    · rcases ih (i + 1) st with h | ⟨j, hj, h1, h2⟩
      · exact Or.inl h
      · exact Or.inr ⟨j, hj, by omega, by omega⟩

theorem joinv_eq (root : List Char) (segments : List (List Char)) :
    joinv root segments =
      (segments.drop (joinvStart (joinvScan segments 0 (root, none)).2)).foldl joinvAppend
        (joinvScan segments 0 (root, none)).1 := rfl

theorem joinvStart_le (root : List Char) (segments : List (List Char)) :
    joinvStart (joinvScan segments 0 (root, none)).2 ≤ segments.length := by
  rcases joinvScan_snd segments 0 (root, none) with h | ⟨j, hj, _, h2⟩
  · rw [h]
    exact Nat.zero_le _
  · rw [hj]
    simp only [joinvStart]
    omega

theorem joinvAppend_eq_specJoin2 (a b : List Char) (hb : b.head? ≠ some sep) :
    joinvAppend a b = specJoin2 a b := by
  simp only [joinvAppend, specJoin2, if_neg hb]
  by_cases ha : a = []
  · simp [ha]
  · by_cases hl : a.getLast? = some sep
    · simp [ha, hl]
    · simp [ha, hl]

theorem joinv_append_singleton (root : List Char) (init : List (List Char)) (last : List Char) :
    joinv root (init ++ [last]) = specJoin2 (joinv root init) last := by
  rw [joinv_eq, joinv_eq, joinvScan_append, joinvScan_cons]
  by_cases hl : last.head? = some sep
  · rw [if_pos hl]
    simp [joinvScan, joinvStart, specJoin2, hl]
  · rw [if_neg hl]
    simp only [joinvScan]
    rw [List.drop_append_of_le_length (joinvStart_le root init), List.foldl_append]
    simp only [List.foldl_cons, List.foldl_nil]
    exact joinvAppend_eq_specJoin2 _ _ hl

theorem joinv_eq_specJoinv (root : List Char) (segments : List (List Char)) :
    joinv root segments = specJoinv root segments := by
  induction segments using List.reverseRecOn with
  | nil => rfl
  | append_singleton init last ih =>
    rw [joinv_append_singleton, ih]
    simp [specJoinv, List.foldl_append]

theorem specJoin2_of_abs (a b : List Char) (h : b.head? = some sep) : specJoin2 a b = b := by
  simp [specJoin2, h]

/-- C4: for every root, all segment lists `pre` and `post`, and every segment
`abs` that begins with `/`, `joinv root (pre ++ [abs] ++ post)` equals
`joinv abs post`: an absolute segment discards the root and all segments
before it. -/
theorem joinv_absolute_segment (root : List Char) (pre post : List (List Char))
    (abs : List Char) (h : abs.head? = some sep) :
    joinv root (pre ++ [abs] ++ post) = joinv abs post := by
  rw [joinv_eq_specJoinv, joinv_eq_specJoinv]
  simp only [specJoinv, List.foldl_append, List.foldl_cons, List.foldl_nil]
  rw [specJoin2_of_abs _ _ h]

/-- Witness for C4: `joinv "/a" {"b", "/c", "d"} = joinv "/c" {"d"} = "/c/d"`. -/
theorem joinv_absolute_segment_witness :
    joinv "/a".toList (["b".toList] ++ ["/c".toList] ++ ["d".toList]) =
        joinv "/c".toList ["d".toList] ∧
      joinv "/a".toList ["b".toList, "/c".toList, "d".toList] = "/c/d".toList :=
  ⟨joinv_absolute_segment "/a".toList ["b".toList] ["d".toList] "/c".toList (by decide),
    by decide⟩

/-- C5: for every root and every list of segments, `joinv` equals the left
fold over the segments, starting from the root, of the two-argument join that
returns `b` when `b` begins with `/`, `a ++ b` when `a` is empty or ends with
`/`, and `a ++ "/" ++ b` otherwise. -/
theorem joinv_is_left_fold (root : List Char) (segments : List (List Char)) :
    joinv root segments = segments.foldl specJoin2 root :=
  joinv_eq_specJoinv root segments

end Posix

/-! ## POSIX: joining what `split` returns gives the path back, up to normalization -/

namespace Posix

theorem fields_ne_nil (p : List Char) : fields p ≠ [] := by
  cases p with
  | nil => simp [fields]
  | cons c cs =>
    simp only [fields]
    split
    · simp
    · split <;> simp

theorem fields_cons_sep (p : List Char) : fields (sep :: p) = [] :: fields p := by
  simp [fields]

theorem fields_cons_of_ne (c : Char) (p : List Char) (h : c ≠ sep) :
    ∃ f fs, fields p = f :: fs ∧ fields (c :: p) = (c :: f) :: fs := by
  cases hf : fields p with
  | nil => exact absurd hf (fields_ne_nil p)
  | cons f fs =>
    refine ⟨f, fs, rfl, ?_⟩
    simp [fields, h, hf]

theorem fields_append_cons (a b : List Char) :
    fields (a ++ sep :: b) = fields a ++ fields b := by
  induction a with
  | nil => simp [fields]
  | cons c cs ih =>
    by_cases hc : c = sep
    · subst hc
      rw [List.cons_append, fields_cons_sep, fields_cons_sep, ih, List.cons_append]
    · rcases fields_cons_of_ne c cs hc with ⟨f, fs, h1, h2⟩
      rcases fields_cons_of_ne c (cs ++ sep :: b) hc with ⟨g, gs, h3, h4⟩
      rw [ih, h1, List.cons_append] at h3
      rw [List.cons_append, h4, h2, List.cons_append]
      injection h3 with e1 e2
      rw [e1, e2]

theorem components_append_cons (a b : List Char) :
    components (a ++ sep :: b) = components a ++ components b := by
  simp only [components, fields_append_cons, List.filter_append]

theorem components_nil : components [] = [] := by
  simp [components, fields]

theorem components_dot : components ['.'] = [] := by
  decide

theorem components_append_sep (p : List Char) : components (p ++ [sep]) = components p := by
  rw [components_append_cons, components_nil, List.append_nil]

theorem normalize_append_sep (p : List Char) (h : p ≠ []) :
    normalize (p ++ [sep]) = normalize p := by
  simp only [normalize, components_append_sep, List.head?_append_of_ne_nil _ h]

theorem joinv_singleton (d b : List Char) : joinv d [b] = specJoin2 d b := by
  rw [joinv_eq_specJoinv]
  rfl

theorem head_ne_sep_of_not_mem (b : List Char) (h : sep ∉ b) : b.head? ≠ some sep := by
  intro e
  exact h (List.mem_of_mem_head? e)

/-- A path that contains the separator splits at its last separator. -/
theorem exists_last_sep (p : List Char) (h : sep ∈ p) :
    ∃ a b, p = a ++ sep :: b ∧ sep ∉ b := by
  induction p with
  | nil => simp at h
  | cons c cs ih =>
    by_cases hcs : sep ∈ cs
    · rcases ih hcs with ⟨a, b, e, hb⟩
      exact ⟨c :: a, b, by rw [e, List.cons_append], hb⟩
    · have hc : c = sep := by
        rcases List.mem_cons.mp h with e | e
        · exact e.symm
        · exact absurd e hcs
      exact ⟨[], cs, by rw [hc, List.nil_append], hcs⟩

theorem normalize_join_of_no_sep (p : List Char) (h : sep ∉ p) :
    normalize (joinv (dirname p) [basename p]) = normalize p := by
  have hh := head_ne_sep_of_not_mem p h
  rw [dirname_of_not_mem p h, basename_of_not_mem p h, joinv_singleton]
  have e : specJoin2 ['.'] p = ['.'] ++ sep :: p := by
    simp only [specJoin2, if_neg hh]
    rw [if_neg (by decide)]
    simp
  rw [e]
  simp only [normalize, components_append_cons, components_dot, List.nil_append]
  rw [if_neg hh]
  simp [sep]

theorem normalize_join_of_last_sep (a b : List Char) (hb : sep ∉ b) (hne : b ≠ []) :
    normalize (joinv (dirname (a ++ sep :: b)) [basename (a ++ sep :: b)]) =
      normalize (a ++ sep :: b) := by
  have hh := head_ne_sep_of_not_mem b hb
  rw [dirname_append_cons a b hb hne, basename_append_cons a b hb hne, joinv_singleton]
  by_cases ha : a = []
  · subst ha
    simp [specJoin2, hh]
  · rw [if_neg ha]
    simp only [specJoin2, if_neg hh]
    by_cases hl : a.getLast? = some sep
    · rw [if_pos (Or.inr hl)]
      have ea := eq_dropLast_append_sep a hl
      have e1 : components (a ++ b) = components a.dropLast ++ components b := by
        conv_lhs => rw [ea, List.append_assoc, List.singleton_append]
        exact components_append_cons _ _
      have e2 : components (a ++ sep :: b) = components a.dropLast ++ components b := by
        rw [components_append_cons]
        conv_lhs => rw [ea, components_append_sep]
      simp only [normalize, e1, e2, List.head?_append_of_ne_nil _ ha]
    · rw [if_neg (by simp [ha, hl])]
      simp

theorem normalize_join_split (p : List Char) (h : basename p ≠ []) :
    normalize (joinv (dirname p) [basename p]) = normalize p := by
  induction p using List.reverseRecOn with
  | nil =>
    exact absurd (basename_of_not_mem [] (by simp)) h
  | append_singleton init last ih =>
    by_cases hl : last = sep
    · subst hl
      by_cases hi : init = []
      · subst hi
        rw [List.nil_append, dirname_sep, basename_sep, joinv_singleton,
          specJoin2_of_abs _ _ (by rfl)]
      · rw [basename_append_sep init hi] at h
        rw [dirname_append_sep init hi, basename_append_sep init hi,
          normalize_append_sep init hi]
        exact ih h
    · by_cases hm : sep ∈ init ++ [last]
      · rcases exists_last_sep _ hm with ⟨a, b, e, hb⟩
        have hne : b ≠ [] := by
          intro hb0
          rw [hb0] at e
          have := List.append_inj_right' e (by simp)
          simp only [List.cons.injEq, and_true] at this
          exact hl this
        rw [e]
        exact normalize_join_of_last_sep a b hb hne
      · exact normalize_join_of_no_sep _ hm

/-- C3: for every path `P` with non-empty `basename P`,
`joinv (dirname P) {basename P}` denotes the same location as `P` modulo
separator normalization: after collapsing runs of `/`, dropping a trailing `/`
(except for the root) and dropping `.` components, the two strings are
equal. -/
theorem join_split_same_location (P : List Char) (h : basename P ≠ []) :
    normalize (joinv (dirname P) [basename P]) = normalize P :=
  normalize_join_split P h

/-- Witness for C3: `a//b`, which `split` cuts into `a/` and `b`, and which
`joinv` puts together as `a/b`. -/
theorem join_split_same_location_witness :
    basename "a//b".toList ≠ [] ∧
      normalize (joinv (dirname "a//b".toList) [basename "a//b".toList]) =
        normalize "a//b".toList := by
  have hb : basename "a//b".toList ≠ [] := by
    have e : "a//b".toList = "a/".toList ++ sep :: "b".toList := by decide
    rw [e, basename_append_cons _ _ (by decide) (by decide)]
    decide
  exact ⟨hb, join_split_same_location "a//b".toList hb⟩

end Posix

/-! ## POSIX path functions are total -/

theorem rfind_range (s : List Char) (c : Char) :
    rfind s c = npos ∨ (0 ≤ rfind s c ∧ rfind s c < (s.length : Int)) := by
  induction s with
  | nil => exact Or.inl rfl
  | cons x xs ih =>
    rw [rfind_cons, List.length_cons]
    by_cases hr : rfind xs c = npos
    · rw [if_neg (by simp [hr])]
      by_cases hx : x = c
      · rw [if_pos hx]
        exact Or.inr ⟨le_refl 0, by push_cast; omega⟩
      · rw [if_neg hx]
        exact Or.inl rfl
    · rw [if_pos hr]
      rcases ih with h | ⟨h0, h1⟩
      · exact absurd h hr
      · exact Or.inr ⟨by omega, by push_cast; omega⟩

namespace Posix

theorem substrChecked_dropLast (path : List Char) (h : 0 < path.length) :
    substrChecked path 0 ((path.length : Int) - 1) =
      .ok (substr path 0 (path.length - 1)) := by
  have hc : (0 : Int) ≤ 0 ∧ 0 ≤ (path.length : Int) - 1 ∧
      0 + ((path.length : Int) - 1) ≤ (path.length : Int) := by omega
  have e : ((path.length : Int) - 1).toNat = path.length - 1 := by omega
  rw [substrChecked, if_pos hc, e]
  rfl

theorem length_substr_dropLast (path : List Char) (h : 0 < path.length) :
    (substr path 0 (path.length - 1)).length + 1 = path.length := by
  simp only [substr, List.drop_zero, List.length_take]
  omega

theorem dirnameChecked_eq (fuel : Nat) (path : List Char) (h : path.length < fuel) :
    dirnameChecked fuel path = .ok (dirname path) := by
  induction fuel generalizing path with
  | zero => omega
  | succ n ih =>
    rw [dirnameChecked, dirname]
    by_cases h0 : rfind path sep = 0
    · rw [if_pos h0, if_pos h0]
    · rw [if_neg h0, if_neg h0]
      by_cases h1 : rfind path sep = npos
      · rw [if_pos h1, dif_pos h1]
      · rw [if_neg h1, dif_neg h1]
        rcases rfind_range path sep with hr | ⟨hr0, hr1⟩
        · exact absurd hr h1
        · have hpos : 0 < path.length := by omega
          by_cases h2 : rfind path sep = (path.length : Int) - 1
          · rw [if_pos h2, dif_pos h2, substrChecked_dropLast path hpos]
            have hl := length_substr_dropLast path hpos
            exact ih _ (by omega)
          · rw [if_neg h2, dif_neg h2, substrChecked,
              if_pos ⟨le_refl 0, hr0, by omega⟩]
            rfl

theorem basenameChecked_eq (fuel : Nat) (path : List Char) (h : path.length < fuel) :
    basenameChecked fuel path = .ok (basename path) := by
  induction fuel generalizing path with
  | zero => omega
  | succ n ih =>
    rw [basenameChecked, basename]
    by_cases hs : path = [sep]
    · rw [if_pos hs, if_pos hs]
    · rw [if_neg hs, if_neg hs]
      by_cases h1 : rfind path sep = npos
      · rw [if_pos h1, dif_pos h1]
      · rw [if_neg h1, dif_neg h1]
        rcases rfind_range path sep with hr | ⟨hr0, hr1⟩
        · exact absurd hr h1
        · have hpos : 0 < path.length := by omega
          by_cases h2 : rfind path sep = (path.length : Int) - 1
          · rw [if_pos h2, dif_pos h2, substrChecked_dropLast path hpos]
            have hl := length_substr_dropLast path hpos
            exact ih _ (by omega)
          · rw [if_neg h2, dif_neg h2, substrFromChecked,
              if_pos ⟨by omega, by omega⟩]

theorem splitChecked_eq (fuel : Nat) (path : List Char) (h : path.length < fuel) :
    splitChecked fuel path = .ok (split path) := by
  simp only [splitChecked, dirnameChecked_eq fuel path h, basenameChecked_eq fuel path h, split]

theorem joinvScanChecked_eq (xs : List (List Char)) (i : Nat) (st : List Char × Option Nat) :
    joinvScanChecked xs i st = .ok (joinvScan xs i st) := by
  induction xs generalizing i st with
  | nil => rfl
  | cons x xs ih =>
    cases x with
    | nil => simpa [joinvScanChecked, joinvScan] using ih (i + 1) st
    | cons c cs =>
      by_cases hc : c = sep
      · simpa [joinvScanChecked, joinvScan, hc] using ih (i + 1) (sep :: cs, some i)
      · simpa [joinvScanChecked, joinvScan, hc] using ih (i + 1) st

theorem joinvAppendChecked_eq (result seg : List Char) :
    joinvAppendChecked result seg = .ok (joinvAppend result seg) := by
  by_cases hr : result = []
  · simp [joinvAppendChecked, joinvAppend, hr]
  · rcases List.getLast?_eq_some_iff.mpr
        ⟨result.dropLast, (List.dropLast_append_getLast (l := result) hr).symm⟩ with hl
    by_cases hc : result.getLast hr = sep
    · simp [joinvAppendChecked, joinvAppend, hr, hl, hc]
    · simp [joinvAppendChecked, joinvAppend, hr, hl, hc]

theorem joinvLoopChecked_eq (xs : List (List Char)) (result : List Char) :
    joinvLoopChecked xs result = .ok (xs.foldl joinvAppend result) := by
  induction xs generalizing result with
  | nil => rfl
  | cons x xs ih =>
    simp only [joinvLoopChecked, joinvAppendChecked_eq, List.foldl_cons]
    exact ih _

theorem joinvChecked_eq (root : List Char) (segments : List (List Char)) :
    joinvChecked root segments = .ok (joinv root segments) := by
  simp only [joinvChecked, joinvScanChecked_eq, if_pos (joinvStart_le root segments),
    joinvLoopChecked_eq]
  rfl

theorem dirname_rec (path : List Char) (h0 : rfind path sep ≠ 0) (h1 : rfind path sep ≠ npos)
    (h2 : rfind path sep = (path.length : Int) - 1) :
    dirname path = dirname (substr path 0 (path.length - 1)) := by
  conv_lhs => rw [dirname]
  rw [if_neg h0, dif_neg h1, dif_pos h2]

theorem basename_rec (path : List Char) (hs : path ≠ [sep]) (h1 : rfind path sep ≠ npos)
    (h2 : rfind path sep = (path.length : Int) - 1) :
    basename path = basename (substr path 0 (path.length - 1)) := by
  conv_lhs => rw [basename]
  rw [if_neg hs, dif_neg h1, dif_pos h2]

/-- C8: POSIX `dirname`, `basename`, `split` and `joinv` are total.  Run with
every substring and every dereference checked, and with one unit of fuel per
call, they return the value of the plain function, without error, as soon as
the fuel exceeds the length of the path; and where `dirname` or `basename`
recurses (the last separator is the last character, and the path is not the
root), the recursive call is on a string exactly one character shorter. -/
theorem posix_path_functions_total (path root : List Char) (segments : List (List Char))
    (extra : Nat) :
    dirnameChecked (path.length + 1 + extra) path = .ok (dirname path) ∧
      basenameChecked (path.length + 1 + extra) path = .ok (basename path) ∧
      splitChecked (path.length + 1 + extra) path = .ok (split path) ∧
      joinvChecked root segments = .ok (joinv root segments) ∧
      (rfind path sep ≠ npos → rfind path sep = (path.length : Int) - 1 →
        (substr path 0 (path.length - 1)).length + 1 = path.length ∧
          (rfind path sep ≠ 0 → dirname path = dirname (substr path 0 (path.length - 1))) ∧
          (path ≠ [sep] → basename path = basename (substr path 0 (path.length - 1)))) := by
  have hf : path.length < path.length + 1 + extra := by omega
  refine ⟨dirnameChecked_eq _ _ hf, basenameChecked_eq _ _ hf, splitChecked_eq _ _ hf,
    joinvChecked_eq root segments, ?_⟩
  intro h1 h2
  rcases rfind_range path sep with hr | ⟨hr0, hr1⟩
  · exact absurd hr h1
  · have hpos : 0 < path.length := by omega
    exact ⟨length_substr_dropLast path hpos, fun h0 => dirname_rec path h0 h1 h2,
      fun hs => basename_rec path hs h1 h2⟩

/-- Witness for C8: `a//` with the segments `{"", "/b", ""}`; both functions
recurse twice, and nothing fails. -/
theorem posix_path_functions_total_witness :
    dirnameChecked 4 "a//".toList = .ok ['.'] ∧
      basenameChecked 4 "a//".toList = .ok ['a'] ∧
      splitChecked 4 "a//".toList = .ok (['.'], ['a']) ∧
      joinvChecked "r".toList [[], "/b".toList, []] = .ok "/b/".toList ∧
      rfind "a//".toList sep ≠ npos ∧ rfind "a//".toList sep = ("a//".toList.length : Int) - 1 ∧
      (substr "a//".toList 0 ("a//".toList.length - 1)).length + 1 = "a//".toList.length := by
  have h := posix_path_functions_total "a//".toList "r".toList [[], "/b".toList, []] 0
  have hd : dirnameChecked 4 "a//".toList = .ok ['.'] := by rfl
  have hb : basenameChecked 4 "a//".toList = .ok ['a'] := by rfl
  have hs : splitChecked 4 "a//".toList = .ok (['.'], ['a']) := by rfl
  have hj : joinvChecked "r".toList [[], "/b".toList, []] = .ok "/b/".toList := by rfl
  have h1 : rfind "a//".toList sep ≠ npos := by decide
  have h2 : rfind "a//".toList sep = ("a//".toList.length : Int) - 1 := by decide
  exact ⟨hd, hb, hs, hj, h1, h2, (h.2.2.2.2 h1 h2).1⟩

end Posix

/-! ## `find` and `partition` with a one-rune separator -/

theorem find_cons (x : Char) (xs needle : List Char) :
    find (x :: xs) needle =
      if needle.isPrefixOf (x :: xs) then 0
      else if find xs needle ≠ npos then find xs needle + 1 else npos := rfl

theorem find_singleton_of_not_mem (s : List Char) (c : Char) (h : c ∉ s) :
    find s [c] = npos := by
  induction s with
  | nil => simp [find]
  | cons x xs ih =>
    simp only [List.mem_cons, not_or] at h
    rw [find_cons, ih h.2]
    simp [List.isPrefixOf, h.1]

theorem find_singleton_append (a b : List Char) (c : Char) (h : c ∉ a) :
    find (a ++ c :: b) [c] = (a.length : Int) := by
  induction a with
  | nil => simp [find_cons, List.isPrefixOf]
  | cons x xs ih =>
    simp only [List.mem_cons, not_or] at h
    have hne : (xs.length : Int) ≠ npos := by simp only [npos]; omega
    rw [List.cons_append, find_cons, ih h.2, if_pos hne]
    simp [List.isPrefixOf, h.1]

theorem partition_of_not_mem (s : List Char) (c : Char) (h : c ∉ s) :
    partition [c] s = (false, s, []) := by
  simp [partition, find_singleton_of_not_mem s c h]

theorem partition_append (a b : List Char) (c : Char) (h : c ∉ a) :
    partition [c] (a ++ c :: b) = (true, a, b) := by
  have hne : ¬ ((a.length : Int) = npos) := by simp only [npos]; omega
  simp only [partition, find_singleton_append a b c h, if_neg hne, Int.toNat_ofNat,
    List.length_singleton, substr, substrFrom, List.drop_zero]
  simp

/-- A one-rune `partition` either does not find the separator and hands back
the whole input, or cuts the input at the first separator. -/
theorem partition_cases (s : List Char) (c : Char) :
    (c ∉ s ∧ partition [c] s = (false, s, [])) ∨
      ∃ a b, s = a ++ c :: b ∧ c ∉ a ∧ partition [c] s = (true, a, b) := by
  by_cases h : c ∈ s
  · rcases List.eq_append_cons_of_mem h with ⟨a, b, e, ha⟩
    exact Or.inr ⟨a, b, e, ha, by rw [e]; exact partition_append a b c ha⟩
  · exact Or.inl ⟨h, partition_of_not_mem s c h⟩

/-! ## Windows `splitdrive`: drive letters and UNC shares -/

namespace Win

theorem splitdrive_colon (x : Char) (rest : List Char) :
    splitdrive (x :: ':' :: rest) = ([x, ':'], rest) := by
  simp [splitdrive, substr, substrFrom]

theorem splitdrive_not_unc (x y : Char) (rest : List Char) (hy : y ≠ ':')
    (hxy : ¬ (x = '\\' ∧ y = '\\')) :
    splitdrive (x :: y :: rest) = ([], x :: y :: rest) := by
  simp only [splitdrive, substr, substrFrom, if_neg hy]
  simp only [List.drop_zero, List.take_succ_cons, List.take_zero, List.cons.injEq, and_true]
  rw [if_neg hxy]

/-- What `splitdrive` does with a path that begins with two backslashes, in
terms of the two calls of `partition`. -/
theorem splitdrive_unc (rem : List Char) :
    splitdrive ('\\' :: '\\' :: rem) =
      if ((partition ['\\'] rem).1 && !(partition ['\\'] rem).2.1.isEmpty) = true then
        if (partition ['\\'] (partition ['\\'] rem).2.2).1 = true then
          if (!(partition ['\\'] (partition ['\\'] rem).2.2).2.1.isEmpty) = true then
            (substr ('\\' :: '\\' :: rem) 0
                (((rem.length + 2 : Nat) : Int) -
                  ((partition ['\\'] (partition ['\\'] rem).2.2).2.2.length : Int) - 1).toNat,
              substrFrom ('\\' :: '\\' :: rem)
                (((rem.length + 2 : Nat) : Int) -
                  ((partition ['\\'] (partition ['\\'] rem).2.2).2.2.length : Int) - 1).toNat)
          else ([], '\\' :: '\\' :: rem)
        else if (!(partition ['\\'] (partition ['\\'] rem).2.2).2.1.isEmpty) = true then
          ('\\' :: '\\' :: rem, [])
        else ([], '\\' :: '\\' :: rem)
      else ([], '\\' :: '\\' :: rem) := by
  rfl

theorem splitdrive_unc_share (machine mount : List Char) (hm : machine ≠ [])
    (hmb : '\\' ∉ machine) (ht : mount ≠ []) (htb : '\\' ∉ mount) :
    splitdrive ('\\' :: '\\' :: (machine ++ '\\' :: mount)) =
      ('\\' :: '\\' :: (machine ++ '\\' :: mount), []) := by
  have h1 := partition_append machine mount '\\' hmb
  have h2 := partition_of_not_mem mount '\\' htb
  rw [splitdrive_unc, h1]
  simp only [h2]
  simp [hm, ht]

theorem splitdrive_unc_share_path (machine mount rest : List Char) (hm : machine ≠ [])
    (hmb : '\\' ∉ machine) (ht : mount ≠ []) (htb : '\\' ∉ mount) :
    splitdrive ('\\' :: '\\' :: (machine ++ '\\' :: (mount ++ '\\' :: rest))) =
      ('\\' :: '\\' :: (machine ++ '\\' :: mount), '\\' :: rest) := by
  have h1 := partition_append machine (mount ++ '\\' :: rest) '\\' hmb
  have h2 := partition_append mount rest '\\' htb
  have hlen : (((((machine ++ '\\' :: (mount ++ '\\' :: rest)).length + 2 : Nat) : Int)
      - (rest.length : Int) - 1).toNat) = machine.length + mount.length + 3 := by
    simp only [List.length_cons, List.length_append]
    push_cast
    omega
  have e : '\\' :: '\\' :: (machine ++ '\\' :: (mount ++ '\\' :: rest)) =
      ('\\' :: '\\' :: (machine ++ '\\' :: mount)) ++ '\\' :: rest := by simp
  have hl2 : ('\\' :: '\\' :: (machine ++ '\\' :: mount)).length =
      machine.length + mount.length + 3 := by
    simp only [List.length_cons, List.length_append]
    omega
  rw [splitdrive_unc, h1]
  simp only [h2, hlen]
  have c1 : (true && !machine.isEmpty) = true := by simp [hm]
  have c3 : (!mount.isEmpty) = true := by simp [ht]
  rw [if_pos c1, if_pos trivial, if_pos c3, substr, substrFrom, List.drop_zero, e, ← hl2,
    List.take_left, List.drop_left]

/-- The four ways `splitdrive` can return: no drive, a drive letter, a UNC
share followed by a path, or a UNC share alone. -/
theorem splitdrive_cases (path : List Char) :
    splitdrive path = ([], path) ∨
      (∃ x rest, path = x :: ':' :: rest ∧ splitdrive path = ([x, ':'], rest)) ∨
      (∃ m mt rest, m ≠ [] ∧ '\\' ∉ m ∧ mt ≠ [] ∧ '\\' ∉ mt ∧
        path = '\\' :: '\\' :: (m ++ '\\' :: (mt ++ '\\' :: rest)) ∧
        splitdrive path = ('\\' :: '\\' :: (m ++ '\\' :: mt), '\\' :: rest)) ∨
      (∃ m mt, m ≠ [] ∧ '\\' ∉ m ∧ mt ≠ [] ∧ '\\' ∉ mt ∧
        path = '\\' :: '\\' :: (m ++ '\\' :: mt) ∧ splitdrive path = (path, [])) := by
  match path with
  | [] => exact Or.inl rfl
  | [_] => exact Or.inl rfl
  | x :: y :: rest =>
    by_cases hy : y = ':'
    · subst hy
      exact Or.inr (Or.inl ⟨x, rest, rfl, splitdrive_colon x rest⟩)
    · by_cases hxy : x = '\\' ∧ y = '\\'
      · rcases hxy with ⟨hx, hy2⟩
        subst hx
        subst hy2
        rcases partition_cases rest '\\' with ⟨_, h1⟩ | ⟨m, r, e1, hm, h1⟩
        · left
          rw [splitdrive_unc, h1]
          rfl
        · by_cases hme : m = []
          · left
            rw [splitdrive_unc, h1]
            simp [hme]
          · rcases partition_cases r '\\' with ⟨hr, h2⟩ | ⟨mt, rest2, e2, hmt, h2⟩
            · by_cases hre : r = []
              · left
                rw [splitdrive_unc, h1]
                simp only [h2]
                simp [hre]
              · right; right; right
                refine ⟨m, r, hme, hm, hre, hr, by rw [e1], ?_⟩
                rw [e1]
                exact splitdrive_unc_share m r hme hm hre hr
            · by_cases hmte : mt = []
              · left
                rw [splitdrive_unc, h1]
                simp only [h2]
                simp [hmte]
              · right; right; left
                refine ⟨m, mt, rest2, hme, hm, hmte, hmt, by rw [e1, e2], ?_⟩
                rw [e1, e2]
                exact splitdrive_unc_share_path m mt rest2 hme hm hmte hmt
      · exact Or.inl (splitdrive_not_unc x y rest hy hxy)

/-- The two parts `splitdrive` returns make up the path. -/
theorem splitdrive_append (path : List Char) :
    (splitdrive path).1 ++ (splitdrive path).2 = path := by
  rcases splitdrive_cases path with h | ⟨x, rest, e, h⟩ | ⟨m, mt, rest, _, _, _, _, e, h⟩ |
    ⟨m, mt, _, _, _, _, e, h⟩
  · rw [h]; rfl
  · rw [h, e]; rfl
  · rw [h, e]; simp
  · rw [h]; simp

/-- C11: for all non-empty `machine` and `mount` without a backslash and every
`rest`, with `U` the two backslashes, `machine`, one backslash and `mount`:
`splitdrive U = (U, "")` and `splitdrive (U ++ backslash ++ rest)` is `U` and
the backslash followed by `rest`. -/
theorem splitdrive_unc_drive (machine mount rest : List Char) (hm : machine ≠ [])
    (hmb : '\\' ∉ machine) (ht : mount ≠ []) (htb : '\\' ∉ mount) :
    splitdrive (['\\', '\\'] ++ machine ++ ['\\'] ++ mount) =
        (['\\', '\\'] ++ machine ++ ['\\'] ++ mount, []) ∧
      splitdrive (['\\', '\\'] ++ machine ++ ['\\'] ++ mount ++ ['\\'] ++ rest) =
        (['\\', '\\'] ++ machine ++ ['\\'] ++ mount, ['\\'] ++ rest) := by
  have e1 : ['\\', '\\'] ++ machine ++ ['\\'] ++ mount =
      '\\' :: '\\' :: (machine ++ '\\' :: mount) := by simp
  have e2 : ['\\', '\\'] ++ machine ++ ['\\'] ++ mount ++ ['\\'] ++ rest =
      '\\' :: '\\' :: (machine ++ '\\' :: (mount ++ '\\' :: rest)) := by simp
  rw [e2, e1]
  exact ⟨splitdrive_unc_share machine mount hm hmb ht htb,
    splitdrive_unc_share_path machine mount rest hm hmb ht htb⟩

/-- Witness for C11: machine `srv`, mount `pub`, rest `a\b`. -/
theorem splitdrive_unc_drive_witness :
    splitdrive "\\\\srv\\pub".toList = ("\\\\srv\\pub".toList, []) ∧
      splitdrive "\\\\srv\\pub\\a\\b".toList = ("\\\\srv\\pub".toList, "\\a\\b".toList) :=
  splitdrive_unc_drive "srv".toList "pub".toList "a\\b".toList (by decide) (by decide)
    (by decide) (by decide)

/-- C12: for every path that is not of the `X:` form (its second character is
not `:`) and not of the UNC form (two backslashes, a non-empty machine name
without backslash, a backslash, a non-empty mount point without backslash, and
then the end of the path or a backslash), `splitdrive` returns `("", path)`. -/
theorem splitdrive_no_drive (path : List Char) (hx : path[1]? ≠ some ':')
    (hunc : ∀ machine mount : List Char, machine ≠ [] → '\\' ∉ machine → mount ≠ [] →
      '\\' ∉ mount →
        path ≠ ['\\', '\\'] ++ machine ++ ['\\'] ++ mount ∧
          ∀ rest, path ≠ ['\\', '\\'] ++ machine ++ ['\\'] ++ mount ++ ['\\'] ++ rest) :
    splitdrive path = ([], path) := by
  rcases splitdrive_cases path with h | ⟨x, rest, e, _⟩ | ⟨m, mt, rest, h1, h2, h3, h4, e, _⟩ |
    ⟨m, mt, h1, h2, h3, h4, e, _⟩
  · exact h
  · exact absurd (by rw [e]; simp) hx
  · exact absurd (by rw [e]; simp) ((hunc m mt h1 h2 h3 h4).2 rest)
  · exact absurd (by rw [e]; simp) (hunc m mt h1 h2 h3 h4).1

/-- A path for which `splitdrive` finds no drive is not of the UNC form. -/
theorem not_unc_of_no_drive (path : List Char) (h : (splitdrive path).1 = []) :
    ∀ machine mount : List Char, machine ≠ [] → '\\' ∉ machine → mount ≠ [] →
      '\\' ∉ mount →
        path ≠ ['\\', '\\'] ++ machine ++ ['\\'] ++ mount ∧
          ∀ rest, path ≠ ['\\', '\\'] ++ machine ++ ['\\'] ++ mount ++ ['\\'] ++ rest := by
  intro machine mount hm hmb ht htb
  constructor
  · intro e
    have e1 : ['\\', '\\'] ++ machine ++ ['\\'] ++ mount =
        '\\' :: '\\' :: (machine ++ '\\' :: mount) := by simp
    rw [e, e1, splitdrive_unc_share machine mount hm hmb ht htb] at h
    simp at h
  · intro rest e
    have e2 : ['\\', '\\'] ++ machine ++ ['\\'] ++ mount ++ ['\\'] ++ rest =
        '\\' :: '\\' :: (machine ++ '\\' :: (mount ++ '\\' :: rest)) := by simp
    rw [e, e2, splitdrive_unc_share_path machine mount rest hm hmb ht htb] at h
    simp at h

/-- Witness for C12: a path beginning with two forward slashes, one with an
empty machine name and one with an empty mount point have an empty drive. -/
theorem splitdrive_no_drive_witness :
    splitdrive "//a/b".toList = ([], "//a/b".toList) ∧
      splitdrive "\\\\\\s\\p".toList = ([], "\\\\\\s\\p".toList) ∧
      splitdrive "\\\\m\\\\p".toList = ([], "\\\\m\\\\p".toList) :=
  ⟨splitdrive_no_drive "//a/b".toList (by decide)
      (not_unc_of_no_drive "//a/b".toList (by decide)),
    splitdrive_no_drive "\\\\\\s\\p".toList (by decide)
      (not_unc_of_no_drive "\\\\\\s\\p".toList (by decide)),
    splitdrive_no_drive "\\\\m\\\\p".toList (by decide)
      (not_unc_of_no_drive "\\\\m\\\\p".toList (by decide))⟩

end Win

/-! ## Windows `joinv` as a left fold -/

namespace Win

theorem splitdrive_nil : splitdrive [] = ([], []) := rfl

theorem beginsWithSep_nil : beginsWithSep [] = false := rfl

theorem win_joinvScan_cons (seg : List Char) (rest : List (List Char)) (i : Nat)
    (st : JoinvState) :
    joinvScan (seg :: rest) i st =
      joinvScan rest (i + 1)
        (if (splitdrive seg).1 ≠ [] then ⟨(splitdrive seg).1, (splitdrive seg).2, some i⟩
          else if beginsWithSep seg then ⟨st.drive, seg, some i⟩
          else st) := by
  cases seg with
  | nil => simp [joinvScan, splitdrive_nil, beginsWithSep_nil]
  | cons c cs =>
    by_cases hd : (splitdrive (c :: cs)).1 = []
    · by_cases hs : beginsWithSep (c :: cs) = true
      · simp [joinvScan, hd, hs]
      · simp [joinvScan, hd, hs]
    · simp [joinvScan, hd]

theorem win_joinvScan_append (xs ys : List (List Char)) (i : Nat) (st : JoinvState) :
    joinvScan (xs ++ ys) i st = joinvScan ys (i + xs.length) (joinvScan xs i st) := by
  induction xs generalizing i st with
  | nil => simp [joinvScan]
  | cons x xs ih =>
    have e : i + 1 + xs.length = i + (xs.length + 1) := by omega
    rw [List.cons_append, win_joinvScan_cons, win_joinvScan_cons, List.length_cons, ih, e]

theorem joinvScan_from (xs : List (List Char)) (i : Nat) (st : JoinvState) :
    (joinvScan xs i st).from_segment = st.from_segment ∨
      ∃ j, (joinvScan xs i st).from_segment = some j ∧ i ≤ j ∧ j < i + xs.length := by
  induction xs generalizing i st with
  | nil => exact Or.inl rfl
  | cons x xs ih =>
    rw [win_joinvScan_cons, List.length_cons]
    rcases ih (i + 1) (if (splitdrive x).1 ≠ [] then ⟨(splitdrive x).1, (splitdrive x).2, some i⟩
          else if beginsWithSep x then ⟨st.drive, x, some i⟩
          else st) with h | ⟨j, hj, h1, h2⟩
    · rw [h]
      split
      · exact Or.inr ⟨i, rfl, Nat.le_refl i, by omega⟩
      · split
        · exact Or.inr ⟨i, rfl, Nat.le_refl i, by omega⟩
        · exact Or.inl rfl
    · exact Or.inr ⟨j, hj, by omega, by omega⟩

theorem win_joinv_eq (root : List Char) (segments : List (List Char)) :
    joinv root segments =
      (segments.drop (Posix.joinvStart
          (joinvScan segments 0 ⟨(splitdrive root).1, (splitdrive root).2, none⟩).from_segment)).foldl
        joinvAppend
        ((joinvScan segments 0 ⟨(splitdrive root).1, (splitdrive root).2, none⟩).drive ++
          (joinvScan segments 0 ⟨(splitdrive root).1, (splitdrive root).2, none⟩).local_) := rfl

theorem win_joinvStart_le (st : JoinvState) (h : st.from_segment = none)
    (segments : List (List Char)) :
    Posix.joinvStart (joinvScan segments 0 st).from_segment ≤ segments.length := by
  rcases joinvScan_from segments 0 st with h1 | ⟨j, hj, _, h2⟩
  · rw [h1, h]
    exact Nat.zero_le _
  · rw [hj]
    simp only [Posix.joinvStart]
    omega

theorem joinv_nil (root : List Char) : joinv root [] = root := by
  rw [win_joinv_eq]
  simp [joinvScan, splitdrive_append]

theorem joinvDrive_nil (root : List Char) : joinvDrive root [] = (splitdrive root).1 := rfl

/-- Adding one segment at the end changes the drive in force and the joined
path by `joinvStep`. -/
theorem win_joinv_append_singleton (root : List Char) (init : List (List Char)) (last : List Char) :
    (joinvDrive root (init ++ [last]), joinv root (init ++ [last])) =
      joinvStep (joinvDrive root init, joinv root init) last := by
  simp only [joinvDrive, joinvStep]
  rw [win_joinv_eq, win_joinv_eq, win_joinvScan_append, win_joinvScan_cons]
  by_cases hd : (splitdrive last).1 = []
  · by_cases hs : beginsWithSep last = true
    · simp [joinvScan, Posix.joinvStart, hd, hs]
    · simp only [hd, hs, ne_eq, not_true_eq_false, if_false, joinvScan, Bool.false_eq_true]
      rw [List.drop_append_of_le_length (win_joinvStart_le _ rfl init), List.foldl_append]
      rfl
  · simp [joinvScan, Posix.joinvStart, hd, splitdrive_append]

theorem joinv_eq_foldl (root : List Char) (segments : List (List Char)) :
    (joinvDrive root segments, joinv root segments) =
      segments.foldl joinvStep ((splitdrive root).1, root) := by
  induction segments using List.reverseRecOn with
  | nil => rw [joinv_nil, joinvDrive_nil]; rfl
  | append_singleton init last ih =>
    rw [win_joinv_append_singleton, ih, List.foldl_append]
    rfl

theorem joinv_eq_foldl_snd (root : List Char) (segments : List (List Char)) :
    joinv root segments = (segments.foldl joinvStep ((splitdrive root).1, root)).2 := by
  rw [← joinv_eq_foldl]

theorem joinvStep_drive (st : List Char × List Char) (seg : List Char)
    (h : (splitdrive seg).1 ≠ []) : joinvStep st seg = ((splitdrive seg).1, seg) := by
  simp [joinvStep, h]

theorem joinv_restart_at_drive (root : List Char) (pre post : List (List Char))
    (seg : List Char) (h : (splitdrive seg).1 ≠ []) :
    joinv root (pre ++ [seg] ++ post) = joinv seg post := by
  rw [joinv_eq_foldl_snd, joinv_eq_foldl_snd]
  simp only [List.foldl_append, List.foldl_cons, List.foldl_nil]
  rw [joinvStep_drive _ _ h]

/-- C13: for every root, all segment lists `pre` and `post`, and every segment
`seg` for which `splitdrive seg` has a non-empty drive,
`joinv root (pre ++ [seg] ++ post) = joinv seg post`: a segment with a drive
discards the root and everything before it. -/
theorem joinv_drive_segment (root : List Char) (pre post : List (List Char)) (seg : List Char)
    (h : (splitdrive seg).1 ≠ []) :
    joinv root (pre ++ [seg] ++ post) = joinv seg post :=
  joinv_restart_at_drive root pre post seg h

/-- Witness for C13: `joinv "a" {"b", "C:x", "y"} = joinv "C:x" {"y"}`, which
is `C:x\y`. -/
theorem joinv_drive_segment_witness :
    joinv "a".toList (["b".toList] ++ ["C:x".toList] ++ ["y".toList]) =
        joinv "C:x".toList ["y".toList] ∧
      joinv "C:x".toList ["y".toList] = "C:x\\y".toList :=
  ⟨joinv_drive_segment "a".toList ["b".toList] ["y".toList] "C:x".toList (by decide),
    by decide⟩

end Win

/-! ## Windows `joinv`: a segment that begins with a separator keeps the drive -/

namespace Win

/-- A drive returned by `splitdrive` is, taken as a path, all drive. -/
theorem splitdrive_drive (path : List Char) :
    splitdrive (splitdrive path).1 = ((splitdrive path).1, []) := by
  rcases splitdrive_cases path with h | ⟨x, rest, _, h⟩ | ⟨m, mt, rest, h1, h2, h3, h4, _, h⟩ |
    ⟨m, mt, h1, h2, h3, h4, e, h⟩
  · rw [h]; rfl
  · rw [h]; exact splitdrive_colon x []
  · rw [h]; exact splitdrive_unc_share m mt h1 h2 h3 h4
  · rw [h]; exact h

theorem joinvStep_sep (st : List Char × List Char) (seg : List Char)
    (hsep : beginsWithSep seg = true) (hd : (splitdrive seg).1 = []) :
    joinvStep st seg = (st.1, st.1 ++ seg) := by
  simp [joinvStep, hd, hsep]

end Win

/-! ## The scan of Windows `split` -/

namespace Win

theorem splitLoop_cons (drive_size : Nat) (r : Char) (before : List Char) (st : SplitScan) :
    splitLoop drive_size (r :: before) st =
      if is_sep r then
        if st.basename_end.isNone then
          splitLoop drive_size before st
        else if st.basename_start.isNone then
          splitLoop drive_size before
            { st with basename_start := some (before.length + 1 + drive_size) }
        else
          splitLoop drive_size before st
      else
        if st.basename_end.isNone then
          splitLoop drive_size before
            { st with basename_end := some (before.length + 1 + drive_size) }
        else if st.basename_start.isNone then
          splitLoop drive_size before st
        else if st.dirname_end.isNone then
          { st with dirname_end := some (before.length + 1 + drive_size) }
        else
          splitLoop drive_size before st := rfl

/-- Separators met before the end of the basename is known are skipped. -/
theorem splitLoop_trailing_seps (ds : Nat) (t rest : List Char) (de : Option Nat)
    (bs : Option Nat) (ht : ∀ c ∈ t, is_sep c = true) :
    splitLoop ds (t ++ rest) ⟨none, bs, de⟩ = splitLoop ds rest ⟨none, bs, de⟩ := by
  induction t with
  | nil => rfl
  | cons c cs ih =>
    have hc : is_sep c = true := ht c (List.mem_cons_self c cs)
    rw [List.cons_append, splitLoop_cons, if_pos hc]
    simp only [Option.isNone_none, if_true]
    exact ih (fun x hx => ht x (List.mem_cons_of_mem c hx))

/-- Runes of the basename after its last one are skipped. -/
theorem splitLoop_in_basename (ds : Nat) (b rest : List Char) (be : Nat) (de : Option Nat)
    (hb : ∀ c ∈ b, is_sep c = false) :
    splitLoop ds (b ++ rest) ⟨some be, none, de⟩ = splitLoop ds rest ⟨some be, none, de⟩ := by
  induction b with
  | nil => rfl
  | cons c cs ih =>
    have hc : ¬ (is_sep c = true) := by
      rw [hb c (List.mem_cons_self c cs)]
      exact Bool.false_ne_true
    rw [List.cons_append, splitLoop_cons, if_neg hc]
    simp only [Option.isNone_some, Option.isNone_none, if_true, Bool.false_eq_true, if_false]
    exact ih (fun x hx => hb x (List.mem_cons_of_mem c hx))

/-- Separators in front of the basename after the first one met are skipped. -/
theorem splitLoop_more_seps (ds : Nat) (s rest : List Char) (be bs : Nat) (de : Option Nat)
    (hs : ∀ c ∈ s, is_sep c = true) :
    splitLoop ds (s ++ rest) ⟨some be, some bs, de⟩ =
      splitLoop ds rest ⟨some be, some bs, de⟩ := by
  induction s with
  | nil => rfl
  | cons c cs ih =>
    have hc : is_sep c = true := hs c (List.mem_cons_self c cs)
    rw [List.cons_append, splitLoop_cons, if_pos hc]
    simp only [Option.isNone_some, Bool.false_eq_true, if_false]
    exact ih (fun x hx => hs x (List.mem_cons_of_mem c hx))

/-- The scan over a non-empty run of non-separators records the end of the
basename. -/
theorem splitLoop_basename (ds : Nat) (b rest : List Char) (hne : b ≠ [])
    (hb : ∀ c ∈ b, is_sep c = false) :
    splitLoop ds (b ++ rest) ⟨none, none, none⟩ =
      splitLoop ds rest ⟨some (rest.length + b.length + ds), none, none⟩ := by
  cases b with
  | nil => exact absurd rfl hne
  | cons c cs =>
    have hc : ¬ (is_sep c = true) := by
      rw [hb c (List.mem_cons_self c cs)]
      exact Bool.false_ne_true
    rw [List.cons_append, splitLoop_cons, if_neg hc]
    simp only [Option.isNone_none, if_true]
    rw [splitLoop_in_basename ds cs rest _ none (fun x hx => hb x (List.mem_cons_of_mem c hx))]
    have e : (cs ++ rest).length + 1 + ds = rest.length + (c :: cs).length + ds := by
      simp only [List.length_append, List.length_cons]
      omega
    rw [e]

/-- The scan over a non-empty run of separators in front of the basename
records the start of the basename. -/
theorem splitLoop_seps (ds : Nat) (s rest : List Char) (be : Nat) (hne : s ≠ [])
    (hs : ∀ c ∈ s, is_sep c = true) :
    splitLoop ds (s ++ rest) ⟨some be, none, none⟩ =
      splitLoop ds rest ⟨some be, some (rest.length + s.length + ds), none⟩ := by
  cases s with
  | nil => exact absurd rfl hne
  | cons c cs =>
    have hc : is_sep c = true := hs c (List.mem_cons_self c cs)
    rw [List.cons_append, splitLoop_cons, if_pos hc]
    simp only [Option.isNone_some, Option.isNone_none, if_true, Bool.false_eq_true, if_false]
    rw [splitLoop_more_seps ds cs rest _ _ none (fun x hx => hs x (List.mem_cons_of_mem c hx))]
    have e : (cs ++ rest).length + 1 + ds = rest.length + (c :: cs).length + ds := by
      simp only [List.length_append, List.length_cons]
      omega
    rw [e]

/-- The first non-separator in front of those separators ends the scan and
records the end of the dirname. -/
theorem splitLoop_dirname (ds : Nat) (z : Char) (rest : List Char) (be bs : Nat)
    (hz : is_sep z = false) :
    splitLoop ds (z :: rest) ⟨some be, some bs, none⟩ =
      ⟨some be, some bs, some (rest.length + 1 + ds)⟩ := by
  have hc : ¬ (is_sep z = true) := by
    rw [hz]
    exact Bool.false_ne_true
  rw [splitLoop_cons, if_neg hc]
  simp

/-- The scan of a local part made of separators only finds nothing. -/
theorem splitLoop_all_seps (ds : Nat) (l : List Char) (hl : ∀ c ∈ l, is_sep c = true) :
    splitLoop ds l.reverse ⟨none, none, none⟩ = ⟨none, none, none⟩ := by
  have := splitLoop_trailing_seps ds l.reverse [] none none
    (fun c hc => hl c (List.mem_reverse.mp hc))
  rw [List.append_nil] at this
  rw [this]
  rfl

/-- The scan of `b ++ t`: only the end of the basename is found. -/
theorem splitLoop_shape_b (ds : Nat) (b t : List Char) (hne : b ≠ [])
    (hb : ∀ c ∈ b, is_sep c = false) (ht : ∀ c ∈ t, is_sep c = true) :
    splitLoop ds (b ++ t).reverse ⟨none, none, none⟩ = ⟨some (b.length + ds), none, none⟩ := by
  rw [List.reverse_append,
    splitLoop_trailing_seps ds t.reverse _ none none (fun c hc => ht c (List.mem_reverse.mp hc))]
  have := splitLoop_basename ds b.reverse [] (by simpa using hne)
    (fun c hc => hb c (List.mem_reverse.mp hc))
  rw [List.append_nil] at this
  rw [this]
  simp [splitLoop]

/-- The scan of `s ++ b ++ t`: the end and the start of the basename are
found. -/
theorem splitLoop_shape_sb (ds : Nat) (s b t : List Char) (hsne : s ≠ [])
    (hs : ∀ c ∈ s, is_sep c = true) (hne : b ≠ [])
    (hb : ∀ c ∈ b, is_sep c = false) (ht : ∀ c ∈ t, is_sep c = true) :
    splitLoop ds (s ++ b ++ t).reverse ⟨none, none, none⟩ =
      ⟨some (s.length + b.length + ds), some (s.length + ds), none⟩ := by
  rw [List.reverse_append, List.reverse_append,
    splitLoop_trailing_seps ds t.reverse _ none none (fun c hc => ht c (List.mem_reverse.mp hc)),
    splitLoop_basename ds b.reverse s.reverse (by simpa using hne)
      (fun c hc => hb c (List.mem_reverse.mp hc))]
  have := splitLoop_seps ds s.reverse [] (s.reverse.length + b.reverse.length + ds)
    (by simpa using hsne) (fun c hc => hs c (List.mem_reverse.mp hc))
  rw [List.append_nil] at this
  rw [this]
  simp [splitLoop]

/-- The scan of `d ++ [z] ++ s ++ b ++ t`: all three offsets are found. -/
theorem splitLoop_shape_dsb (ds : Nat) (d : List Char) (z : Char) (s b t : List Char)
    (hz : is_sep z = false) (hsne : s ≠ [])
    (hs : ∀ c ∈ s, is_sep c = true) (hne : b ≠ [])
    (hb : ∀ c ∈ b, is_sep c = false) (ht : ∀ c ∈ t, is_sep c = true) :
    splitLoop ds (d ++ [z] ++ s ++ b ++ t).reverse ⟨none, none, none⟩ =
      ⟨some (d.length + 1 + s.length + b.length + ds), some (d.length + 1 + s.length + ds),
        some (d.length + 1 + ds)⟩ := by
  rw [List.reverse_append, List.reverse_append, List.reverse_append,
    splitLoop_trailing_seps ds t.reverse _ none none (fun c hc => ht c (List.mem_reverse.mp hc)),
    splitLoop_basename ds b.reverse _ (by simpa using hne)
      (fun c hc => hb c (List.mem_reverse.mp hc)),
    splitLoop_seps ds s.reverse _ _ (by simpa using hsne)
      (fun c hc => hs c (List.mem_reverse.mp hc))]
  have e : (d ++ [z]).reverse = z :: d.reverse := by simp
  rw [e, splitLoop_dirname ds z d.reverse _ _ hz]
  simp only [List.length_append, List.length_reverse, List.length_cons, List.length_nil]
  have e2 : s.length + (d.length + 1) + b.length + ds = d.length + 1 + s.length + b.length + ds := by
    omega
  rw [e2]

end Win

/-! ## What Windows `split` returns, by the shape of the part after the drive -/

namespace Win

theorem substr_front (a c : List Char) (n : Nat) (hn : n = a.length) :
    substr (a ++ c) 0 n = a := by
  subst hn
  simp [substr]

theorem substr_mid (a b c : List Char) (i n : Nat) (hi : i = a.length) (hn : n = b.length) :
    substr (a ++ (b ++ c)) i n = b := by
  subst hi
  subst hn
  simp [substr]

theorem path_eq_of_splitdrive (path D L : List Char) (hsd : splitdrive path = (D, L)) :
    path = D ++ L := by
  have := splitdrive_append path
  rw [hsd] at this
  exact this.symm

/-- `split` in terms of the outcome of its scan. -/
theorem split_of_scan (path D L : List Char) (hsd : splitdrive path = (D, L)) (hL : L ≠ [])
    (st : SplitScan) (hst : splitLoop D.length L.reverse ⟨none, none, none⟩ = st) :
    split path =
      match st.basename_end with
      | none => (substr path 0 (D.length + 1), substr path D.length 1)
      | some basename_end =>
        if st.basename_start.getD D.length = 0 then
          (['.'], substr path (st.basename_start.getD D.length)
            (basename_end - st.basename_start.getD D.length))
        else if st.dirname_end.getD (st.basename_start.getD D.length) = 0 then
          (substr path 0 1, substr path (st.basename_start.getD D.length)
            (basename_end - st.basename_start.getD D.length))
        else
          (substr path 0 (st.dirname_end.getD (st.basename_start.getD D.length)),
            substr path (st.basename_start.getD D.length)
              (basename_end - st.basename_start.getD D.length)) := by
  have hp : path ≠ [] := by
    rw [path_eq_of_splitdrive path D L hsd]
    simp [hL]
  simp only [split, hsd, List.isEmpty_eq_true, hp, hL, if_false, hst]

/-- Shape A: the part after the drive is made of separators only. -/
theorem split_all_seps (path D : List Char) (c : Char) (l : List Char)
    (hsd : splitdrive path = (D, c :: l)) (hl : ∀ x ∈ c :: l, is_sep x = true) :
    split path = (D ++ [c], [c]) := by
  have hp := path_eq_of_splitdrive path D _ hsd
  rw [split_of_scan path D _ hsd (by simp) _ (splitLoop_all_seps D.length _ hl)]
  simp only
  rw [hp]
  have e1 : D ++ c :: l = (D ++ [c]) ++ l := by simp
  have e2 : D ++ c :: l = D ++ ([c] ++ l) := by simp
  congr 1
  · rw [e1]
    exact substr_front _ _ _ (by simp)
  · rw [e2]
    exact substr_mid _ _ _ _ _ rfl rfl

/-- Shape B: the part after the drive is the basename and trailing
separators. -/
theorem split_basename_only (path D b t : List Char)
    (hsd : splitdrive path = (D, b ++ t)) (hne : b ≠ [])
    (hb : ∀ c ∈ b, is_sep c = false) (ht : ∀ c ∈ t, is_sep c = true) :
    split path = (if D = [] then ['.'] else D, b) := by
  have hp := path_eq_of_splitdrive path D _ hsd
  rw [split_of_scan path D _ hsd (by simp [hne]) _ (splitLoop_shape_b D.length b t hne hb ht)]
  simp only [Option.getD_none]
  rw [hp]
  have hbn : substr (D ++ (b ++ t)) D.length (b.length + D.length - D.length) = b :=
    substr_mid _ _ _ _ _ rfl (by omega)
  by_cases hD : D = []
  · subst hD
    simp only [List.length_nil, if_true]
    rw [show b.length + 0 - 0 = b.length from rfl]
    have := substr_mid [] b t 0 b.length rfl rfl
    rw [List.nil_append] at this ⊢
    rw [this]
  · have hlen : D.length ≠ 0 := fun h => hD (List.length_eq_zero.mp h)
    rw [if_neg hlen, if_neg hlen, if_neg hD, hbn, substr_front _ _ _ rfl]

/-- Shape C: the part after the drive begins with separators, followed by the
basename. -/
theorem split_seps_basename (path D s b t : List Char)
    (hsd : splitdrive path = (D, s ++ b ++ t)) (hsne : s ≠ [])
    (hs : ∀ c ∈ s, is_sep c = true) (hne : b ≠ [])
    (hb : ∀ c ∈ b, is_sep c = false) (ht : ∀ c ∈ t, is_sep c = true) :
    split path = (D ++ s, b) := by
  have hp := path_eq_of_splitdrive path D _ hsd
  rw [split_of_scan path D _ hsd (by simp [hne]) _
    (splitLoop_shape_sb D.length s b t hsne hs hne hb ht)]
  simp only [Option.getD_none, Option.getD_some]
  have hslen : 0 < s.length := List.length_pos.mpr hsne
  have h0 : s.length + D.length ≠ 0 := by omega
  rw [if_neg h0, if_neg h0, hp]
  have e1 : D ++ (s ++ b ++ t) = (D ++ s) ++ (b ++ t) := by simp
  congr 1
  · rw [e1]
    exact substr_front _ _ _ (by simp only [List.length_append]; omega)
  · rw [e1]
    exact substr_mid _ _ _ _ _ (by simp only [List.length_append]; omega) (by omega)

/-- Shape D: a dirname that ends with a non-separator, separators, the
basename. -/
theorem split_dirname_basename (path D d : List Char) (z : Char) (s b t : List Char)
    (hsd : splitdrive path = (D, d ++ [z] ++ s ++ b ++ t)) (hz : is_sep z = false)
    (hsne : s ≠ []) (hs : ∀ c ∈ s, is_sep c = true) (hne : b ≠ [])
    (hb : ∀ c ∈ b, is_sep c = false) (ht : ∀ c ∈ t, is_sep c = true) :
    split path = (D ++ (d ++ [z]), b) := by
  have hp := path_eq_of_splitdrive path D _ hsd
  rw [split_of_scan path D _ hsd (by simp [hne]) _
    (splitLoop_shape_dsb D.length d z s b t hz hsne hs hne hb ht)]
  simp only [Option.getD_some]
  have h0 : d.length + 1 + s.length + D.length ≠ 0 := by omega
  have h1 : d.length + 1 + D.length ≠ 0 := by omega
  rw [if_neg h0, if_neg h1, hp]
  have e1 : D ++ (d ++ [z] ++ s ++ b ++ t) = (D ++ (d ++ [z])) ++ (s ++ b ++ t) := by simp
  have e2 : D ++ (d ++ [z] ++ s ++ b ++ t) = (D ++ (d ++ [z]) ++ s) ++ (b ++ t) := by simp
  congr 1
  · rw [e1]
    exact substr_front _ _ _ (by simp only [List.length_append, List.length_singleton]; omega)
  · rw [e2]
    exact substr_mid _ _ _ _ _
      (by simp only [List.length_append, List.length_singleton]; omega) (by omega)

end Win

/-! ## Every local part has one of the four shapes -/

namespace Win

/-- A list ends with a longest run of elements that satisfy `p`. -/
theorem exists_suffix_run (p : Char → Bool) (l : List Char) :
    ∃ d s, l = d ++ s ∧ (∀ c ∈ s, p c = true) ∧
      (d = [] ∨ ∃ d' z, d = d' ++ [z] ∧ p z = false) := by
  induction l using List.reverseRecOn with
  | nil => exact ⟨[], [], rfl, by simp, Or.inl rfl⟩
  | append_singleton init last ih =>
    by_cases hp : p last = true
    · rcases ih with ⟨d, s, e, hs, hd⟩
      refine ⟨d, s ++ [last], by rw [e, List.append_assoc], ?_, hd⟩
      intro c hc
      rcases List.mem_append.mp hc with h | h
      · exact hs c h
      · rw [List.mem_singleton.mp h]
        exact hp
    · exact ⟨init ++ [last], [], by simp, by simp,
        Or.inr ⟨init, last, rfl, by simpa using hp⟩⟩

theorem last_eq_of_append_singleton (a b : List Char) (x y : Char)
    (h : a ++ [x] = b ++ [y]) : x = y := by
  have := List.append_inj_right' h rfl
  simpa using this

/-- A non-empty local part is made of separators only, or it is a basename
with trailing separators (`b ++ t`), possibly behind separators
(`s ++ b ++ t`), possibly behind a dirname that ends with a non-separator
(`d ++ [z] ++ s ++ b ++ t`). -/
theorem local_shape (l : List Char) :
    (∀ c ∈ l, is_sep c = true) ∨
      ∃ b t, b ≠ [] ∧ (∀ c ∈ b, is_sep c = false) ∧ (∀ c ∈ t, is_sep c = true) ∧
        (l = b ++ t ∨
          ∃ s, s ≠ [] ∧ (∀ c ∈ s, is_sep c = true) ∧
            (l = s ++ b ++ t ∨ ∃ d z, is_sep z = false ∧ l = d ++ [z] ++ s ++ b ++ t)) := by
  rcases exists_suffix_run is_sep l with ⟨cr, t, e1, ht, hcr⟩
  rcases hcr with hcr | ⟨cr', x, ecr, hx⟩
  · left
    rw [e1, hcr, List.nil_append]
    exact ht
  · right
    rcases exists_suffix_run (fun c => !is_sep c) cr with ⟨pre, b, e2, hb, hpre⟩
    have hb' : ∀ c ∈ b, is_sep c = false := by
      intro c hc
      simpa using hb c hc
    have hbne : b ≠ [] := by
      intro hb0
      rw [hb0, List.append_nil] at e2
      rcases hpre with hpre | ⟨p', z, ep, hz⟩
      · rw [← e2, ecr] at hpre
        simp at hpre
      · rw [← e2, ecr] at ep
        have := last_eq_of_append_singleton _ _ _ _ ep
        rw [← this] at hz
        simp [hx] at hz
    refine ⟨b, t, hbne, hb', ht, ?_⟩
    rcases hpre with hpre | ⟨p', y, epre, hy⟩
    · left
      rw [e1, e2, hpre, List.nil_append]
    · right
      have hy' : is_sep y = true := by simpa using hy
      rcases exists_suffix_run is_sep pre with ⟨d, s, e3, hs, hd⟩
      have hsne : s ≠ [] := by
        intro hs0
        rw [hs0, List.append_nil] at e3
        rcases hd with hd | ⟨d', z, ed, hz⟩
        · rw [← e3, epre] at hd
          simp at hd
        · rw [← e3, epre] at ed
          have := last_eq_of_append_singleton _ _ _ _ ed
          rw [← this, hy'] at hz
          exact Bool.noConfusion hz
      refine ⟨s, hsne, hs, ?_⟩
      rcases hd with hd | ⟨d', z, ed, hz⟩
      · left
        rw [e1, e2, e3, hd, List.nil_append]
      · right
        exact ⟨d', z, hz, by rw [e1, e2, e3, ed]⟩

end Win

/-! ## Windows `split` stays inside the path -/

namespace Win

theorem splitOffsets_of_scan (path D L : List Char) (hsd : splitdrive path = (D, L))
    (st : SplitScan) (hst : splitLoop D.length L.reverse ⟨none, none, none⟩ = st) :
    splitOffsets path =
      match st.basename_end with
      | none => none
      | some basename_end =>
        some (st.dirname_end.getD (st.basename_start.getD D.length),
          st.basename_start.getD D.length, basename_end) := by
  simp only [splitOffsets, hsd, hst]

/-- The offsets of `split` are ordered and inside the path. -/
theorem splitOffsets_bounds (path : List Char) (hL : (splitdrive path).2 ≠ []) :
    match splitOffsets path with
    | none => (splitdrive path).1.length + 1 ≤ path.length
    | some (de, bs, be) =>
      (splitdrive path).1.length ≤ de ∧ de ≤ bs ∧ bs ≤ be ∧ be ≤ path.length ∧
        ¬ (bs ≠ 0 ∧ de = 0) := by
  obtain ⟨D, L, hsd⟩ : ∃ D L, splitdrive path = (D, L) := ⟨_, _, rfl⟩
  have hp := path_eq_of_splitdrive path D L hsd
  have hlen : path.length = D.length + L.length := by rw [hp, List.length_append]
  rw [hsd] at hL ⊢
  simp only at hL ⊢
  have hLpos : 0 < L.length := List.length_pos.mpr hL
  rcases local_shape L with hall | ⟨b, t, hbne, hb, ht, hshape⟩
  · rw [splitOffsets_of_scan path D L hsd _ (splitLoop_all_seps D.length L hall)]
    simp only
    omega
  · have hbpos : 0 < b.length := List.length_pos.mpr hbne
    rcases hshape with e | ⟨s, hsne, hs, e | ⟨d, z, hz, e⟩⟩
    · subst e
      rw [splitOffsets_of_scan path D _ hsd _ (splitLoop_shape_b D.length b t hbne hb ht)]
      simp only [Option.getD_none, List.length_append] at hlen ⊢
      omega
    · subst e
      have hspos : 0 < s.length := List.length_pos.mpr hsne
      rw [splitOffsets_of_scan path D _ hsd _
        (splitLoop_shape_sb D.length s b t hsne hs hbne hb ht)]
      simp only [Option.getD_none, Option.getD_some, List.length_append] at hlen ⊢
      omega
    · subst e
      have hspos : 0 < s.length := List.length_pos.mpr hsne
      rw [splitOffsets_of_scan path D _ hsd _
        (splitLoop_shape_dsb D.length d z s b t hz hsne hs hbne hb ht)]
      simp only [Option.getD_some, List.length_append, List.length_singleton] at hlen ⊢
      omega

theorem substrChecked_ok (s : List Char) (i n : Nat) (h : i + n ≤ s.length) :
    substrChecked s (i : Int) (n : Int) = .ok (substr s i n) := by
  have hc : (0 : Int) ≤ (i : Int) ∧ (0 : Int) ≤ (n : Int) ∧
      (i : Int) + (n : Int) ≤ (s.length : Int) := by omega
  rw [substrChecked, if_pos hc]
  rfl

theorem substrChecked_sub_ok (s : List Char) (bs be : Nat) (h1 : bs ≤ be)
    (h2 : be ≤ s.length) :
    substrChecked s (bs : Int) ((be : Int) - (bs : Int)) = .ok (substr s bs (be - bs)) := by
  have e : (be : Int) - (bs : Int) = ((be - bs : Nat) : Int) := by omega
  rw [e]
  exact substrChecked_ok s bs (be - bs) (by omega)

theorem win_splitChecked_eq (path : List Char) : splitChecked path = .ok (split path) := by
  by_cases hp : path = []
  · subst hp
    rfl
  · by_cases hL : (splitdrive path).2 = []
    · simp [splitChecked, split, hp, hL]
    · have hb := splitOffsets_bounds path hL
      have hpl : 0 < path.length := List.length_pos.mpr hp
      simp only [splitOffsets] at hb
      simp only [splitChecked, split, List.isEmpty_eq_true, hp, hL, if_false]
      generalize splitLoop (splitdrive path).1.length (splitdrive path).2.reverse
        ⟨none, none, none⟩ = st at hb ⊢
      generalize (splitdrive path).1.length = dl at hb ⊢
      obtain ⟨obe, obs, ode⟩ := st
      cases obe with
      | none =>
        simp only at hb ⊢
        have e1 := substrChecked_ok path 0 (dl + 1) (by omega)
        have e2 := substrChecked_ok path dl 1 (by omega)
        simp only [Nat.cast_zero, Nat.cast_add, Nat.cast_one] at e1 e2
        rw [e1, e2]
        rfl
      | some be =>
        simp only at hb ⊢
        generalize obs.getD dl = bs at hb ⊢
        generalize ode.getD bs = de at hb ⊢
        rcases hb with ⟨h1, h2, h3, h4, h5⟩
        rw [substrChecked_sub_ok path bs be h3 h4]
        have e0 := substrChecked_ok path 0 1 (by omega)
        have e1 := substrChecked_ok path 0 de (by omega)
        simp only [Nat.cast_zero, Nat.cast_one] at e0 e1
        rw [e0, e1]
        split
        · rfl
        · split
          · rfl
          · rfl

/-- C18: Windows `split` is total and never takes an out-of-range substring.
With every substring checked it returns the value of `split` without error;
whenever the scan finds a basename the offsets satisfy
`drive length ≤ dirname_end ≤ basename_start ≤ basename_end ≤ path length`, in
the all-separators case `drive length + 1 ≤ path length`, and `dirname_end = 0`
never holds together with `basename_start ≠ 0`. -/
theorem split_offsets_in_range (path : List Char) :
    splitChecked path = .ok (split path) ∧
      ((splitdrive path).2 ≠ [] →
        match splitOffsets path with
        | none => (splitdrive path).1.length + 1 ≤ path.length
        | some (de, bs, be) =>
          (splitdrive path).1.length ≤ de ∧ de ≤ bs ∧ bs ≤ be ∧ be ≤ path.length ∧
            ¬ (bs ≠ 0 ∧ de = 0)) :=
  ⟨win_splitChecked_eq path, splitOffsets_bounds path⟩

/-- Witness for C18: `C:\a\\b\`, where the offsets are 4, 6 and 7 in a path
of length 8 with a drive of length 2, and `C:\\`, which is all separators
after the drive. -/
theorem split_offsets_in_range_witness :
    splitOffsets "C:\\a\\\\b\\".toList = some (4, 6, 7) ∧
      splitChecked "C:\\a\\\\b\\".toList = .ok ("C:\\a".toList, "b".toList) ∧
      splitOffsets "C:\\\\".toList = none ∧
      (splitdrive "C:\\\\".toList).1.length + 1 ≤ "C:\\\\".toList.length := by
  have h1 := (split_offsets_in_range "C:\\a\\\\b\\".toList).1
  have h2 := (split_offsets_in_range "C:\\\\".toList).2 (by decide)
  have e : splitOffsets "C:\\\\".toList = none := by decide
  rw [e] at h2
  exact ⟨by decide, by rw [h1]; rfl, e, h2⟩

end Win

/-! ## Windows `split` and trailing separators -/

namespace Win

theorem is_sep_cases (x : Char) (h : is_sep x = true) : x = '/' ∨ x = '\\' := by
  simpa [is_sep] using h

theorem is_sep_backslash : is_sep '\\' = true := by decide

/-- Removing one trailing separator from a local part that keeps at least one
rune leaves the drive as it is. -/
theorem splitdrive_dropLast (P D L : List Char) (x : Char)
    (hsd : splitdrive P = (D, L ++ [x])) (hne : L ≠ []) (hx : is_sep x = true) :
    splitdrive (D ++ L) = (D, L) := by
  have hP := path_eq_of_splitdrive P D _ hsd
  rcases splitdrive_cases P with h | ⟨c, rest, e, h⟩ | ⟨m, mt, rest, h1, h2, h3, h4, e, h⟩ |
    ⟨m, mt, h1, h2, h3, h4, e, h⟩
  · rw [hsd] at h
    have hD : D = [] := (Prod.mk.inj h).1
    subst hD
    rw [List.nil_append] at hP ⊢
    rcases splitdrive_cases L with h' | ⟨c, rest, e', _⟩ |
      ⟨m, mt, rest, h1, h2, h3, h4, e', _⟩ | ⟨m, mt, h1, h2, h3, h4, e', _⟩
    · exact h'
    · exfalso
      have := splitdrive_colon c (rest ++ [x])
      rw [show c :: ':' :: (rest ++ [x]) = (c :: ':' :: rest) ++ [x] from rfl, ← e', ← hP,
        hsd] at this
      simp at this
    · exfalso
      have := splitdrive_unc_share_path m mt (rest ++ [x]) h1 h2 h3 h4
      rw [show '\\' :: '\\' :: (m ++ '\\' :: (mt ++ '\\' :: (rest ++ [x]))) =
        ('\\' :: '\\' :: (m ++ '\\' :: (mt ++ '\\' :: rest))) ++ [x] from by simp, ← e', ← hP,
        hsd] at this
      simp at this
    · exfalso
      rcases is_sep_cases x hx with hx' | hx'
      · have hmt : '\\' ∉ mt ++ [x] := by
          rw [hx']
          simp [h4]
        have := splitdrive_unc_share m (mt ++ [x]) h1 h2 (by simp) hmt
        rw [show '\\' :: '\\' :: (m ++ '\\' :: (mt ++ [x])) =
          ('\\' :: '\\' :: (m ++ '\\' :: mt)) ++ [x] from by simp, ← e', ← hP, hsd] at this
        simp at this
      · subst hx'
        have := splitdrive_unc_share_path m mt [] h1 h2 h3 h4
        rw [show '\\' :: '\\' :: (m ++ '\\' :: (mt ++ ['\\'])) =
          ('\\' :: '\\' :: (m ++ '\\' :: mt)) ++ ['\\'] from by simp, ← e', ← hP,
          hsd] at this
        simp at this
        exact hne this
  · rw [hsd] at h
    have hD : D = [c, ':'] := (Prod.mk.inj h).1
    subst hD
    exact splitdrive_colon c L
  · rw [hsd] at h
    have hD : D = '\\' :: '\\' :: (m ++ '\\' :: mt) := (Prod.mk.inj h).1
    have hL : L ++ [x] = '\\' :: rest := (Prod.mk.inj h).2
    cases L with
    | nil => exact absurd rfl hne
    | cons c cs =>
      rw [List.cons_append] at hL
      have hc : c = '\\' := (List.cons.inj hL).1
      subst hc
      subst hD
      have := splitdrive_unc_share_path m mt cs h1 h2 h3 h4
      rw [show '\\' :: '\\' :: (m ++ '\\' :: (mt ++ '\\' :: cs)) =
        ('\\' :: '\\' :: (m ++ '\\' :: mt)) ++ '\\' :: cs from by simp] at this
      exact this
  · rw [hsd] at h
    have hL : L ++ [x] = [] := (Prod.mk.inj h).2
    simp at hL

/-- A separator appended to a non-empty local part does not change what
`split` returns, as long as the drive stays the same. -/
theorem split_local_append_sep (P P' D L : List Char) (x : Char)
    (hsd : splitdrive P = (D, L ++ [x])) (hsd' : splitdrive P' = (D, L)) (hne : L ≠ [])
    (hx : is_sep x = true) : split P = split P' := by
  have htx : ∀ t : List Char, (∀ c ∈ t, is_sep c = true) → ∀ c ∈ t ++ [x], is_sep c = true := by
    intro t ht c hc
    rcases List.mem_append.mp hc with h | h
    · exact ht c h
    · rw [List.mem_singleton.mp h]
      exact hx
  rcases local_shape L with hall | ⟨b, t, hbne, hb, ht, hshape⟩
  · cases L with
    | nil => exact absurd rfl hne
    | cons c l =>
      rw [split_all_seps P' D c l hsd' hall]
      rw [List.cons_append] at hsd
      refine split_all_seps P D c (l ++ [x]) hsd ?_
      rw [← List.cons_append]
      exact htx _ hall
  · rcases hshape with e | ⟨s, hsne, hs, e | ⟨d, z, hz, e⟩⟩
    · subst e
      rw [split_basename_only P' D b t hsd' hbne hb ht]
      rw [List.append_assoc] at hsd
      exact split_basename_only P D b (t ++ [x]) hsd hbne hb (htx t ht)
    · subst e
      rw [split_seps_basename P' D s b t hsd' hsne hs hbne hb ht]
      rw [List.append_assoc] at hsd
      exact split_seps_basename P D s b (t ++ [x]) hsd hsne hs hbne hb (htx t ht)
    · subst e
      rw [split_dirname_basename P' D d z s b t hsd' hz hsne hs hbne hb ht]
      rw [List.append_assoc] at hsd
      exact split_dirname_basename P D d z s b (t ++ [x]) hsd hz hsne hs hbne hb (htx t ht)

theorem split_strip_trailing_sep (P : List Char) (hlast : endsWithSep P = true)
    (hlen : 2 ≤ (splitdrive P).2.length) : split P = split P.dropLast := by
  obtain ⟨D, L, hsd⟩ : ∃ D L, splitdrive P = (D, L) := ⟨_, _, rfl⟩
  rw [hsd] at hlen
  simp only at hlen
  have hLne : L ≠ [] := by
    intro h
    rw [h] at hlen
    simp at hlen
  have hP := path_eq_of_splitdrive P D L hsd
  have hL : L = L.dropLast ++ [L.getLast hLne] := (List.dropLast_append_getLast hLne).symm
  have hdne : L.dropLast ≠ [] := by
    intro h
    have := congrArg List.length h
    simp only [List.length_dropLast, List.length_nil] at this
    omega
  have hx : is_sep (L.getLast hLne) = true := by
    have : P.getLast? = some (L.getLast hLne) := by
      rw [hP, List.getLast?_append_of_ne_nil _ hLne, List.getLast?_eq_getLast _ hLne]
    simpa [endsWithSep, this] using hlast
  have hdrop : P.dropLast = D ++ L.dropLast := by
    rw [hP, List.dropLast_append_of_ne_nil _ hLne]
  rw [hL] at hsd
  rw [hdrop]
  exact split_local_append_sep P (D ++ L.dropLast) D L.dropLast _ hsd
    (splitdrive_dropLast P D L.dropLast _ hsd hdne hx) hdne hx

/-- C15, as the code has it: for every path `P` whose last character is a
separator and whose part after the drive has at least two characters,
`split P` equals `split` of `P` with that one trailing separator removed. -/
theorem win_split_dropLast_of_trailing_sep (P : List Char) (hlast : endsWithSep P = true)
    (hlen : 2 ≤ (splitdrive P).2.length) : split P = split P.dropLast :=
  split_strip_trailing_sep P hlast hlen

/-- Witness for C15 as amended: `C:\a\b\`. -/
theorem win_split_dropLast_of_trailing_sep_witness :
    split "C:\\a\\b\\".toList = split "C:\\a\\b\\".toList.dropLast ∧
      split "C:\\a\\b\\".toList = ("C:\\a".toList, "b".toList) :=
  ⟨win_split_dropLast_of_trailing_sep "C:\\a\\b\\".toList (by decide) (by decide), by decide⟩

/-- C15 fails when the separator is all there is after the drive: for a lone
separator, for `C:\` and for the share `\\m\s\`, `split` of the path differs
from `split` of the path without its trailing separator. -/
theorem win_split_trailing_sep_after_drive :
    (endsWithSep "/".toList = true ∧ split "/".toList = ("/".toList, "/".toList) ∧
        split "/".toList.dropLast = (".".toList, [])) ∧
      (endsWithSep "C:\\".toList = true ∧ split "C:\\".toList = ("C:\\".toList, "\\".toList) ∧
        split "C:\\".toList.dropLast = ("C:".toList, [])) ∧
      (endsWithSep "\\\\m\\s\\".toList = true ∧
        split "\\\\m\\s\\".toList = ("\\\\m\\s\\".toList, "\\".toList) ∧
        split "\\\\m\\s\\".toList.dropLast = ("\\\\m\\s".toList, [])) ∧
      split "/".toList ≠ split "/".toList.dropLast ∧
      split "C:\\".toList ≠ split "C:\\".toList.dropLast ∧
      split "\\\\m\\s\\".toList ≠ split "\\\\m\\s\\".toList.dropLast := by
  decide

end Win

/-! ## Windows `split` against POSIX `split` -/

namespace Posix

/-- POSIX `split` of a non-empty path made of separators only. -/
theorem split_all_sep (p : List Char) (hne : p ≠ []) (h : ∀ c ∈ p, c = sep) :
    split p = ([sep], [sep]) := by
  induction p using List.reverseRecOn with
  | nil => exact absurd rfl hne
  | append_singleton init last ih =>
    have hl : last = sep := h last (by simp)
    subst hl
    by_cases hi : init = []
    · subst hi
      simp only [List.nil_append, split, dirname_sep, basename_sep]
    · rw [split_append_sep init hi]
      exact ih hi (fun c hc => h c (List.mem_append_left _ hc))

/-- POSIX `split` ignores trailing separators behind a non-empty path. -/
theorem split_append_seps (p t : List Char) (hne : p ≠ []) (ht : ∀ c ∈ t, c = sep) :
    split (p ++ t) = split p := by
  induction t using List.reverseRecOn with
  | nil => rw [List.append_nil]
  | append_singleton init last ih =>
    have hl : last = sep := ht last (by simp)
    subst hl
    rw [← List.append_assoc, split_append_sep (p ++ init) (by simp [hne])]
    exact ih (fun c hc => ht c (List.mem_append_left _ hc))

end Posix

namespace Win

theorem splitdrive_of_no_backslash (P : List Char) (hbs : '\\' ∉ P)
    (hcolon : P[1]? ≠ some ':') : splitdrive P = ([], P) := by
  rcases splitdrive_cases P with h | ⟨x, rest, e, _⟩ | ⟨m, mt, rest, _, _, _, _, e, _⟩ |
    ⟨m, mt, _, _, _, _, e, _⟩
  · exact h
  · exact absurd (by rw [e]; simp) hcolon
  · exact absurd (by rw [e]; simp) hbs
  · exact absurd (by rw [e]; simp) hbs

theorem eq_slash_of_is_sep (P : List Char) (hbs : '\\' ∉ P) (c : Char) (hc : c ∈ P)
    (h : is_sep c = true) : c = '/' := by
  rcases is_sep_cases c h with h' | h'
  · exact h'
  · rw [h'] at hc
    exact absurd hc hbs

theorem slash_not_mem_of_no_sep (b : List Char) (hb : ∀ c ∈ b, is_sep c = false) :
    Posix.sep ∉ b := by
  intro h
  have := hb _ h
  simp [is_sep, Posix.sep] at this

/-- A run of at least two separators ends with two separators. -/
theorem exists_two_last (s : List Char) (h : 2 ≤ s.length) :
    ∃ s' x y, s = s' ++ [x, y] := by
  have hne : s ≠ [] := by
    intro e
    rw [e] at h
    simp at h
  have hne2 : s.dropLast ≠ [] := by
    intro e
    have := congrArg List.length e
    simp only [List.length_dropLast, List.length_nil] at this
    omega
  refine ⟨s.dropLast.dropLast, s.dropLast.getLast hne2, s.getLast hne, ?_⟩
  have e1 := List.dropLast_append_getLast hne
  have e2 := List.dropLast_append_getLast hne2
  conv_lhs => rw [← e1, ← e2]
  simp

end Win

theorem rdropWhile_append_of_all (p : Char → Bool) (l t : List Char)
    (ht : ∀ c ∈ t, p c = true) : (l ++ t).rdropWhile p = l.rdropWhile p := by
  induction t using List.reverseRecOn with
  | nil => rw [List.append_nil]
  | append_singleton init last ih =>
    rw [← List.append_assoc, List.rdropWhile_concat_pos _ _ _ (ht last (by simp))]
    exact ih (fun c hc => ht c (List.mem_append_left _ hc))

/-- A computable test for "the basename is not preceded by two separators":
strip the trailing separators, then the basename; what is left must not end
with two separators. -/
theorem no_double_sep_before_basename (P : List Char)
    (h : ¬ (['/', '/'] <:+
      (P.rdropWhile (fun c => c == '/')).rdropWhile (fun c => c != '/'))) :
    ∀ a b t : List Char, b ≠ [] → '/' ∉ b → (∀ c ∈ t, c = '/') →
      P ≠ a ++ ['/', '/'] ++ b ++ t := by
  intro a b t hb hnb ht e
  apply h
  have hx : (b.getLast hb == '/') = false := by
    have : b.getLast hb ≠ '/' := fun e' => hnb (e' ▸ List.getLast_mem hb)
    simpa using this
  have e1 : (a ++ ['/', '/'] ++ b ++ t).rdropWhile (fun c => c == '/') =
      a ++ ['/', '/'] ++ b := by
    rw [rdropWhile_append_of_all _ _ t (fun c hc => by simp [ht c hc])]
    conv_lhs => rw [← List.dropLast_append_getLast hb, ← List.append_assoc]
    rw [List.rdropWhile_concat_neg _ _ _ (by simp [hx])]
    rw [List.append_assoc, List.dropLast_append_getLast hb]
  have e2 : (a ++ ['/', '/'] ++ b).rdropWhile (fun c => c != '/') = a ++ ['/', '/'] := by
    rw [rdropWhile_append_of_all _ _ b (fun c hc => by
      have : c ≠ '/' := fun e' => hnb (e' ▸ hc)
      simpa using this)]
    rw [show a ++ ['/', '/'] = (a ++ ['/']) ++ ['/'] from by simp,
      List.rdropWhile_concat_neg _ _ _ (by simp)]
  rw [e, e1, e2]
  exact List.suffix_append a ['/', '/']

/-- Windows and POSIX `split` agree on a path without backslash and without
drive in which the basename is not preceded by two separators. -/
theorem win_split_eq_posix_split_aux (P : List Char) (hbs : '\\' ∉ P)
    (hcolon : P[1]? ≠ some ':')
    (hrun : ∀ a b t : List Char, b ≠ [] → '/' ∉ b → (∀ c ∈ t, c = '/') →
      P ≠ a ++ ['/', '/'] ++ b ++ t) :
    Win.split P = Posix.split P := by
  have hsd := Win.splitdrive_of_no_backslash P hbs hcolon
  by_cases hP : P = []
  · subst hP
    rw [Posix.split_eq_of_not_mem [] (by simp)]
    rfl
  · have hslash : ∀ l : List Char, (∀ c ∈ l, c ∈ P) → (∀ c ∈ l, Win.is_sep c = true) →
        ∀ c ∈ l, c = Posix.sep := fun l hl hs c hc =>
      Win.eq_slash_of_is_sep P hbs c (hl c hc) (hs c hc)
    rcases Win.local_shape P with hall | ⟨b, t, hbne, hb, ht, hshape⟩
    · cases hPc : P with
      | nil => exact absurd hPc hP
      | cons c l =>
        rw [hPc] at hall hsd
        have hc : c = Posix.sep :=
          hslash P (fun _ h => h) (by rw [hPc]; exact hall) c (by rw [hPc]; simp)
        rw [Win.split_all_seps _ [] c l hsd hall,
          Posix.split_all_sep (c :: l) (by simp)
            (fun x hx => hslash P (fun _ h => h) (by rw [hPc]; exact hall) x (by rw [hPc]; exact hx)),
          hc]
        rfl
    · have hbm := Win.slash_not_mem_of_no_sep b hb
      rcases hshape with e | ⟨s, hsne, hs, e | ⟨d, z, hz, e⟩⟩
      · have ht' : ∀ c ∈ t, c = Posix.sep :=
          hslash t (fun c hc => by rw [e]; simp [hc]) ht
        rw [e] at hsd ⊢
        rw [Win.split_basename_only _ [] b t hsd hbne hb ht,
          Posix.split_append_seps b t hbne ht', Posix.split_eq_of_not_mem b hbm]
        rfl
      · have ht' : ∀ c ∈ t, c = Posix.sep :=
          hslash t (fun c hc => by rw [e]; simp [hc]) ht
        have hs' : ∀ c ∈ s, c = Posix.sep :=
          hslash s (fun c hc => by rw [e]; simp [hc]) hs
        have hs1 : s = [Posix.sep] := by
          by_cases h2 : 2 ≤ s.length
          · exfalso
            rcases Win.exists_two_last s h2 with ⟨s', x, y, es⟩
            have hx : x = '/' := hs' x (by rw [es]; simp)
            have hy : y = '/' := hs' y (by rw [es]; simp)
            apply hrun s' b t hbne hbm ht'
            rw [e, es, hx, hy]
          · cases s with
            | nil => exact absurd rfl hsne
            | cons c cs =>
              cases cs with
              | nil => rw [hs' c (by simp)]
              | cons c' cs' => simp at h2
        rw [e] at hsd ⊢
        rw [Win.split_seps_basename _ [] s b t hsd hsne hs hbne hb ht,
          Posix.split_append_seps (s ++ b) t (by simp [hbne]) ht', hs1]
        simp only [Posix.split, List.singleton_append, List.nil_append]
        rw [show Posix.sep :: b = [] ++ Posix.sep :: b from rfl,
          Posix.dirname_append_cons [] b hbm hbne, Posix.basename_append_cons [] b hbm hbne]
        rfl
      · have ht' : ∀ c ∈ t, c = Posix.sep :=
          hslash t (fun c hc => by rw [e]; simp [hc]) ht
        have hs' : ∀ c ∈ s, c = Posix.sep :=
          hslash s (fun c hc => by rw [e]; simp [hc]) hs
        have hs1 : s = [Posix.sep] := by
          by_cases h2 : 2 ≤ s.length
          · exfalso
            rcases Win.exists_two_last s h2 with ⟨s', x, y, es⟩
            have hx : x = '/' := hs' x (by rw [es]; simp)
            have hy : y = '/' := hs' y (by rw [es]; simp)
            apply hrun (d ++ [z] ++ s') b t hbne hbm ht'
            rw [e, es, hx, hy]
            simp
          · cases s with
            | nil => exact absurd rfl hsne
            | cons c cs =>
              cases cs with
              | nil => rw [hs' c (by simp)]
              | cons c' cs' => simp at h2
        rw [e] at hsd ⊢
        rw [Win.split_dirname_basename _ [] d z s b t hsd hz hsne hs hbne hb ht,
          Posix.split_append_seps (d ++ [z] ++ s ++ b) t (by simp [hbne]) ht', hs1]
        simp only [Posix.split, List.nil_append]
        rw [show d ++ [z] ++ [Posix.sep] ++ b = (d ++ [z]) ++ Posix.sep :: b from by simp,
          Posix.dirname_append_cons (d ++ [z]) b hbm hbne,
          Posix.basename_append_cons (d ++ [z]) b hbm hbne, if_neg (by simp)]

/-- C17, as the code has it: for every path `P` that contains no backslash, has
no drive (its second character is not `:`) and in which the basename is not
preceded by two adjacent separators, the Windows `split P` and the POSIX
`split P` return the same pair. -/
theorem win_split_eq_posix_split (P : List Char) (hbs : '\\' ∉ P)
    (hcolon : P[1]? ≠ some ':')
    (hrun : ∀ a b t : List Char, b ≠ [] → '/' ∉ b → (∀ c ∈ t, c = '/') →
      P ≠ a ++ ['/', '/'] ++ b ++ t) :
    Win.split P = Posix.split P :=
  win_split_eq_posix_split_aux P hbs hcolon hrun

/-- Witness for C17 as amended: `a//b/c/`, whose repeated separators are not
in front of the basename; both variants return `("a//b", "c")`. -/
theorem win_split_eq_posix_split_witness :
    Win.split "a//b/c/".toList = Posix.split "a//b/c/".toList ∧
      Win.split "a//b/c/".toList = ("a//b".toList, "c".toList) :=
  ⟨win_split_eq_posix_split "a//b/c/".toList (by decide) (by decide)
      (no_double_sep_before_basename "a//b/c/".toList (by decide)),
    by decide⟩

/-- C17 fails where separators repeat in front of the basename: for `a//b`
Windows returns `("a", "b")` and POSIX `("a/", "b")`; for `//a` Windows returns
`("//", "a")` and POSIX `("/", "a")`. -/
theorem win_split_ne_posix_split :
    ('\\' ∉ "a//b".toList ∧ "a//b".toList[1]? ≠ some ':' ∧
        Win.split "a//b".toList = ("a".toList, "b".toList) ∧
        Posix.split "a//b".toList = ("a/".toList, "b".toList) ∧
        Win.split "a//b".toList ≠ Posix.split "a//b".toList) ∧
      ('\\' ∉ "//a".toList ∧ "//a".toList[1]? ≠ some ':' ∧
        Win.split "//a".toList = ("//".toList, "a".toList) ∧
        Posix.split "//a".toList = ("/".toList, "a".toList) ∧
        Win.split "//a".toList ≠ Posix.split "//a".toList) := by
  have w1 : Win.split "a//b".toList = ("a".toList, "b".toList) := by decide
  have w2 : Win.split "//a".toList = ("//".toList, "a".toList) := by decide
  have p1 : Posix.split "a//b".toList = ("a/".toList, "b".toList) := by
    have e : "a//b".toList = "a/".toList ++ Posix.sep :: "b".toList := by decide
    rw [e]
    simp only [Posix.split]
    rw [Posix.dirname_append_cons _ _ (by decide) (by decide),
      Posix.basename_append_cons _ _ (by decide) (by decide)]
    rfl
  have p2 : Posix.split "//a".toList = ("/".toList, "a".toList) := by
    have e : "//a".toList = "/".toList ++ Posix.sep :: "a".toList := by decide
    rw [e]
    simp only [Posix.split]
    rw [Posix.dirname_append_cons _ _ (by decide) (by decide),
      Posix.basename_append_cons _ _ (by decide) (by decide)]
    rfl
  refine ⟨⟨by decide, by decide, w1, p1, ?_⟩, ⟨by decide, by decide, w2, p2, ?_⟩⟩
  · rw [w1, p1]
    decide
  · rw [w2, p2]
    decide

/-! ## POSIX `walk`: one callback per entry, and failure -/

namespace Posix

theorem walkEntry_of_specCall (strerror : List Char) (ent : FtsEnt) (call : Call)
    (h : specCall ent = some call) : walkEntry strerror ent = .ok call := by
  obtain ⟨info, path, st⟩ := ent
  simp only [specCall, specCallback, Option.map_eq_some'] at h
  rcases h with ⟨cb, hcb, rfl⟩
  simp only [walkEntry]
  by_cases h1 : info = FTS_D
  · subst h1; simp at hcb; subst hcb; rfl
  by_cases h2 : info = FTS_DP
  · subst h2; simp [FTS_DP, FTS_D] at hcb; subst hcb; rfl
  by_cases h3 : info = FTS_DC
  · subst h3; simp [FTS_DP, FTS_D, FTS_DC] at hcb; subst hcb; rfl
  by_cases h4 : info = FTS_F
  · subst h4; simp [FTS_DP, FTS_D, FTS_DC, FTS_F] at hcb; subst hcb; rfl
  by_cases h5 : info = FTS_SL
  · subst h5; simp [FTS_DP, FTS_D, FTS_DC, FTS_F, FTS_SL] at hcb; subst hcb; rfl
  by_cases h6 : info = FTS_SLNONE
  · subst h6; simp [FTS_DP, FTS_D, FTS_DC, FTS_F, FTS_SL, FTS_SLNONE] at hcb; subst hcb; rfl
  by_cases h7 : info = FTS_DEFAULT
  · subst h7
    simp [FTS_DP, FTS_D, FTS_DC, FTS_F, FTS_SL, FTS_SLNONE, FTS_DEFAULT] at hcb
    subst hcb
    rfl
  simp [h1, h2, h3, h4, h5, h6, h7] at hcb

theorem walkEntry_of_no_specCallback (strerror : List Char) (ent : FtsEnt)
    (h : specCallback ent.fts_info = none) :
    walkEntry strerror ent =
      .error (if isFailureType ent.fts_info then .fts_read ent.fts_path strerror
        else .invalid_type ent.fts_info) := by
  obtain ⟨info, path, st⟩ := ent
  simp only [specCallback] at h
  by_cases h1 : info = FTS_D
  · subst h1; simp at h
  by_cases h2 : info = FTS_DP
  · subst h2; simp [FTS_DP, FTS_D] at h
  by_cases h3 : info = FTS_DC
  · subst h3; simp [FTS_DP, FTS_D, FTS_DC] at h
  by_cases h4 : info = FTS_F
  · subst h4; simp [FTS_DP, FTS_D, FTS_DC, FTS_F] at h
  by_cases h5 : info = FTS_SL
  · subst h5; simp [FTS_DP, FTS_D, FTS_DC, FTS_F, FTS_SL] at h
  by_cases h6 : info = FTS_SLNONE
  · subst h6; simp [FTS_DP, FTS_D, FTS_DC, FTS_F, FTS_SL, FTS_SLNONE] at h
  by_cases h7 : info = FTS_DEFAULT
  · subst h7; simp [FTS_DP, FTS_D, FTS_DC, FTS_F, FTS_SL, FTS_SLNONE, FTS_DEFAULT] at h
  simp only [walkEntry, h1, h2, h3, h4, h5, h6, h7, if_false, isFailureType]
  by_cases hf : info = FTS_DNR ∨ info = FTS_ERR ∨ info = FTS_NS
  · rw [if_pos hf]
    have hf' : (info = FTS_DNR ∨ info = FTS_ERR) ∨ info = FTS_NS := by
      rcases hf with h | h | h
      · exact Or.inl (Or.inl h)
      · exact Or.inl (Or.inr h)
      · exact Or.inr h
    simp [hf']
  · rw [if_neg hf]
    simp only [not_or] at hf
    simp [hf.1, hf.2.1, hf.2.2]

/-- The loop makes the call of the specification for every entry of a visited
type, in order, up to the first entry of another type, where it throws. -/
theorem walkLoop_spec (strerror : List Char) (pre : List FtsEnt) (rest : List FtsEnt)
    (trace : List Call) (hpre : ∀ ent ∈ pre, specCallback ent.fts_info ≠ none) :
    ∃ calls : List Call, calls.map some = pre.map specCall ∧
      walkLoop strerror (pre ++ rest) trace = walkLoop strerror rest (trace ++ calls) := by
  induction pre generalizing trace with
  | nil => exact ⟨[], rfl, by simp⟩
  | cons ent pre ih =>
    have hent := hpre ent (List.mem_cons_self ent pre)
    obtain ⟨call, hcall⟩ : ∃ call, specCall ent = some call := by
      cases hcb : specCallback ent.fts_info with
      | none => exact absurd hcb hent
      | some cb => exact ⟨⟨cb, ent.fts_path, ent.fts_statp⟩, by simp [specCall, hcb]⟩
    rcases ih (trace ++ [call]) (fun e he => hpre e (List.mem_cons_of_mem ent he)) with
      ⟨calls, hcalls, hloop⟩
    refine ⟨call :: calls, by simp [hcalls, hcall], ?_⟩
    rw [List.cons_append, walkLoop, walkEntry_of_specCall strerror ent call hcall]
    simp only
    rw [hloop, List.append_assoc]
    rfl

theorem walk_of_visited (fts_open : List Char → Nat → Option (List FtsEnt))
    (strerror root : List Char) (type : WalkType) (entries : List FtsEnt)
    (hopen : fts_open root (walkOptions type) = some entries)
    (hok : ∀ ent ∈ entries, specCallback ent.fts_info ≠ none) :
    (walk fts_open strerror root type).2 = none ∧
      (walk fts_open strerror root type).1.map some = entries.map specCall := by
  rcases walkLoop_spec strerror entries [] [] hok with ⟨calls, hcalls, hloop⟩
  rw [List.append_nil] at hloop
  simp only [walk, hopen, hloop, walkLoop, List.nil_append]
  exact ⟨trivial, hcalls⟩

theorem walk_of_failure (fts_open : List Char → Nat → Option (List FtsEnt))
    (strerror root : List Char) (type : WalkType) (pre post : List FtsEnt) (bad : FtsEnt)
    (hopen : fts_open root (walkOptions type) = some (pre ++ [bad] ++ post))
    (hpre : ∀ ent ∈ pre, specCallback ent.fts_info ≠ none)
    (hbad : specCallback bad.fts_info = none) :
    (walk fts_open strerror root type).1.map some = pre.map specCall ∧
      (walk fts_open strerror root type).2 =
        some (if isFailureType bad.fts_info then .fts_read bad.fts_path strerror
          else .invalid_type bad.fts_info) := by
  rcases walkLoop_spec strerror pre ([bad] ++ post) [] hpre with ⟨calls, hcalls, hloop⟩
  rw [← List.append_assoc] at hloop
  simp only [walk, hopen, hloop, List.nil_append, List.singleton_append, walkLoop,
    walkEntry_of_no_specCallback strerror bad hbad]
  exact ⟨hcalls, trivial⟩

/-- C19: when `fts_open` succeeds and every entry `fts_read` returns has one of
the seven visited types, `walk` raises no error and invokes exactly one
callback per entry, in list order, with the entry's path and stat, chosen by
the type: `FTS_D` pre_directory, `FTS_DP` post_directory, `FTS_DC`
cycle_directory, `FTS_F` file, `FTS_SL` symlink, `FTS_SLNONE` broken_symlink,
`FTS_DEFAULT` other. -/
theorem walk_one_callback_per_entry (fts_open : List Char → Nat → Option (List FtsEnt))
    (strerror root : List Char) (type : WalkType) (entries : List FtsEnt)
    (hopen : fts_open root (walkOptions type) = some entries)
    (hok : ∀ ent ∈ entries, specCallback ent.fts_info ≠ none) :
    (walk fts_open strerror root type).2 = none ∧
      (walk fts_open strerror root type).1.map some = entries.map specCall :=
  walk_of_visited fts_open strerror root type entries hopen hok

/-- Witness for C19: a directory `r` with one file, as `fts` lists it. -/
theorem walk_one_callback_per_entry_witness :
    (walk (fun _ _ => some [⟨FTS_D, "r".toList, ⟨0, 0, 0⟩⟩, ⟨FTS_F, "r/f".toList, ⟨1, 5, 0⟩⟩,
        ⟨FTS_DP, "r".toList, ⟨0, 0, 0⟩⟩]) [] "r".toList .WALK_PHYSICAL).2 = none ∧
      (walk (fun _ _ => some [⟨FTS_D, "r".toList, ⟨0, 0, 0⟩⟩, ⟨FTS_F, "r/f".toList, ⟨1, 5, 0⟩⟩,
        ⟨FTS_DP, "r".toList, ⟨0, 0, 0⟩⟩]) [] "r".toList .WALK_PHYSICAL).1.map some =
        [some ⟨.pre_directory, "r".toList, ⟨0, 0, 0⟩⟩, some ⟨.file, "r/f".toList, ⟨1, 5, 0⟩⟩,
          some ⟨.post_directory, "r".toList, ⟨0, 0, 0⟩⟩] :=
  walk_one_callback_per_entry (fun _ _ => some [⟨FTS_D, "r".toList, ⟨0, 0, 0⟩⟩,
      ⟨FTS_F, "r/f".toList, ⟨1, 5, 0⟩⟩, ⟨FTS_DP, "r".toList, ⟨0, 0, 0⟩⟩]) [] "r".toList
    .WALK_PHYSICAL _ rfl (by decide)

/-- C20, as the code has it: if `fts_open` fails, `walk` raises the
`fts_open` error naming the root before any callback; if the entries are
`pre ++ [bad] ++ post` with every entry of `pre` of a visited type and `bad`
the first of another type, `walk` invokes the callbacks for exactly the entries
of `pre`, none for `bad` or `post`, and raises: for `FTS_DNR`, `FTS_ERR` and
`FTS_NS` the `fts_read` error naming the path of `bad`, for any other type the
`invalid type` error, which carries the type and not the path. -/
theorem walk_failure (fts_open : List Char → Nat → Option (List FtsEnt))
    (strerror root : List Char) (type : WalkType) :
    (fts_open root (walkOptions type) = none →
        walk fts_open strerror root type = ([], some (.fts_open root strerror))) ∧
      ∀ (pre post : List FtsEnt) (bad : FtsEnt),
        fts_open root (walkOptions type) = some (pre ++ [bad] ++ post) →
        (∀ ent ∈ pre, specCallback ent.fts_info ≠ none) →
        specCallback bad.fts_info = none →
          (walk fts_open strerror root type).1.map some = pre.map specCall ∧
            (walk fts_open strerror root type).2 =
              some (if isFailureType bad.fts_info then .fts_read bad.fts_path strerror
                else .invalid_type bad.fts_info) := by
  constructor
  · intro h
    simp [walk, h]
  · intro pre post bad hopen hpre hbad
    exact walk_of_failure fts_open strerror root type pre post bad hopen hpre hbad

/-- Witness for C20 as amended: a root that cannot be opened; a root whose
only entry is `FTS_NS` (it does not exist), so that no callback is invoked
(`k = 0`); and a directory that cannot be read after one callback. -/
theorem walk_failure_witness :
    walk (fun _ _ => none) "ENOMEM".toList "r".toList .WALK_LOGICAL =
        ([], some (.fts_open "r".toList "ENOMEM".toList)) ∧
      walk (fun _ _ => some [⟨FTS_NS, "gone".toList, ⟨0, 0, 0⟩⟩]) "ENOENT".toList "gone".toList
          .WALK_PHYSICAL = ([], some (.fts_read "gone".toList "ENOENT".toList)) ∧
      (walk (fun _ _ => some ([⟨FTS_D, "r".toList, ⟨0, 0, 0⟩⟩] ++
          [⟨FTS_DNR, "r/d".toList, ⟨0, 0, 0⟩⟩] ++ [⟨FTS_DP, "r".toList, ⟨0, 0, 0⟩⟩]))
          "EACCES".toList "r".toList .WALK_PHYSICAL).2 =
        some (.fts_read "r/d".toList "EACCES".toList) := by
  refine ⟨(walk_failure (fun _ _ => none) "ENOMEM".toList "r".toList .WALK_LOGICAL).1 rfl,
    by decide, ?_⟩
  exact ((walk_failure (fun _ _ => some ([⟨FTS_D, "r".toList, ⟨0, 0, 0⟩⟩] ++
      [⟨FTS_DNR, "r/d".toList, ⟨0, 0, 0⟩⟩] ++ [⟨FTS_DP, "r".toList, ⟨0, 0, 0⟩⟩]))
    "EACCES".toList "r".toList .WALK_PHYSICAL).2 [⟨FTS_D, "r".toList, ⟨0, 0, 0⟩⟩]
    [⟨FTS_DP, "r".toList, ⟨0, 0, 0⟩⟩] ⟨FTS_DNR, "r/d".toList, ⟨0, 0, 0⟩⟩ rfl (by decide)
    (by decide)).2

/-- C20 fails for an entry of an unexpected type: for `FTS_DOT` with path `/x`
the error `walk` raises is `walk: got invalid type 5`, which does not name the
path. -/
theorem walk_invalid_type_names_no_path :
    (walk (fun _ _ => some [⟨FTS_DOT, "/x".toList, ⟨0, 0, 0⟩⟩]) [] "/x".toList
        .WALK_PHYSICAL) = ([], some (.invalid_type 5)) ∧
      (WalkError.invalid_type 5).message = "walk: got invalid type 5".toList ∧
      ¬ ("/x".toList <:+: (WalkError.invalid_type 5).message) ∧
      ∀ strerror, (walk (fun _ _ => some [⟨FTS_DOT, "/x".toList, ⟨0, 0, 0⟩⟩]) [] "/x".toList
        .WALK_PHYSICAL).2 ≠ some (.fts_read "/x".toList strerror) := by
  have e : walk (fun _ _ => some [⟨FTS_DOT, "/x".toList, ⟨0, 0, 0⟩⟩]) [] "/x".toList
      .WALK_PHYSICAL = ([], some (.invalid_type 5)) := by decide
  refine ⟨e, by decide, by decide, ?_⟩
  intro strerror h
  rw [e] at h
  cases h

end Posix

/-! ## Windows: joining what `split` returns -/

namespace Win

theorem win_fields_ne_nil (p : List Char) : fields p ≠ [] := by
  cases p with
  | nil => simp [fields]
  | cons c cs =>
    simp only [fields]
    split
    · simp
    · split <;> simp

theorem win_fields_cons_sep (c : Char) (p : List Char) (hc : is_sep c = true) :
    fields (c :: p) = [] :: fields p := by
  simp [fields, hc]

theorem fields_cons_of_not_sep (c : Char) (p : List Char) (h : is_sep c = false) :
    ∃ f fs, fields p = f :: fs ∧ fields (c :: p) = (c :: f) :: fs := by
  cases hf : fields p with
  | nil => exact absurd hf (win_fields_ne_nil p)
  | cons f fs =>
    refine ⟨f, fs, rfl, ?_⟩
    simp [fields, h, hf]

theorem fields_append_sep (a b : List Char) (c : Char) (hc : is_sep c = true) :
    fields (a ++ c :: b) = fields a ++ fields b := by
  induction a with
  | nil => simp [fields, hc]
  | cons x xs ih =>
    by_cases hx : is_sep x = true
    · rw [List.cons_append, win_fields_cons_sep x _ hx, win_fields_cons_sep x _ hx, ih,
        List.cons_append]
    · have hx' : is_sep x = false := by simpa using hx
      rcases fields_cons_of_not_sep x xs hx' with ⟨f, fs, h1, h2⟩
      rcases fields_cons_of_not_sep x (xs ++ c :: b) hx' with ⟨g, gs, h3, h4⟩
      rw [ih, h1, List.cons_append] at h3
      rw [List.cons_append, h4, h2, List.cons_append]
      injection h3 with e1 e2
      rw [e1, e2]

theorem win_components_nil : components [] = [] := by
  simp [components, fields]

theorem win_components_append_sep (a b : List Char) (c : Char) (hc : is_sep c = true) :
    components (a ++ c :: b) = components a ++ components b := by
  simp only [components, fields_append_sep a b c hc, List.filter_append]

/-- Separators in front add no component. -/
theorem components_leading_seps (s y : List Char) (hs : ∀ c ∈ s, is_sep c = true) :
    components (s ++ y) = components y := by
  induction s with
  | nil => rfl
  | cons c cs ih =>
    have := win_components_append_sep [] (cs ++ y) c (hs c (List.mem_cons_self c cs))
    rw [List.nil_append, win_components_nil, List.nil_append] at this
    rw [List.cons_append, this]
    exact ih (fun x hx => hs x (List.mem_cons_of_mem c hx))

theorem components_all_seps (s : List Char) (hs : ∀ c ∈ s, is_sep c = true) :
    components s = [] := by
  have := components_leading_seps s [] hs
  rw [List.append_nil, win_components_nil] at this
  exact this

/-- A non-empty run of separators between two parts separates their
components. -/
theorem components_mid_seps (a s y : List Char) (hne : s ≠ [])
    (hs : ∀ c ∈ s, is_sep c = true) :
    components (a ++ s ++ y) = components a ++ components y := by
  cases s with
  | nil => exact absurd rfl hne
  | cons c cs =>
    rw [List.append_assoc, List.cons_append,
      win_components_append_sep a (cs ++ y) c (hs c (List.mem_cons_self c cs)),
      components_leading_seps cs y (fun x hx => hs x (List.mem_cons_of_mem c hx))]

/-- Trailing separators add no component. -/
theorem components_trailing_seps (a t : List Char) (ht : ∀ c ∈ t, is_sep c = true) :
    components (a ++ t) = components a := by
  cases t with
  | nil => rw [List.append_nil]
  | cons c cs =>
    have := components_mid_seps a (c :: cs) [] (by simp) ht
    rw [List.append_nil, win_components_nil, List.append_nil] at this
    exact this

theorem beginsWithSep_append (a b : List Char) (h : a ≠ []) :
    beginsWithSep (a ++ b) = beginsWithSep a := by
  simp only [beginsWithSep, List.head?_append_of_ne_nil _ h]

theorem beginsWithSep_cons (c : Char) (l : List Char) : beginsWithSep (c :: l) = is_sep c := rfl

theorem endsWithSep_concat (a : List Char) (c : Char) : endsWithSep (a ++ [c]) = is_sep c := by
  simp [endsWithSep]

theorem endsWithSep_append_seps (a s : List Char) (hne : s ≠ [])
    (hs : ∀ c ∈ s, is_sep c = true) : endsWithSep (a ++ s) = true := by
  rw [← List.dropLast_append_getLast hne, ← List.append_assoc, endsWithSep_concat]
  exact hs _ (List.getLast_mem hne)

theorem beginsWithSep_of_no_sep (b : List Char) (hb : ∀ c ∈ b, is_sep c = false) :
    beginsWithSep b = false := by
  cases b with
  | nil => rfl
  | cons c cs => exact hb c (List.mem_cons_self c cs)

theorem splitdrive_eq_of_fst_nil (p : List Char) (h : (splitdrive p).1 = []) :
    splitdrive p = ([], p) := by
  have := splitdrive_append p
  rw [h, List.nil_append] at this
  exact Prod.ext h this

/-- A basename (no separator in it) whose second rune is not `:` has no
drive. -/
theorem splitdrive_of_no_sep (b : List Char) (hb : ∀ c ∈ b, is_sep c = false)
    (hcolon : b[1]? ≠ some ':') : splitdrive b = ([], b) := by
  rcases splitdrive_cases b with h | ⟨x, rest, e, _⟩ | ⟨m, mt, rest, _, _, _, _, e, _⟩ |
    ⟨m, mt, _, _, _, _, e, _⟩
  · exact h
  · exact absurd (by rw [e]; simp) hcolon
  · have := hb '\\' (by rw [e]; simp)
    exact absurd this (by decide)
  · have := hb '\\' (by rw [e]; simp)
    exact absurd this (by decide)

theorem win_joinv_singleton (root b : List Char) :
    joinv root [b] = (joinvStep ((splitdrive root).1, root) b).2 := by
  rw [joinv_eq_foldl_snd]
  rfl

/-- Joining a directory and a basename that has no drive and does not begin
with a separator is the second loop's append. -/
theorem joinv_basename (root b : List Char) (hd : splitdrive b = ([], b))
    (hs : beginsWithSep b = false) : joinv root [b] = joinvAppend root b := by
  rw [win_joinv_singleton]
  simp [joinvStep, hd, hs]

theorem joinvAppend_bare_drive (r b : List Char) (h : (splitdrive r).2 = []) :
    joinvAppend r b = r ++ b := by
  by_cases hr : r = []
  · simp [joinvAppend, hr]
  · simp [joinvAppend, hr, h]

theorem joinvAppend_after_sep (r b : List Char) (h : endsWithSep r = true) :
    joinvAppend r b = r ++ b := by
  by_cases hr : r = []
  · simp [joinvAppend, hr]
  · simp [joinvAppend, hr, h]

theorem joinvAppend_insert_sep (r b : List Char) (h1 : (splitdrive r).2 ≠ [])
    (h2 : endsWithSep r = false) : joinvAppend r b = r ++ [sep] ++ b := by
  have hr : r ≠ [] := by
    intro e
    rw [e] at h1
    exact h1 rfl
  simp [joinvAppend, hr, h1, h2]

end Win

/-! ## Windows `splitdrive` on prefixes and on paths with another tail -/

namespace Win

/-- A path that begins with a path that has a drive has a drive. -/
theorem drive_ne_nil_of_initial_part (l1 l2 : List Char) (h : (splitdrive l1).1 ≠ []) :
    (splitdrive (l1 ++ l2)).1 ≠ [] := by
  rcases splitdrive_cases l1 with h' | ⟨x, rest, e, _⟩ | ⟨m, mt, rest, h1, h2, h3, h4, e, _⟩ |
    ⟨m, mt, h1, h2, h3, h4, e, _⟩
  · rw [h'] at h
    exact absurd rfl h
  · rw [e, show x :: ':' :: rest ++ l2 = x :: ':' :: (rest ++ l2) from rfl, splitdrive_colon]
    simp
  · rw [e, show '\\' :: '\\' :: (m ++ '\\' :: (mt ++ '\\' :: rest)) ++ l2 =
      '\\' :: '\\' :: (m ++ '\\' :: (mt ++ '\\' :: (rest ++ l2))) from by simp,
      splitdrive_unc_share_path m mt (rest ++ l2) h1 h2 h3 h4]
    simp
  · by_cases hb : '\\' ∈ l2
    · rcases List.eq_append_cons_of_mem hb with ⟨a, b, e2, ha⟩
      have hmt : '\\' ∉ mt ++ a := by simp [h4, ha]
      rw [e, e2, show '\\' :: '\\' :: (m ++ '\\' :: mt) ++ (a ++ '\\' :: b) =
        '\\' :: '\\' :: (m ++ '\\' :: ((mt ++ a) ++ '\\' :: b)) from by simp,
        splitdrive_unc_share_path m (mt ++ a) b h1 h2 (by simp [h3]) hmt]
      simp
    · have hmt : '\\' ∉ mt ++ l2 := by simp [h4, hb]
      rw [e, show '\\' :: '\\' :: (m ++ '\\' :: mt) ++ l2 =
        '\\' :: '\\' :: (m ++ '\\' :: (mt ++ l2)) from by simp,
        splitdrive_unc_share m (mt ++ l2) h1 h2 (by simp [h3]) hmt]
      simp

/-- With a drive in front, the drive does not depend on what follows the
first runes of the local part. -/
theorem splitdrive_replace_tail (P D l1 l2 l2' : List Char)
    (hsd : splitdrive P = (D, l1 ++ l2)) (hne : l1 ≠ []) (hD : D ≠ []) :
    splitdrive (D ++ (l1 ++ l2')) = (D, l1 ++ l2') := by
  rcases splitdrive_cases P with h | ⟨x, rest, _, h⟩ | ⟨m, mt, rest, h1, h2, h3, h4, _, h⟩ |
    ⟨m, mt, _, _, _, _, _, h⟩
  · rw [hsd] at h
    exact absurd (Prod.mk.inj h).1 hD
  · rw [hsd] at h
    rw [(Prod.mk.inj h).1]
    exact splitdrive_colon x _
  · rw [hsd] at h
    have hL := (Prod.mk.inj h).2
    rw [(Prod.mk.inj h).1]
    cases l1 with
    | nil => exact absurd rfl hne
    | cons c cs =>
      rw [List.cons_append] at hL
      rw [(List.cons.inj hL).1]
      have := splitdrive_unc_share_path m mt (cs ++ l2') h1 h2 h3 h4
      rw [show '\\' :: '\\' :: (m ++ '\\' :: (mt ++ '\\' :: (cs ++ l2'))) =
        ('\\' :: '\\' :: (m ++ '\\' :: mt)) ++ ('\\' :: cs ++ l2') from by simp] at this
      exact this
  · rw [hsd] at h
    have hL := (Prod.mk.inj h).2
    simp at hL
    exact absurd hL.1 hne

/-- The drive of a path is the drive of the path cut anywhere after the first
rune of its local part. -/
theorem splitdrive_initial_part (P D l1 l2 : List Char) (hsd : splitdrive P = (D, l1 ++ l2))
    (hne : l1 ≠ []) : splitdrive (D ++ l1) = (D, l1) := by
  by_cases hD : D = []
  · subst hD
    have hP := path_eq_of_splitdrive P [] _ hsd
    rw [List.nil_append] at hP ⊢
    apply splitdrive_eq_of_fst_nil
    by_contra hd
    have := drive_ne_nil_of_initial_part l1 l2 hd
    rw [← hP, hsd] at this
    exact this rfl
  · have := splitdrive_replace_tail P D l1 l2 [] hsd hne hD
    rw [List.append_nil] at this
    exact this

/-- A path without drive that does not begin with two backslashes keeps
having no drive when everything after its first two runes is replaced, or
when a non-separator first rune is followed by a backslash. -/
theorem splitdrive_same_start (P J : List Char) (hP : splitdrive P = ([], P))
    (hunc : P.take 2 ≠ ['\\', '\\'])
    (h : (2 ≤ J.length ∧ J.take 2 = P.take 2) ∨
      ∃ z rest, J = z :: '\\' :: rest ∧ is_sep z = false) :
    splitdrive J = ([], J) := by
  rcases splitdrive_cases J with h' | ⟨x, rest, e, _⟩ | ⟨m, mt, rest, _, _, _, _, e, _⟩ |
    ⟨m, mt, _, _, _, _, e, _⟩
  · exact h'
  · exfalso
    rcases h with ⟨_, h⟩ | ⟨z, r, ez, _⟩
    · rw [e] at h
      simp only [List.take_succ_cons, List.take_zero] at h
      match P, h, hP with
      | a :: b :: r, h, hP =>
        simp only [List.take_succ_cons, List.take_zero, List.cons.injEq, and_true] at h
        rw [← h.1, ← h.2, splitdrive_colon] at hP
        simp at hP
    · rw [e] at ez
      simp at ez
  · exfalso
    rcases h with ⟨_, h⟩ | ⟨z, r, ez, hz⟩
    · apply hunc
      rw [← h, e]
      rfl
    · rw [e] at ez
      have : z = '\\' := (List.cons.inj ez).1.symm
      rw [this] at hz
      exact absurd hz (by decide)
  · exfalso
    rcases h with ⟨_, h⟩ | ⟨z, r, ez, hz⟩
    · apply hunc
      rw [← h, e]
      rfl
    · rw [e] at ez
      have : z = '\\' := (List.cons.inj ez).1.symm
      rw [this] at hz
      exact absurd hz (by decide)

end Win

/-! ## Windows: when joining makes a UNC share -/

namespace Win

theorem isMachine_iff (dir : List Char) :
    isMachine dir = true ↔
      ∃ X, dir = '\\' :: '\\' :: X ∧ '\\' ∉ X ∧ endsWithSep dir = false := by
  constructor
  · intro h
    unfold isMachine at h
    split at h
    · rename_i rest
      simp only [Bool.and_eq_true, decide_eq_true_eq, Bool.not_eq_true'] at h
      exact ⟨rest, rfl, h.1, h.2⟩
    · cases h
  · rintro ⟨X, rfl, h1, h2⟩
    simp only [isMachine, Bool.and_eq_true, decide_eq_true_eq, Bool.not_eq_true']
    exact ⟨h1, h2⟩

/-- The first occurrence of a character cuts a text in one way only. -/
theorem first_occurrence_unique (a : Char) : ∀ (m m' r r' : List Char), a ∉ m → a ∉ m' →
    m ++ a :: r = m' ++ a :: r' → m = m' ∧ r = r'
  | [], [], _, _, _, _, e => by
    simp only [List.nil_append, List.cons.injEq, true_and] at e
    exact ⟨rfl, e⟩
  | [], c :: m', _, _, _, h2, e => by
    simp only [List.nil_append, List.cons_append, List.cons.injEq] at e
    exact absurd (by rw [e.1]; simp) h2
  | c :: m, [], _, _, h1, _, e => by
    simp only [List.nil_append, List.cons_append, List.cons.injEq] at e
    exact absurd (by rw [← e.1]; simp) h1
  | c :: m, c' :: m', r, r', h1, h2, e => by
    simp only [List.cons_append, List.cons.injEq] at e
    have := first_occurrence_unique a m m' r r' (fun h => h1 (List.mem_cons_of_mem _ h))
      (fun h => h2 (List.mem_cons_of_mem _ h)) e.2
    exact ⟨by rw [e.1, this.1], this.2⟩

/-- Two backslashes, a machine, a backslash and a text that does not begin
with a backslash: such a path has a drive. -/
theorem unc_start_has_drive (m : List Char) (y : Char) (Y : List Char) (hm : m ≠ [])
    (hmb : '\\' ∉ m) (hy : y ≠ '\\') :
    (splitdrive ('\\' :: '\\' :: (m ++ '\\' :: (y :: Y)))).1 ≠ [] := by
  by_cases hbs : '\\' ∈ y :: Y
  · rcases List.eq_append_cons_of_mem hbs with ⟨mt, rest, e, hmt⟩
    have hmtne : mt ≠ [] := by
      intro h0
      rw [h0, List.nil_append] at e
      exact hy (List.cons.inj e).1
    rw [e, splitdrive_unc_share_path m mt rest hm hmb hmtne hmt]
    simp
  · rw [splitdrive_unc_share m (y :: Y) hm hmb (by simp) hbs]
    simp

/-- A text of the form of a UNC machine has no drive. -/
theorem splitdrive_of_isMachine (x : List Char) (h : isMachine x = true) :
    splitdrive x = ([], x) := by
  rcases (isMachine_iff x).mp h with ⟨X, e, hX, _⟩
  rcases splitdrive_cases x with h' | ⟨c, rest, e', _⟩ | ⟨m, mt, rest, _, _, _, _, e', _⟩ |
    ⟨m, mt, _, _, _, _, e', _⟩
  · exact h'
  · rw [e] at e'
    simp at e'
  · rw [e] at e'
    simp only [List.cons.injEq, true_and] at e'
    exact absurd (by rw [e']; simp) hX
  · rw [e] at e'
    simp only [List.cons.injEq, true_and] at e'
    exact absurd (by rw [e']; simp) hX

/-- A drive is not the beginning of a text of the form of a UNC machine. -/
theorem drive_nil_of_isMachine (P D L r : List Char) (hsd : splitdrive P = (D, L))
    (h : isMachine (D ++ r) = true) : D = [] := by
  rcases (isMachine_iff _).mp h with ⟨X, e, hX, _⟩
  rcases splitdrive_cases P with h' | ⟨c, rest, _, h'⟩ | ⟨m, mt, rest, _, _, _, _, _, h'⟩ |
    ⟨m, mt, _, _, _, _, e', h'⟩
  · rw [hsd] at h'
    exact (Prod.mk.inj h').1
  · rw [hsd] at h'
    rw [(Prod.mk.inj h').1] at e
    simp at e
  · rw [hsd] at h'
    rw [(Prod.mk.inj h').1] at e
    simp only [List.cons_append, List.cons.injEq, true_and] at e
    exact absurd (by rw [← e]; simp) hX
  · rw [hsd] at h'
    rw [(Prod.mk.inj h').1, e'] at e
    simp only [List.cons_append, List.cons.injEq, true_and] at e
    exact absurd (by rw [← e]; simp) hX

/-- Joining the dirname and the basename of a path without drive gives a path
without drive, unless the dirname has the form of a UNC machine. -/
theorem no_drive_after_join (d : List Char) (z : Char) (s b t : List Char)
    (hP : splitdrive (d ++ [z] ++ s ++ b ++ t) = ([], d ++ [z] ++ s ++ b ++ t))
    (hz : is_sep z = false) (hsne : s ≠ [])
    (hmach : isMachine (d ++ [z]) = false) :
    splitdrive ((d ++ [z]) ++ ([sep] ++ b)) = ([], (d ++ [z]) ++ ([sep] ++ b)) := by
  by_cases hunc : (d ++ [z] ++ s ++ b ++ t).take 2 ≠ ['\\', '\\']
  · apply splitdrive_same_start _ _ hP hunc
    cases d with
    | nil =>
      right
      exact ⟨z, b, rfl, hz⟩
    | cons c cs =>
      left
      constructor
      · simp only [List.length_append, List.length_cons]
        omega
      · cases cs <;> rfl
  · rw [not_not] at hunc
    -- the dirname begins with two backslashes
    have hzb : z ≠ '\\' := by
      intro e
      rw [e] at hz
      exact absurd hz (by decide)
    obtain ⟨X, hX⟩ : ∃ X, d ++ [z] = '\\' :: '\\' :: X := by
      match d, hunc with
      | [], hunc =>
        cases s with
        | nil => exact absurd rfl hsne
        | cons c cs =>
          simp only [List.nil_append, List.singleton_append, List.cons_append,
            List.take_succ_cons, List.take_zero, List.cons.injEq] at hunc
          exact absurd hunc.1 hzb
      | [c], hunc =>
        simp only [List.singleton_append, List.cons_append, List.take_succ_cons,
          List.take_zero, List.cons.injEq, List.nil_append] at hunc
        exact absurd hunc.2.1 hzb
      | c :: c' :: cs, hunc =>
        simp only [List.cons_append, List.take_succ_cons, List.take_zero, List.cons.injEq,
          and_true] at hunc
        exact ⟨cs ++ [z], by rw [hunc.1, hunc.2]; rfl⟩
    have hends : endsWithSep (d ++ [z]) = false := by
      rw [endsWithSep_concat]
      exact hz
    have hXb : '\\' ∈ X := by
      by_contra hc
      have := (isMachine_iff (d ++ [z])).mpr ⟨X, hX, hc, hends⟩
      rw [this] at hmach
      cases hmach
    rcases List.eq_append_cons_of_mem hXb with ⟨m, X', eX, hm⟩
    have eJ : (d ++ [z]) ++ ([sep] ++ b) = '\\' :: '\\' :: (m ++ '\\' :: (X' ++ '\\' :: b)) := by
      rw [hX, eX]
      simp [sep]
    have eP : d ++ [z] ++ s ++ b ++ t = '\\' :: '\\' :: (m ++ '\\' :: (X' ++ s ++ b ++ t)) := by
      rw [hX, eX]
      simp
    have key : ∀ mt rest, mt ≠ [] → '\\' ∉ mt → X' ++ '\\' :: b = mt ++ rest → m ≠ [] →
        False := by
      intro mt rest hmtne hmt e hmne
      cases mt with
      | nil => exact hmtne rfl
      | cons y mt' =>
        have hy : y ≠ '\\' := by
          intro hy
          exact hmt (by rw [hy]; simp)
        cases X' with
        | nil =>
          simp only [List.nil_append, List.cons_append, List.cons.injEq] at e
          exact hy e.1.symm
        | cons x X'' =>
          simp only [List.cons_append, List.cons.injEq] at e
          have hdr := unc_start_has_drive m x (X'' ++ s ++ b ++ t) hmne hm (by rw [e.1]; exact hy)
          have eP' : d ++ [z] ++ s ++ b ++ t =
              '\\' :: '\\' :: (m ++ '\\' :: (x :: (X'' ++ s ++ b ++ t))) := by
            rw [eP]
            simp
          rw [eP'] at hP
          rw [hP] at hdr
          exact hdr rfl
    apply splitdrive_eq_of_fst_nil
    by_contra hd
    rw [eJ] at hd
    rcases splitdrive_cases ('\\' :: '\\' :: (m ++ '\\' :: (X' ++ '\\' :: b))) with
      h' | ⟨c, rest, e', _⟩ | ⟨m', mt, rest, hm'ne, hm', hmtne, hmt, e', _⟩ |
      ⟨m', mt, hm'ne, hm', hmtne, hmt, e', _⟩
    · rw [h'] at hd
      exact hd rfl
    · simp at e'
    · simp only [List.cons.injEq, true_and] at e'
      have hu := first_occurrence_unique '\\' m m' _ _ hm hm' e'
      exact key mt ('\\' :: rest) hmtne hmt hu.2 (by rw [hu.1]; exact hm'ne)
    · simp only [List.cons.injEq, true_and] at e'
      have hu := first_occurrence_unique '\\' m m' _ _ hm hm' e'
      exact hmt (by rw [← hu.2]; simp)

end Win

/-! ## Windows: `joinv (dirname P) {basename P}` and `P` denote the same location -/

namespace Win

theorem normalize_of_splitdrive (X D L : List Char) (h : splitdrive X = (D, L)) :
    normalize X = ⟨D, beginsWithSep L, components L⟩ := by
  simp only [normalize, h]

theorem split_of_local_nil (P D : List Char) (hsd : splitdrive P = (D, [])) :
    (split P).2 = [] := by
  by_cases hP : P = []
  · subst hP
    rfl
  · simp [split, hsd, hP]

theorem normalize_join_split_aux (P : List Char) (hb : basename P ≠ [])
    (hcolon : (basename P)[1]? ≠ some ':')
    (hmach : isMachine (dirname P) = false) :
    normalize (joinv (dirname P) [basename P]) = normalize P := by
  obtain ⟨D, L, hsd⟩ : ∃ D L, splitdrive P = (D, L) := ⟨_, _, rfl⟩
  have hP := path_eq_of_splitdrive P D L hsd
  have hL : L ≠ [] := by
    intro e
    rw [e] at hsd
    exact hb (split_of_local_nil P D hsd)
  rw [normalize_of_splitdrive P D L hsd]
  simp only [dirname, basename] at hb hcolon hmach ⊢
  rcases local_shape L with hall | ⟨b, t, hbne, hbs, ht, hshape⟩
  · -- separators only
    cases L with
    | nil => exact absurd rfl hL
    | cons c l =>
      have hc : is_sep c = true := hall c (List.mem_cons_self c l)
      rw [split_all_seps P D c l hsd hall]
      simp only
      have hpre := splitdrive_initial_part P D [c] l hsd (by simp)
      have hj : joinv (D ++ [c]) [[c]] = D ++ [c] := by
        rw [win_joinv_singleton, hpre]
        simp only
        rw [joinvStep_sep (D, D ++ [c]) [c] (by rw [beginsWithSep_cons]; exact hc) (by rfl)]
      rw [hj, normalize_of_splitdrive _ D [c] hpre, beginsWithSep_cons, beginsWithSep_cons,
        components_all_seps [c] (by simpa using hc), components_all_seps (c :: l) hall]
  · have hbsep := beginsWithSep_of_no_sep b hbs
    rcases hshape with e | ⟨s, hsne, hs, e | ⟨d, z, hz, e⟩⟩
    · -- basename and trailing separators
      subst e
      rw [split_basename_only P D b t hsd hbne hbs ht] at hcolon ⊢
      simp only at hcolon ⊢
      have hbd := splitdrive_of_no_sep b hbs hcolon
      rw [joinv_basename _ b hbd hbsep, beginsWithSep_append b t hbne,
        components_trailing_seps b t ht]
      by_cases hD : D = []
      · subst hD
        rw [if_pos rfl, joinvAppend_insert_sep ['.'] b (by decide) (by decide)]
        have hsdJ : splitdrive (['.'] ++ [sep] ++ b) = ([], ['.'] ++ [sep] ++ b) :=
          splitdrive_not_unc '.' sep b (by decide) (by decide)
        rw [normalize_of_splitdrive _ _ _ hsdJ]
        have hcomp : components (['.'] ++ [sep] ++ b) = components b := by
          rw [show ['.'] ++ [sep] ++ b = ['.'] ++ sep :: b from by simp,
            win_components_append_sep ['.'] b sep (by decide)]
          rfl
        rw [hcomp, hbsep]
        rfl
      · rw [if_neg hD]
        have hdd : splitdrive D = (D, []) := by
          have := splitdrive_drive P
          rw [hsd] at this
          exact this
        rw [joinvAppend_bare_drive D b (by rw [hdd])]
        rw [normalize_of_splitdrive _ D b (splitdrive_initial_part P D b t hsd hbne)]
    · -- separators, basename, trailing separators
      subst e
      rw [split_seps_basename P D s b t hsd hsne hs hbne hbs ht] at hcolon ⊢
      simp only at hcolon ⊢
      have hbd := splitdrive_of_no_sep b hbs hcolon
      rw [joinv_basename _ b hbd hbsep,
        joinvAppend_after_sep (D ++ s) b (endsWithSep_append_seps D s hsne hs)]
      have hsd2 : splitdrive P = (D, (s ++ b) ++ t) := hsd
      rw [List.append_assoc,
        normalize_of_splitdrive _ D (s ++ b) (splitdrive_initial_part P D (s ++ b) t hsd2 (by simp [hbne])),
        beginsWithSep_append (s ++ b) t (by simp [hbne]), components_trailing_seps (s ++ b) t ht]
    · -- dirname, separators, basename, trailing separators
      subst e
      rw [split_dirname_basename P D d z s b t hsd hz hsne hs hbne hbs ht] at hcolon hmach ⊢
      simp only at hcolon hmach ⊢
      have hbd := splitdrive_of_no_sep b hbs hcolon
      have hsd2 : splitdrive P = (D, (d ++ [z]) ++ (s ++ b ++ t)) := by
        rw [hsd]
        simp
      have hpre := splitdrive_initial_part P D (d ++ [z]) (s ++ b ++ t) hsd2 (by simp)
      have hends : endsWithSep (D ++ (d ++ [z])) = false := by
        rw [← List.append_assoc, endsWithSep_concat]
        exact hz
      rw [joinv_basename _ b hbd hbsep,
        joinvAppend_insert_sep (D ++ (d ++ [z])) b (by rw [hpre]; simp) hends]
      have hJ : splitdrive (D ++ ((d ++ [z]) ++ ([sep] ++ b))) =
          (D, (d ++ [z]) ++ ([sep] ++ b)) := by
        by_cases hD : D = []
        · subst hD
          rw [List.nil_append] at hP hmach ⊢
          rw [hP] at hsd
          exact no_drive_after_join d z s b t hsd hz hsne hmach
        · exact splitdrive_replace_tail P D (d ++ [z]) (s ++ b ++ t) _ hsd2 (by simp) hD
      have eJ : D ++ (d ++ [z]) ++ [sep] ++ b = D ++ ((d ++ [z]) ++ ([sep] ++ b)) := by simp
      rw [eJ, normalize_of_splitdrive _ D _ hJ,
        beginsWithSep_append (d ++ [z]) _ (by simp),
        show d ++ [z] ++ s ++ b ++ t = (d ++ [z]) ++ (s ++ b ++ t) from by simp,
        beginsWithSep_append (d ++ [z]) _ (by simp),
        show (d ++ [z]) ++ ([sep] ++ b) = (d ++ [z]) ++ [sep] ++ b from by simp,
        components_mid_seps (d ++ [z]) [sep] b (by simp) (by decide),
        show (d ++ [z]) ++ (s ++ b ++ t) = ((d ++ [z]) ++ s ++ b) ++ t from by simp,
        components_trailing_seps _ t ht,
        components_mid_seps (d ++ [z]) s b hsne hs]

/-- A text without separator is its own single field. -/
theorem fields_of_no_sep : ∀ b : List Char, (∀ c ∈ b, is_sep c = false) → fields b = [b]
  | [], _ => rfl
  | c :: cs, h => by
    rcases fields_cons_of_not_sep c cs (h c (List.mem_cons_self c cs)) with ⟨f, fs, h1, h2⟩
    rw [fields_of_no_sep cs (fun x hx => h x (List.mem_cons_of_mem c hx))] at h1
    simp only [List.cons.injEq] at h1
    rw [h2, ← h1.1, ← h1.2]

theorem components_of_name (b : List Char) (hb : ∀ c ∈ b, is_sep c = false) (hne : b ≠ [])
    (hdot : b ≠ ['.']) : components b = [b] := by
  simp [components, fields_of_no_sep b hb, hne, hdot]

/-- No field is longer than the text. -/
theorem length_le_of_mem_fields : ∀ (p f : List Char), f ∈ fields p → f.length ≤ p.length
  | [], f, h => by
    simp only [fields, List.mem_singleton] at h
    rw [h]
  | c :: cs, f, h => by
    by_cases hc : is_sep c = true
    · rw [win_fields_cons_sep c cs hc] at h
      rcases List.mem_cons.mp h with h | h
      · rw [h]
        exact Nat.zero_le _
      · have := length_le_of_mem_fields cs f h
        simp only [List.length_cons]
        omega
    · rcases fields_cons_of_not_sep c cs (by simpa using hc) with ⟨f0, fs, h1, h2⟩
      rw [h2] at h
      have h0 := length_le_of_mem_fields cs f0 (by rw [h1]; exact List.mem_cons_self _ _)
      rcases List.mem_cons.mp h with h | h
      · rw [h]
        simp only [List.length_cons]
        omega
      · have := length_le_of_mem_fields cs f (by rw [h1]; exact List.mem_cons_of_mem _ h)
        simp only [List.length_cons]
        omega

theorem length_le_of_mem_components (p f : List Char) (h : f ∈ components p) :
    f.length ≤ p.length :=
  length_le_of_mem_fields p f (List.mem_filter.mp h).1

/-- Joining anything with a single segment that has a drive gives the
segment. -/
theorem joinv_segment_with_drive (root seg : List Char) (h : (splitdrive seg).1 ≠ []) :
    joinv root [seg] = seg := by
  rw [win_joinv_singleton, joinvStep_drive _ seg h]

/-- A basename whose second character is `:` is read as a drive when joined:
the join is the basename alone, and it denotes another location. -/
theorem join_split_colon (P : List Char) (hcolon : (basename P)[1]? = some ':') :
    normalize (joinv (dirname P) [basename P]) ≠ normalize P := by
  obtain ⟨D, L, hsd⟩ : ∃ D L, splitdrive P = (D, L) := ⟨_, _, rfl⟩
  rw [normalize_of_splitdrive P D L hsd]
  simp only [dirname, basename] at hcolon ⊢
  have key : ∀ (dir b : List Char), (split P) = (dir, b) → (∀ c ∈ b, is_sep c = false) →
      b ∈ components L →
      normalize (joinv dir [b]) ≠ ⟨D, beginsWithSep L, components L⟩ := by
    intro dir b hsp hbs hmem
    rw [hsp] at hcolon
    simp only at hcolon
    match b, hcolon, hbs, hmem with
    | x :: y :: rest, hcolon, hbs, hmem =>
      simp only [List.getElem?_cons_succ, List.getElem?_cons_zero, Option.some.injEq] at hcolon
      subst hcolon
      have hd : splitdrive (x :: ':' :: rest) = ([x, ':'], rest) := splitdrive_colon x rest
      rw [joinv_segment_with_drive dir _ (by rw [hd]; simp), normalize_of_splitdrive _ _ _ hd]
      intro e
      have ec : components rest = components L := congrArg Location.components e
      rw [← ec] at hmem
      have := length_le_of_mem_components rest _ hmem
      simp only [List.length_cons] at this
      omega
  rcases local_shape L with hall | ⟨b, t, hbne, hbs, ht, hshape⟩
  · cases L with
    | nil =>
      rw [split_of_local_nil P D hsd] at hcolon
      simp at hcolon
    | cons c l =>
      rw [split_all_seps P D c l hsd hall] at hcolon
      simp at hcolon
  · have hdot : b ≠ ['.'] → components b = [b] := components_of_name b hbs hbne
    have hbdot : b ≠ ['.'] := by
      intro e
      rcases hshape with e' | ⟨s, hsne, hs, e' | ⟨d, z, hz, e'⟩⟩
      · subst e'
        rw [split_basename_only P D b t hsd hbne hbs ht, e] at hcolon
        simp at hcolon
      · subst e'
        rw [split_seps_basename P D s b t hsd hsne hs hbne hbs ht, e] at hcolon
        simp at hcolon
      · subst e'
        rw [split_dirname_basename P D d z s b t hsd hz hsne hs hbne hbs ht, e] at hcolon
        simp at hcolon
    rcases hshape with e | ⟨s, hsne, hs, e | ⟨d, z, hz, e⟩⟩
    · subst e
      have hsp := split_basename_only P D b t hsd hbne hbs ht
      rw [hsp]
      exact key _ b hsp hbs (by rw [components_trailing_seps b t ht, hdot hbdot]; simp)
    · subst e
      have hsp := split_seps_basename P D s b t hsd hsne hs hbne hbs ht
      rw [hsp]
      exact key _ b hsp hbs (by
        rw [components_trailing_seps (s ++ b) t ht, components_leading_seps s b hs, hdot hbdot]
        simp)
    · subst e
      have hsp := split_dirname_basename P D d z s b t hsd hz hsne hs hbne hbs ht
      rw [hsp]
      exact key _ b hsp hbs (by
        rw [components_trailing_seps (d ++ [z] ++ s ++ b) t ht,
          components_mid_seps (d ++ [z]) s b hsne hs, hdot hbdot]
        simp)

/-- A dirname of the form of a UNC machine and the basename are joined as a
UNC share, which is a drive: the join denotes another location. -/
theorem join_split_machine (P : List Char) (hb : basename P ≠ [])
    (hcolon : (basename P)[1]? ≠ some ':') (hmach : isMachine (dirname P) = true) :
    normalize (joinv (dirname P) [basename P]) ≠ normalize P := by
  obtain ⟨D, L, hsd⟩ : ∃ D L, splitdrive P = (D, L) := ⟨_, _, rfl⟩
  have hL : L ≠ [] := by
    intro e
    rw [e] at hsd
    exact hb (split_of_local_nil P D hsd)
  rw [normalize_of_splitdrive P D L hsd]
  simp only [dirname, basename] at hb hcolon hmach ⊢
  have hendsF : ∀ dir, isMachine dir = true → endsWithSep dir = false := by
    intro dir h
    rcases (isMachine_iff dir).mp h with ⟨_, _, _, h'⟩
    exact h'
  rcases local_shape L with hall | ⟨b, t, hbne, hbs, ht, hshape⟩
  · cases L with
    | nil => exact absurd rfl hL
    | cons c l =>
      rw [split_all_seps P D c l hsd hall] at hmach
      have := hendsF _ hmach
      rw [endsWithSep_concat, hall c (List.mem_cons_self c l)] at this
      cases this
  · rcases hshape with e | ⟨s, hsne, hs, e | ⟨d, z, hz, e⟩⟩
    · subst e
      rw [split_basename_only P D b t hsd hbne hbs ht] at hmach
      simp only at hmach
      by_cases hD : D = []
      · rw [if_pos hD] at hmach
        exact absurd hmach (by decide)
      · rw [if_neg hD] at hmach
        exact absurd (drive_nil_of_isMachine P D _ [] hsd (by rw [List.append_nil]; exact hmach)) hD
    · subst e
      rw [split_seps_basename P D s b t hsd hsne hs hbne hbs ht] at hmach
      have := hendsF _ hmach
      rw [endsWithSep_append_seps D s hsne hs] at this
      cases this
    · subst e
      rw [split_dirname_basename P D d z s b t hsd hz hsne hs hbne hbs ht] at hcolon hmach ⊢
      simp only at hcolon hmach ⊢
      have hD : D = [] := drive_nil_of_isMachine P D _ (d ++ [z]) hsd hmach
      subst hD
      rw [List.nil_append] at hmach ⊢
      have hbd := splitdrive_of_no_sep b hbs hcolon
      have hbsep := beginsWithSep_of_no_sep b hbs
      have hdir := splitdrive_of_isMachine (d ++ [z]) hmach
      rcases (isMachine_iff _).mp hmach with ⟨X, eX, hX, hends⟩
      have hXne : X ≠ [] := by
        intro e0
        rw [eX, e0] at hends
        exact absurd hends (by decide)
      have hbb : '\\' ∉ b := by
        intro hm
        exact absurd (hbs _ hm) (by decide)
      rw [joinv_basename _ b hbd hbsep,
        joinvAppend_insert_sep (d ++ [z]) b (by rw [hdir]; simp) hends]
      have eJ : d ++ [z] ++ [sep] ++ b = '\\' :: '\\' :: (X ++ '\\' :: b) := by
        rw [eX]
        simp [sep]
      rw [eJ, normalize_of_splitdrive _ _ _ (splitdrive_unc_share X b hXne hX hbne hbb)]
      intro e
      have := congrArg Location.drive e
      simp at this

end Win

namespace Win

/-- C16, as the code has it: for every path `P` with a non-empty `basename P`,
`joinv (dirname P) {basename P}` denotes the same location as `P` modulo
separator normalization (`/` and backslash the same separator, runs of
separators after the drive collapsed, `.` components dropped), with the drive
of `P` preserved, exactly when the second character of `basename P` is not `:`
and `dirname P` does not have the form of a UNC machine (two backslashes
followed by a text without backslash that does not end in a separator). -/
theorem win_join_split_same_location (P : List Char) (hb : basename P ≠ []) :
    normalize (joinv (dirname P) [basename P]) = normalize P ↔
      ((basename P)[1]? ≠ some ':' ∧ isMachine (dirname P) = false) := by
  constructor
  · intro h
    have hcolon : (basename P)[1]? ≠ some ':' := fun hc => join_split_colon P hc h
    refine ⟨hcolon, ?_⟩
    by_contra hm
    rw [Bool.not_eq_false] at hm
    exact join_split_machine P hb hcolon hm h
  · rintro ⟨hcolon, hmach⟩
    exact normalize_join_split_aux P hb hcolon hmach

/-- Witness for C16 as amended: `C:\a//b\`, which is split into `C:\a` and
`b` and joined as `C:\a\b`; and `\\a\\b\c`, a path without drive that begins
with two backslashes. -/
theorem win_join_split_same_location_witness :
    normalize (joinv (dirname "C:\\a//b\\".toList) [basename "C:\\a//b\\".toList]) =
        normalize "C:\\a//b\\".toList ∧
      joinv (dirname "C:\\a//b\\".toList) [basename "C:\\a//b\\".toList] = "C:\\a\\b".toList ∧
      normalize "C:\\a//b\\".toList = ⟨"C:".toList, true, ["a".toList, "b".toList]⟩ ∧
      normalize (joinv (dirname "\\\\a\\\\b\\c".toList) [basename "\\\\a\\\\b\\c".toList]) =
        normalize "\\\\a\\\\b\\c".toList :=
  ⟨(win_join_split_same_location "C:\\a//b\\".toList (by decide)).mpr
      ⟨by decide, by decide⟩,
    by decide, by decide,
    (win_join_split_same_location "\\\\a\\\\b\\c".toList (by decide)).mpr
      ⟨by decide, by decide⟩⟩

/-- C16 fails where joining creates a drive: the basename `c:f` of `d/c:f` is
taken for a drive by `joinv`, which returns `c:f`; and `\\m\\s`, which has no
drive, is split into `\\m` and `s` and joined as the share `\\m\s`. -/
theorem win_join_split_other_location :
    (basename "d/c:f".toList ≠ [] ∧
        joinv (dirname "d/c:f".toList) [basename "d/c:f".toList] = "c:f".toList ∧
        normalize (joinv (dirname "d/c:f".toList) [basename "d/c:f".toList]) =
          ⟨"c:".toList, false, ["f".toList]⟩ ∧
        normalize "d/c:f".toList = ⟨[], false, ["d".toList, "c:f".toList]⟩ ∧
        normalize (joinv (dirname "d/c:f".toList) [basename "d/c:f".toList]) ≠
          normalize "d/c:f".toList) ∧
      (basename "\\\\m\\\\s".toList ≠ [] ∧
        joinv (dirname "\\\\m\\\\s".toList) [basename "\\\\m\\\\s".toList] = "\\\\m\\s".toList ∧
        normalize (joinv (dirname "\\\\m\\\\s".toList) [basename "\\\\m\\\\s".toList]) =
          ⟨"\\\\m\\s".toList, false, []⟩ ∧
        normalize "\\\\m\\\\s".toList = ⟨[], true, ["m".toList, "s".toList]⟩ ∧
        normalize (joinv (dirname "\\\\m\\\\s".toList) [basename "\\\\m\\\\s".toList]) ≠
          normalize "\\\\m\\\\s".toList) := by
  decide

end Win

/-! ## Windows `split`: the general shape -/

namespace Win

/-- C28: for every path `P` with `splitdrive P = (D, L)` where
`L = d ++ s ++ b ++ t`, `b` non-empty without separator, `s` a non-empty run of
separators, `t` a run of separators and `d` non-empty ending with a
non-separator, `split P = (D ++ d, b)`. -/
theorem split_dirname_seps_basename (P D d s b t : List Char)
    (hsd : splitdrive P = (D, d ++ s ++ b ++ t))
    (hb : b ≠ []) (hbs : ∀ c ∈ b, is_sep c = false)
    (hs : s ≠ []) (hss : ∀ c ∈ s, is_sep c = true) (ht : ∀ c ∈ t, is_sep c = true)
    (hd : d ≠ []) (hdl : endsWithSep d = false) :
    split P = (D ++ d, b) := by
  have hz : is_sep (d.getLast hd) = false := by
    have e := endsWithSep_concat d.dropLast (d.getLast hd)
    rw [List.dropLast_append_getLast hd] at e
    rw [← e]
    exact hdl
  have hsd' : splitdrive P = (D, d.dropLast ++ [d.getLast hd] ++ s ++ b ++ t) := by
    rw [List.dropLast_append_getLast hd]
    exact hsd
  have := split_dirname_basename P D d.dropLast (d.getLast hd) s b t hsd' hz hs hss hb hbs ht
  rw [List.dropLast_append_getLast hd] at this
  exact this

/-- Witness for C28: `C:\usr\\lib\`, with drive `C:`, dirname part `\usr`, two
separators, basename `lib` and one trailing separator. -/
theorem split_dirname_seps_basename_witness :
    split "C:\\usr\\\\lib\\".toList = ("C:\\usr".toList, "lib".toList) :=
  split_dirname_seps_basename "C:\\usr\\\\lib\\".toList "C:".toList "\\usr".toList
    "\\\\".toList "lib".toList "\\".toList (by decide) (by decide) (by decide) (by decide)
    (by decide) (by decide) (by decide) (by decide)

end Win

/-! ## Surrogates and valid code points -/

/-- On 32-bit values, masking with `0xfffff800` clears the low eleven bits. -/
theorem and_fffff800 (r : Nat) (h : r < 2 ^ 32) : r &&& 0xfffff800 = r / 2048 * 2048 := by
  have e : r / 2048 * 2048 = (r >>> 11) <<< 11 := by
    rw [Nat.shiftRight_eq_div_pow, Nat.shiftLeft_eq]
  rw [e]
  apply Nat.eq_of_testBit_eq
  intro i
  have hm : (0xfffff800 : Nat) = (2 ^ 21 - 1) <<< 11 := by decide
  rw [Nat.testBit_and, Nat.testBit_shiftLeft, Nat.testBit_shiftRight, hm, Nat.testBit_shiftLeft,
    Nat.testBit_two_pow_sub_one]
  by_cases h1 : 11 ≤ i
  · by_cases h2 : i < 32
    · have h3 : i - 11 < 21 := by omega
      have h4 : 11 + (i - 11) = i := by omega
      simp [h1, h3, h4]
    · have h5 : r.testBit i = false :=
        Nat.testBit_lt_two_pow (lt_of_lt_of_le h (Nat.pow_le_pow_right (by decide) (by omega)))
      have h4 : 11 + (i - 11) = i := by omega
      simp [h5, h4]
  · simp [h1]

theorem is_surrogate_iff (r : Nat) (h : r < 2 ^ 32) :
    is_surrogate r = true ↔ 0xD800 ≤ r ∧ r ≤ 0xDFFF := by
  unfold is_surrogate
  rw [and_fffff800 r h]
  simp only [beq_iff_eq]
  omega

/-- C29: for every 32-bit value `r`, `is_surrogate r`, which is the test
`(r & 0xfffff800) == 0xd800`, holds exactly when `0xD800 ≤ r ≤ 0xDFFF`, and
`is_valid_code_point r` holds exactly when `r ≤ 0x10FFFF` and `r` is not in
`[0xD800, 0xDFFF]`. -/
theorem surrogate_and_valid_code_point (r : Nat) (h : r < 2 ^ 32) :
    (is_surrogate r = decide ((r &&& 0xfffff800) = 0xd800)) ∧
    (is_surrogate r = true ↔ 0xD800 ≤ r ∧ r ≤ 0xDFFF) ∧
    (is_valid_code_point r = true ↔ r ≤ 0x10FFFF ∧ ¬ (0xD800 ≤ r ∧ r ≤ 0xDFFF)) := by
  refine ⟨?_, is_surrogate_iff r h, ?_⟩
  · unfold is_surrogate
    by_cases e : (r &&& 0xfffff800) = 0xd800 <;> simp [e]
  · unfold is_valid_code_point
    rw [Bool.and_eq_true, decide_eq_true_iff, Bool.not_eq_true', ← Bool.not_eq_true,
      is_surrogate_iff r h]

/-- Witness for C29: the last surrogate, `0xDFFF`. -/
theorem surrogate_and_valid_code_point_witness :
    (is_surrogate 0xDFFF = decide ((0xDFFF &&& 0xfffff800) = 0xd800)) ∧
    (is_surrogate 0xDFFF = true ↔ 0xD800 ≤ 0xDFFF ∧ 0xDFFF ≤ 0xDFFF) ∧
    (is_valid_code_point 0xDFFF = true ↔
      0xDFFF ≤ 0x10FFFF ∧ ¬ (0xD800 ≤ 0xDFFF ∧ 0xDFFF ≤ 0xDFFF)) :=
  surrogate_and_valid_code_point 0xDFFF (by decide)

/-! ## POSIX: iterating `dirname` -/

namespace Posix

theorem dirname_dot : dirname ['.'] = ['.'] :=
  dirname_of_not_mem ['.'] (by decide)

theorem dirnameLimit_dirnameLimit (P : List Char) : dirname (dirnameLimit P) = dirnameLimit P := by
  unfold dirnameLimit
  split
  · exact dirname_sep
  · exact dirname_dot

/-- One application of `dirname` either lands on the limit or gives a
strictly shorter path with the same first character. -/
theorem dirname_step (n : Nat) : ∀ P : List Char, P.length ≤ n →
    dirname P = dirnameLimit P ∨
      ((dirname P).length < P.length ∧ (dirname P).head? = P.head?) := by
  induction n with
  | zero =>
    intro P hP
    have : P = [] := List.length_eq_zero.mp (Nat.le_zero.mp hP)
    subst this
    left
    rw [dirname_of_not_mem [] (by simp)]
    rfl
  | succ n ih =>
    intro P hP
    by_cases hs : sep ∈ P
    · rcases exists_last_sep P hs with ⟨a, b, e, hb⟩
      subst e
      by_cases hbn : b = []
      · subst hbn
        by_cases ha : a = []
        · subst ha
          left
          rw [List.nil_append, dirname_sep]
          rfl
        · have hal : a.length ≤ n := by
            simp only [List.length_append, List.length_cons, List.length_nil] at hP
            omega
          have hh : (a ++ [sep]).head? = a.head? := List.head?_append_of_ne_nil a ha
          rw [dirname_append_sep a ha]
          rcases ih a hal with h | ⟨h1, h2⟩
          · left
            rw [h]
            unfold dirnameLimit
            rw [hh]
          · right
            refine ⟨?_, by rw [h2, hh]⟩
            simp only [List.length_append, List.length_cons, List.length_nil]
            omega
      · rw [dirname_append_cons a b hb hbn]
        by_cases ha : a = []
        · subst ha
          left
          rw [if_pos rfl]
          rfl
        · right
          rw [if_neg ha]
          refine ⟨?_, (List.head?_append_of_ne_nil a ha).symm⟩
          simp only [List.length_append, List.length_cons]
          omega
    · left
      rw [dirname_of_not_mem P hs]
      unfold dirnameLimit
      have : P.head? ≠ some sep := fun e => hs (List.mem_of_mem_head? e)
      rw [if_neg this]

theorem dirnameLimit_of_head (P Q : List Char) (h : Q.head? = P.head?) :
    dirnameLimit Q = dirnameLimit P := by
  unfold dirnameLimit
  rw [h]

/-- From `length P + 1` applications on, the iteration of `dirname` sits on
the limit. -/
theorem dirname_iterate (n : Nat) : ∀ P : List Char, P.length + 1 ≤ n →
    dirname^[n] P = dirnameLimit P := by
  induction n with
  | zero =>
    intro P hP
    omega
  | succ n ih =>
    intro P hP
    rw [Function.iterate_succ_apply]
    rcases dirname_step P.length P (Nat.le_refl _) with h | ⟨h1, h2⟩
    · rw [h]
      exact Function.iterate_fixed (dirnameLimit_dirnameLimit P) n
    · rw [ih (dirname P) (by omega)]
      exact dirnameLimit_of_head P (dirname P) h2

/-- The paths `makedirs` creates when the first directory of the chain
`P, dirname P, dirname (dirname P), …` is the one at position `k`. -/
theorem makedirs_chain (isdir : List Char → Bool) (k : Nat) : ∀ (fuel : Nat) (P : List Char),
    isdir (dirname^[k] P) = true → (∀ i, i < k → isdir (dirname^[i] P) = false) → k < fuel →
    makedirs isdir fuel P = some ((List.range k).reverse.map (fun i => dirname^[i] P)) := by
  induction k with
  | zero =>
    intro fuel P hk _ hf
    obtain ⟨f, rfl⟩ : ∃ f, fuel = f + 1 := ⟨fuel - 1, by omega⟩
    simp only [Function.iterate_zero, id_eq] at hk
    simp [makedirs, hk]
  | succ k ih =>
    intro fuel P hk hlt hf
    obtain ⟨f, rfl⟩ : ∃ f, fuel = f + 1 := ⟨fuel - 1, by omega⟩
    have h0 : isdir P = false := hlt 0 (Nat.succ_pos k)
    have hrec := ih f (dirname P) (by rw [← Function.iterate_succ_apply]; exact hk)
      (fun i hi => by rw [← Function.iterate_succ_apply]; exact hlt (i + 1) (by omega))
      (by omega)
    simp only [makedirs, h0, Bool.not_false, if_true, hrec]
    rw [List.range_succ_eq_map, List.reverse_cons, List.map_append, ← List.map_reverse,
      List.map_map]
    rfl

/-- C30: `.` and `/` are fixed points of POSIX `dirname`; for every path `P`
some number `n ≤ length P + 1` of applications of `dirname` reaches `/` when
`P` begins with `/` and `.` otherwise, and every larger number stays there;
and when `.` and `/` are directories, `makedirs P` recurses along that chain up
to its first directory, at position `k ≤ length P + 1`, and creates the paths
before it, deepest last. -/
theorem dirname_reaches_fixed_point (P : List Char) :
    dirname ['.'] = ['.'] ∧ dirname [sep] = [sep] ∧
    (∃ n, n ≤ P.length + 1 ∧
      dirname^[n] P = (if P.head? = some sep then [sep] else ['.'])) ∧
    (∀ n, P.length + 1 ≤ n →
      dirname^[n] P = (if P.head? = some sep then [sep] else ['.'])) ∧
    (∀ isdir : List Char → Bool, isdir ['.'] = true → isdir [sep] = true →
      ∃ k, k ≤ P.length + 1 ∧ isdir (dirname^[k] P) = true ∧
        (∀ i, i < k → isdir (dirname^[i] P) = false) ∧
        makedirs isdir (P.length + 2) P =
          some ((List.range k).reverse.map (fun i => dirname^[i] P))) := by
  refine ⟨dirname_dot, dirname_sep, ⟨P.length + 1, Nat.le_refl _, dirname_iterate _ P (Nat.le_refl _)⟩,
    fun n hn => dirname_iterate n P hn, ?_⟩
  intro isdir hdot hroot
  have hlim : isdir (dirname^[P.length + 1] P) = true := by
    rw [dirname_iterate _ P (Nat.le_refl _)]
    unfold dirnameLimit
    split
    · exact hroot
    · exact hdot
  have hex : ∃ k, isdir (dirname^[k] P) = true := ⟨_, hlim⟩
  refine ⟨Nat.find hex, Nat.find_min' hex hlim, Nat.find_spec hex, ?_, ?_⟩
  · intro i hi
    have := Nat.find_min hex hi
    simpa using this
  · apply makedirs_chain isdir (Nat.find hex) (P.length + 2) P (Nat.find_spec hex)
    · intro i hi
      have := Nat.find_min hex hi
      simpa using this
    · have := Nat.find_min' hex hlim
      omega

/-- Witness for C30: with only `.` and `/` existing as directories, the chain
of `a/b` is `a/b`, `a`, `.`. -/
theorem dirname_reaches_fixed_point_witness :
    dirname^[4] "a/b".toList = ['.'] ∧
    ∃ k, k ≤ 4 ∧
      makedirs (fun p => p == ['.'] || p == [sep]) 5 "a/b".toList =
        some ((List.range k).reverse.map (fun i => dirname^[i] "a/b".toList)) :=
  ⟨(dirname_reaches_fixed_point "a/b".toList).2.2.2.1 4 (by decide),
   ((dirname_reaches_fixed_point "a/b".toList).2.2.2.2
      (fun p => p == ['.'] || p == [sep]) (by decide) (by decide)).imp
      (fun _ h => ⟨h.1, h.2.2.2⟩)⟩

end Posix

/-! ## Paths beneath a directory -/

theorem beneath_iff (sep : Char) (d p : List Char) :
    beneath sep d p = true ↔ ∃ t, p = d ++ sep :: t := by
  unfold beneath
  rw [List.isPrefixOf_iff_prefix]
  constructor
  · rintro ⟨t, ht⟩
    exact ⟨t, by rw [← ht]; simp⟩
  · rintro ⟨t, ht⟩
    exact ⟨t, by rw [ht]; simp⟩

theorem beneath_child (sep : Char) (d n : List Char) : beneath sep d (d ++ sep :: n) = true :=
  (beneath_iff sep d _).mpr ⟨n, rfl⟩

theorem beneath_trans (sep : Char) (d p q : List Char) (h1 : beneath sep d p = true)
    (h2 : beneath sep p q = true) : beneath sep d q = true := by
  rcases (beneath_iff sep d p).mp h1 with ⟨t, rfl⟩
  rcases (beneath_iff sep _ q).mp h2 with ⟨u, rfl⟩
  exact (beneath_iff sep d _).mpr ⟨t ++ sep :: u, by simp⟩

theorem beneath_length (sep : Char) (d p : List Char) (h : beneath sep d p = true) :
    d.length < p.length := by
  rcases (beneath_iff sep d p).mp h with ⟨t, rfl⟩
  simp only [List.length_append, List.length_cons]
  omega

/-- Path `q` is `p` itself or lies beneath it. -/
theorem within_length (sep : Char) (p q : List Char) (h : q = p ∨ beneath sep p q = true) :
    p.length ≤ q.length := by
  rcases h with h | h
  · rw [h]
  · exact Nat.le_of_lt (beneath_length sep p q h)

/-- Two names without separator that are followed by a separator, or by
nothing, at the start of the same text are equal. -/
theorem name_unique (sep : Char) : ∀ (n1 n2 r y : List Char), sep ∉ n1 → sep ∉ n2 →
    n1 ++ sep :: r = n2 ++ y → (y = [] ∨ ∃ z, y = sep :: z) → n1 = n2
  | [], [], _, _, _, _, _, _ => rfl
  | [], c :: n2, r, y, _, h2, e, _ => by
    simp only [List.nil_append, List.cons_append, List.cons.injEq] at e
    exact absurd (by rw [e.1]; simp) h2
  | c :: n1, [], r, y, h1, _, e, hy => by
    rcases hy with hy | ⟨z, hy⟩
    · subst hy
      simp at e
    · subst hy
      simp only [List.nil_append, List.cons_append, List.cons.injEq] at e
      exact absurd (by rw [e.1]; simp) h1
  | c :: n1, c2 :: n2, r, y, h1, h2, e, hy => by
    simp only [List.cons_append, List.cons.injEq] at e
    have := name_unique sep n1 n2 r y (fun h => h1 (List.mem_cons_of_mem _ h))
      (fun h => h2 (List.mem_cons_of_mem _ h)) e.2 hy
    rw [e.1, this]

/-- Nothing in the subtree of one child lies beneath anything in the subtree
of another child of the same directory. -/
theorem sibling_not_beneath (sep : Char) (d n1 n2 a b : List Char) (h1 : sep ∉ n1)
    (h2 : sep ∉ n2) (hne : n1 ≠ n2)
    (ha : a = d ++ sep :: n1 ∨ beneath sep (d ++ sep :: n1) a = true)
    (hb : b = d ++ sep :: n2 ∨ beneath sep (d ++ sep :: n2) b = true) :
    beneath sep a b = false := by
  by_contra hc
  rw [Bool.not_eq_false] at hc
  rcases (beneath_iff sep a b).mp hc with ⟨t, ht⟩
  have ha' : ∃ x, a ++ sep :: t = d ++ sep :: (n1 ++ sep :: x) := by
    rcases ha with ha | ha
    · exact ⟨t, by rw [ha]; simp⟩
    · rcases (beneath_iff sep _ a).mp ha with ⟨u, hu⟩
      exact ⟨u ++ sep :: t, by rw [hu]; simp⟩
  have hb' : ∃ y, b = d ++ sep :: (n2 ++ y) ∧ (y = [] ∨ ∃ z, y = sep :: z) := by
    rcases hb with hb | hb
    · exact ⟨[], by rw [hb]; simp, Or.inl rfl⟩
    · rcases (beneath_iff sep _ b).mp hb with ⟨u, hu⟩
      exact ⟨sep :: u, by rw [hu]; simp, Or.inr ⟨u, rfl⟩⟩
  rcases ha' with ⟨x, hx⟩
  rcases hb' with ⟨y, hy, hy2⟩
  rw [ht, hx] at hy
  have e := List.append_cancel_left hy
  simp only [List.cons.injEq, true_and] at e
  exact hne (name_unique sep n1 n2 x y h1 h2 e hy2)

/-! ## Windows `walk`: the shape of the traces -/

namespace Win

/-- The trace of `visit_file`, by cases: nothing when `stat` fails; one call
for a non-directory; for a directory `pre_directory`, the trace of `walk_dir`
and, unless `walk_dir` throws, `post_directory`. -/
theorem visit_file_cases (path : List Char) (fd : FindData) (st : Option Posix.Stat)
    (dir : Listing) :
    ((visit_file path (.mk fd st dir)).1 = [] ∧ (visit_file path (.mk fd st dir)).2 ≠ none) ∨
    (∃ s cb, cb ≠ .pre_directory ∧ cb ≠ .post_directory ∧
      visit_file path (.mk fd st dir) = ([⟨cb, path, s⟩], none)) ∨
    (∃ s, (walk_dir path dir).2 ≠ none ∧
      visit_file path (.mk fd st dir) =
        (⟨.pre_directory, path, s⟩ :: (walk_dir path dir).1, (walk_dir path dir).2)) ∨
    (∃ s, (walk_dir path dir).2 = none ∧
      visit_file path (.mk fd st dir) =
        (⟨.pre_directory, path, s⟩ :: (walk_dir path dir).1 ++ [⟨.post_directory, path, s⟩],
          none)) := by
  cases st with
  | none =>
    left
    simp [visit_file]
  | some s =>
    right
    by_cases hd : fd.dwFileAttributes &&& FILE_ATTRIBUTE_DIRECTORY ≠ 0
    · right
      cases hw : (walk_dir path dir).2 with
      | none =>
        right
        refine ⟨s, rfl, ?_⟩
        simp only [visit_file, if_pos hd, hw]
      | some e =>
        left
        refine ⟨s, by simp, ?_⟩
        simp only [visit_file, if_pos hd, hw]
    · left
      by_cases hr : fd.dwFileAttributes &&& FILE_ATTRIBUTE_REPARSE_POINT = 0
      · exact ⟨s, .file, by decide, by decide, by simp only [visit_file, if_neg hd, if_pos hr]⟩
      · by_cases ht : fd.dwReserved0 = IO_REPARSE_TAG_SYMLINK
        · exact ⟨s, .symlink, by decide, by decide,
            by simp only [visit_file, if_neg hd, if_neg hr, if_pos ht]⟩
        · exact ⟨s, .other, by decide, by decide,
            by simp only [visit_file, if_neg hd, if_neg hr, if_neg ht]⟩

theorem walk_dir_failed (root : List Char) :
    walk_dir root .failed = ([], some (.walk root)) := by
  simp only [walk_dir]

theorem walk_dir_found_fst (root : List Char) (first : Entry) (next : Entries) (ok : Bool) :
    (walk_dir root (.found first next ok)).1 = (walk_next root next).1 := by
  simp only [walk_dir]
  cases (walk_next root next).2 with
  | none => cases ok <;> simp
  | some e => simp

theorem walk_dir_found_snd (root : List Char) (first : Entry) (next : Entries) (ok : Bool)
    (h : (walk_dir root (.found first next ok)).2 = none) :
    (walk_next root next).2 = none ∧ ok = true := by
  simp only [walk_dir] at h
  cases hw : (walk_next root next).2 with
  | none =>
    rw [hw] at h
    cases ok
    · simp at h
    · exact ⟨rfl, rfl⟩
  | some e =>
    rw [hw] at h
    simp at h

theorem walk_next_nil (root : List Char) : walk_next root .nil = ([], none) := by
  simp only [walk_next]

theorem walk_next_skip (root : List Char) (entry : Entry) (rest : Entries)
    (h : entry.file_data.cFileName = ['.'] ∨ entry.file_data.cFileName = ['.', '.']) :
    walk_next root (.cons entry rest) = walk_next root rest := by
  simp only [walk_next, if_pos h]

theorem walk_next_visit (root : List Char) (entry : Entry) (rest : Entries)
    (h : ¬ (entry.file_data.cFileName = ['.'] ∨ entry.file_data.cFileName = ['.', '.'])) :
    (walk_next root (.cons entry rest) =
        ((visit_file (root ++ '\\' :: entry.file_data.cFileName) entry).1,
          (visit_file (root ++ '\\' :: entry.file_data.cFileName) entry).2) ∧
      (visit_file (root ++ '\\' :: entry.file_data.cFileName) entry).2 ≠ none) ∨
    (walk_next root (.cons entry rest) =
        ((visit_file (root ++ '\\' :: entry.file_data.cFileName) entry).1 ++
          (walk_next root rest).1, (walk_next root rest).2) ∧
      (visit_file (root ++ '\\' :: entry.file_data.cFileName) entry).2 = none) := by
  cases hv : (visit_file (root ++ '\\' :: entry.file_data.cFileName) entry).2 with
  | none =>
    right
    refine ⟨?_, rfl⟩
    simp only [walk_next, if_neg h, hv]
  | some e =>
    left
    refine ⟨?_, by simp⟩
    simp only [walk_next, if_neg h, hv]

theorem names_skip (entry : Entry) (rest : Entries)
    (h : entry.file_data.cFileName = ['.'] ∨ entry.file_data.cFileName = ['.', '.']) :
    Entries.names (.cons entry rest) = Entries.names rest := by
  simp only [Entries.names, if_pos h]

theorem names_visit (entry : Entry) (rest : Entries)
    (h : ¬ (entry.file_data.cFileName = ['.'] ∨ entry.file_data.cFileName = ['.', '.'])) :
    Entries.names (.cons entry rest) = entry.file_data.cFileName :: Entries.names rest := by
  simp only [Entries.names, if_neg h]

end Win

/-! ## Windows `walk`: the traces are well nested -/

namespace Win

mutual
/-- Every call of `visit_file` is for the path itself or for one beneath it. -/
theorem visit_file_within (path : List Char) : ∀ (e : Entry) (c : Posix.Call),
    c ∈ (visit_file path e).1 → (c.path = path ∨ beneath '\\' path c.path = true)
  | .mk fd st dir, c, hc => by
    have ih := walk_dir_beneath path dir
    rcases visit_file_cases path fd st dir with ⟨h, _⟩ | ⟨s, cb, _, _, h⟩ | ⟨s, _, h⟩ | ⟨s, _, h⟩
    · rw [h] at hc
      simp at hc
    · rw [h] at hc
      simp only [List.mem_singleton] at hc
      left
      rw [hc]
    · rw [h] at hc
      rcases List.mem_cons.mp hc with hc | hc
      · left
        rw [hc]
      · right
        exact ih c hc
    · rw [h] at hc
      rcases List.mem_append.mp hc with hc | hc
      · rcases List.mem_cons.mp hc with hc | hc
        · left
          rw [hc]
        · right
          exact ih c hc
      · simp only [List.mem_singleton] at hc
        left
        rw [hc]
/-- Every call of `walk_dir` is for a path beneath the directory. -/
theorem walk_dir_beneath (root : List Char) : ∀ (l : Listing) (c : Posix.Call),
    c ∈ (walk_dir root l).1 → beneath '\\' root c.path = true
  | .failed, c, hc => by
    rw [walk_dir_failed] at hc
    simp at hc
  | .found first next ok, c, hc => by
    rw [walk_dir_found_fst] at hc
    rcases walk_next_within root next c hc with ⟨n, _, h | h⟩
    · rw [h]
      exact beneath_child '\\' root n
    · exact beneath_trans '\\' _ _ _ (beneath_child '\\' root n) h
/-- Every call of the `FindNextFileA` loop is for one of the visited names or
for a path beneath it. -/
theorem walk_next_within (root : List Char) : ∀ (es : Entries) (c : Posix.Call),
    c ∈ (walk_next root es).1 →
    ∃ n, n ∈ Entries.names es ∧
      (c.path = root ++ '\\' :: n ∨ beneath '\\' (root ++ '\\' :: n) c.path = true)
  | .nil, c, hc => by
    rw [walk_next_nil] at hc
    simp at hc
  | .cons entry rest, c, hc => by
    by_cases hs : entry.file_data.cFileName = ['.'] ∨ entry.file_data.cFileName = ['.', '.']
    · rw [walk_next_skip _ _ _ hs] at hc
      rw [names_skip _ _ hs]
      exact walk_next_within root rest c hc
    · rw [names_visit _ _ hs]
      rcases walk_next_visit root entry rest hs with ⟨h, _⟩ | ⟨h, _⟩
      · rw [h] at hc
        exact ⟨_, List.mem_cons_self _ _, visit_file_within _ entry c hc⟩
      · rw [h] at hc
        rcases List.mem_append.mp hc with hc | hc
        · exact ⟨_, List.mem_cons_self _ _, visit_file_within _ entry c hc⟩
        · rcases walk_next_within root rest c hc with ⟨n, hn, h⟩
          exact ⟨n, List.mem_cons_of_mem _ hn, h⟩
end

theorem ordered_of_not_beneath (sep : Char) (a b : Posix.Call)
    (h1 : b.callback = .pre_directory → beneath sep b.path a.path = false)
    (h2 : a.callback = .post_directory → beneath sep a.path b.path = false) :
    ordered sep a b = true := by
  unfold ordered
  rw [Bool.and_eq_true, Bool.not_eq_true', Bool.not_eq_true', Bool.and_eq_false_iff,
    Bool.and_eq_false_iff]
  constructor
  · by_cases h : b.callback = .pre_directory
    · exact Or.inr (h1 h)
    · exact Or.inl (by simpa using h)
  · by_cases h : a.callback = .post_directory
    · exact Or.inr (h2 h)
    · exact Or.inl (by simpa using h)

theorem not_beneath_of_length (sep : Char) (d p : List Char) (h : p.length ≤ d.length) :
    beneath sep d p = false := by
  by_contra hc
  rw [Bool.not_eq_false] at hc
  have := beneath_length sep d p hc
  omega

theorem valid_cons_skip (entry : Entry) (rest : Entries)
    (h : Entries.valid (.cons entry rest) = true) : Entries.valid rest = true := by
  simp only [Entries.valid, Bool.and_eq_true] at h
  exact h.2

theorem valid_cons_visit (entry : Entry) (rest : Entries)
    (hs : ¬ (entry.file_data.cFileName = ['.'] ∨ entry.file_data.cFileName = ['.', '.']))
    (h : Entries.valid (.cons entry rest) = true) :
    '\\' ∉ entry.file_data.cFileName ∧ entry.file_data.cFileName ∉ Entries.names rest ∧
      Entry.valid entry = true := by
  simp only [Entries.valid, Bool.and_eq_true, decide_eq_true_eq] at h
  rcases h.1 with h1 | h1 | h1
  · exact absurd (Or.inl h1) hs
  · exact absurd (Or.inr h1) hs
  · exact h1

theorem valid_names : ∀ es : Entries, Entries.valid es = true →
    ∀ n, n ∈ Entries.names es → '\\' ∉ n
  | .nil, _, n, hn => by
    simp [Entries.names] at hn
  | .cons entry rest, hv, n, hn => by
    have ih := valid_names rest (valid_cons_skip entry rest hv)
    by_cases hs : entry.file_data.cFileName = ['.'] ∨ entry.file_data.cFileName = ['.', '.']
    · rw [names_skip _ _ hs] at hn
      exact ih n hn
    · rw [names_visit _ _ hs] at hn
      rcases List.mem_cons.mp hn with hn | hn
      · rw [hn]
        exact (valid_cons_visit entry rest hs hv).1
      · exact ih n hn

end Win

namespace Win

mutual
/-- The trace of `visit_file` on a valid tree is well nested. -/
theorem visit_file_nested (path : List Char) : ∀ e : Entry, Entry.valid e = true →
    WellNested '\\' (visit_file path e).1
  | .mk fd st dir, hv => by
    have hv' : Listing.valid dir = true := by
      simpa only [Entry.valid] using hv
    have ih : List.Pairwise (fun a b => ordered '\\' a b = true) (walk_dir path dir).1 :=
      walk_dir_nested path dir hv'
    have hb := walk_dir_beneath path dir
    unfold WellNested
    rcases visit_file_cases path fd st dir with ⟨h, _⟩ | ⟨s, cb, _, _, h⟩ | ⟨s, _, h⟩ | ⟨s, _, h⟩
    · rw [h]
      exact List.Pairwise.nil
    · rw [h]
      exact List.pairwise_singleton _ _
    · rw [h]
      refine List.pairwise_cons.mpr ⟨fun b hb' => ?_, ih⟩
      apply ordered_of_not_beneath
      · intro _
        exact not_beneath_of_length _ _ _ (Nat.le_of_lt (beneath_length _ _ _ (hb b hb')))
      · intro h'
        cases h'
    · rw [h, List.cons_append]
      refine List.pairwise_cons.mpr ⟨fun b hb' => ?_, ?_⟩
      · apply ordered_of_not_beneath
        · intro hpre
          rcases List.mem_append.mp hb' with hb' | hb'
          · exact not_beneath_of_length _ _ _ (Nat.le_of_lt (beneath_length _ _ _ (hb b hb')))
          · simp only [List.mem_singleton] at hb'
            rw [hb'] at hpre
            cases hpre
        · intro h'
          cases h'
      · refine List.pairwise_append.mpr ⟨ih, List.pairwise_singleton _ _, fun a ha b hb' => ?_⟩
        simp only [List.mem_singleton] at hb'
        subst hb'
        apply ordered_of_not_beneath
        · intro h'
          cases h'
        · intro _
          exact not_beneath_of_length _ _ _ (Nat.le_of_lt (beneath_length _ _ _ (hb a ha)))
/-- The trace of `walk_dir` on a valid tree is well nested. -/
theorem walk_dir_nested (root : List Char) : ∀ l : Listing, Listing.valid l = true →
    WellNested '\\' (walk_dir root l).1
  | .failed, _ => by
    rw [walk_dir_failed]
    exact List.Pairwise.nil
  | .found first next ok, hv => by
    have hv' : Entries.valid next = true := by
      simpa only [Listing.valid] using hv
    rw [walk_dir_found_fst]
    exact walk_next_nested root next hv'
/-- The trace of the `FindNextFileA` loop on a valid tree is well nested. -/
theorem walk_next_nested (root : List Char) : ∀ es : Entries, Entries.valid es = true →
    WellNested '\\' (walk_next root es).1
  | .nil, _ => by
    rw [walk_next_nil]
    exact List.Pairwise.nil
  | .cons entry rest, hv => by
    have ihr : List.Pairwise (fun a b => ordered '\\' a b = true) (walk_next root rest).1 :=
      walk_next_nested root rest (valid_cons_skip entry rest hv)
    unfold WellNested
    by_cases hs : entry.file_data.cFileName = ['.'] ∨ entry.file_data.cFileName = ['.', '.']
    · rw [walk_next_skip _ _ _ hs]
      exact ihr
    · rcases valid_cons_visit entry rest hs hv with ⟨hsep, hnot, hve⟩
      have ihe : List.Pairwise (fun a b => ordered '\\' a b = true)
          (visit_file (root ++ '\\' :: entry.file_data.cFileName) entry).1 :=
        visit_file_nested _ entry hve
      rcases walk_next_visit root entry rest hs with ⟨h, _⟩ | ⟨h, _⟩
      · rw [h]
        exact ihe
      · rw [h]
        refine List.pairwise_append.mpr ⟨ihe, ihr, fun a ha b hb => ?_⟩
        have hwa := visit_file_within _ entry a ha
        rcases walk_next_within root rest b hb with ⟨n, hn, hwb⟩
        have hn2 : '\\' ∉ n := valid_names rest (valid_cons_skip entry rest hv) n hn
        have hne : entry.file_data.cFileName ≠ n := fun e => hnot (e ▸ hn)
        apply ordered_of_not_beneath
        · intro _
          exact sibling_not_beneath '\\' root n entry.file_data.cFileName b.path a.path hn2 hsep
            (Ne.symm hne) hwb hwa
        · intro _
          exact sibling_not_beneath '\\' root entry.file_data.cFileName n a.path b.path hsep hn2
            hne hwa hwb
end

theorem closes_leaf (d : List Char) (up : List (List Char)) (cb : Posix.Callback)
    (path : List Char) (s : Posix.Stat) (rest : List Posix.Call)
    (h1 : cb ≠ .pre_directory) (h2 : cb ≠ .post_directory) (hb : beneath '\\' d path = true) :
    closes '\\' (d :: up) (⟨cb, path, s⟩ :: rest) = closes '\\' (d :: up) rest := by
  cases cb <;> simp_all [closes]

theorem closes_pre (sep : Char) (d : List Char) (up : List (List Char)) (path : List Char)
    (s : Posix.Stat) (rest : List Posix.Call) :
    closes sep (d :: up) (⟨.pre_directory, path, s⟩ :: rest) =
      (beneath sep d path && closes sep (path :: d :: up) rest) := rfl

theorem closes_post (sep : Char) (d : List Char) (up : List (List Char)) (path : List Char)
    (s : Posix.Stat) (rest : List Posix.Call) :
    closes sep (d :: up) (⟨.post_directory, path, s⟩ :: rest) =
      (path == d && closes sep up rest) := rfl

mutual
/-- Read against the open directories, the trace of a `visit_file` that does
not throw opens and closes what it visits and nothing else. -/
theorem visit_file_closes (path : List Char) : ∀ e : Entry, (visit_file path e).2 = none →
    ∀ (d : List Char) (up : List (List Char)) (rest : List Posix.Call),
      beneath '\\' d path = true →
      closes '\\' (d :: up) ((visit_file path e).1 ++ rest) = closes '\\' (d :: up) rest
  | .mk fd st dir, hok, d, up, rest, hb => by
    have ih := walk_dir_closes path dir
    rcases visit_file_cases path fd st dir with ⟨_, h⟩ | ⟨s, cb, h1, h2, h⟩ | ⟨s, h', h⟩ | ⟨s, h', h⟩
    · exact absurd hok h
    · rw [h]
      exact closes_leaf d up cb path s rest h1 h2 hb
    · rw [h] at hok
      exact absurd hok h'
    · rw [h]
      rw [List.cons_append, List.cons_append, List.append_assoc, closes_pre, hb, Bool.true_and,
        ih h' (d :: up), List.singleton_append, closes_post, beq_self_eq_true, Bool.true_and]
/-- The same for `walk_dir`, with the directory itself innermost. -/
theorem walk_dir_closes (root : List Char) : ∀ l : Listing, (walk_dir root l).2 = none →
    ∀ (up : List (List Char)) (rest : List Posix.Call),
      closes '\\' (root :: up) ((walk_dir root l).1 ++ rest) = closes '\\' (root :: up) rest
  | .failed, hok, _, _ => by
    rw [walk_dir_failed] at hok
    cases hok
  | .found first next ok, hok, up, rest => by
    rw [walk_dir_found_fst]
    exact walk_next_closes root next (walk_dir_found_snd root first next ok hok).1 up rest
/-- The same for the `FindNextFileA` loop. -/
theorem walk_next_closes (root : List Char) : ∀ es : Entries, (walk_next root es).2 = none →
    ∀ (up : List (List Char)) (rest : List Posix.Call),
      closes '\\' (root :: up) ((walk_next root es).1 ++ rest) = closes '\\' (root :: up) rest
  | .nil, _, _, _ => by
    rw [walk_next_nil, List.nil_append]
  | .cons entry rest, hok, up, tl => by
    by_cases hs : entry.file_data.cFileName = ['.'] ∨ entry.file_data.cFileName = ['.', '.']
    · rw [walk_next_skip _ _ _ hs] at hok ⊢
      exact walk_next_closes root rest hok up tl
    · rcases walk_next_visit root entry rest hs with ⟨h, h'⟩ | ⟨h, h'⟩
      · rw [h] at hok
        exact absurd hok h'
      · rw [h] at hok ⊢
        simp only [List.append_assoc]
        rw [visit_file_closes _ entry h' root up _ (beneath_child '\\' root _)]
        exact walk_next_closes root rest hok up tl
end

/-- The trace of a Windows `walk` that does not throw is one complete visit
of the root. -/
theorem walk_oneVisit (root : List Char) (type : Posix.WalkType) (e : Entry)
    (hok : (walk root type (some e)).2 = none) :
    oneVisit '\\' root (walk root type (some e)).1 = true := by
  cases e with
  | mk fd st dir =>
    simp only [walk] at hok ⊢
    rcases visit_file_cases root fd st dir with ⟨_, h⟩ | ⟨s, cb, h1, h2, h⟩ | ⟨s, h', h⟩ | ⟨s, h', h⟩
    · exact absurd hok h
    · rw [h]
      cases cb <;> simp_all [oneVisit]
    · rw [h] at hok
      exact absurd hok h'
    · rw [h]
      rw [List.cons_append]
      simp only [oneVisit, beq_self_eq_true, Bool.true_and]
      rw [walk_dir_closes root dir h' [], closes_post, beq_self_eq_true, Bool.true_and]
      rfl

end Win


/-! ## Windows `walk`: the claims -/

namespace Win

/-- C21: the Windows `walk` over a finite directory tree, each directory given
by the entries its enumeration returns (the visited names of one enumeration
hold no separator and differ from one another), produces a well-nested trace:
`pre_directory(d)` precedes every callback for a path beneath `d` and
`post_directory(d)` follows all of them; and when `walk` does not throw, the
trace is one complete visit of the root, every directory opened by
`pre_directory` and closed by its `post_directory` around the calls beneath
it. -/
theorem walk_trace_well_nested (root : List Char) (type : Posix.WalkType) (e : Entry)
    (hv : Entry.valid e = true) :
    WellNested '\\' (walk root type (some e)).1 ∧
    ((walk root type (some e)).2 = none →
      oneVisit '\\' root (walk root type (some e)).1 = true) :=
  ⟨visit_file_nested root e hv, walk_oneVisit root type e⟩

/-- Witness for C21: the tree `root/{file.txt, sub/inner.txt}`, enumerated in
name order after `.` and `..`, with the trace the specification gives. -/
theorem walk_trace_well_nested_witness :
    Entry.valid exampleRoot = true ∧
    walk "root".toList .WALK_PHYSICAL (some exampleRoot) =
      ([⟨.pre_directory, "root".toList, ⟨0, 0, 0⟩⟩,
        ⟨.file, "root\\file.txt".toList, ⟨0, 0, 0⟩⟩,
        ⟨.pre_directory, "root\\sub".toList, ⟨0, 0, 0⟩⟩,
        ⟨.file, "root\\sub\\inner.txt".toList, ⟨0, 0, 0⟩⟩,
        ⟨.post_directory, "root\\sub".toList, ⟨0, 0, 0⟩⟩,
        ⟨.post_directory, "root".toList, ⟨0, 0, 0⟩⟩], none) ∧
    WellNested '\\' (walk "root".toList .WALK_PHYSICAL (some exampleRoot)).1 ∧
    oneVisit '\\' "root".toList (walk "root".toList .WALK_PHYSICAL (some exampleRoot)).1 = true :=
  ⟨by decide, by decide,
    (walk_trace_well_nested "root".toList .WALK_PHYSICAL exampleRoot (by decide)).1,
    (walk_trace_well_nested "root".toList .WALK_PHYSICAL exampleRoot (by decide)).2 (by decide)⟩

/-- C22: `walk_dir` never looks at the entry that `FindFirstFileA` returns:
its result is the same whatever that entry is, and in a directory whose
enumeration is `a.txt`, `b.txt` the visitor gets a call for `b.txt` and none for
`a.txt`. -/
theorem walk_dir_skips_first_entry :
    (∀ (root : List Char) (first first2 : Entry) (next : Entries) (ok : Bool),
      walk_dir root (.found first next ok) = walk_dir root (.found first2 next ok)) ∧
    walk "root".toList .WALK_PHYSICAL (some firstEntryRoot) =
      ([⟨.pre_directory, "root".toList, ⟨0, 0, 0⟩⟩,
        ⟨.file, "root\\b.txt".toList, ⟨0, 0, 0⟩⟩,
        ⟨.post_directory, "root".toList, ⟨0, 0, 0⟩⟩], none) ∧
    (∀ c ∈ (walk "root".toList .WALK_PHYSICAL (some firstEntryRoot)).1,
      c.path ≠ "root\\a.txt".toList) := by
  refine ⟨fun root first first2 next ok => ?_, by decide, by decide⟩
  simp only [walk_dir]

/-- C23: the Windows `walk` does not read its `type`: the result under
`WALK_PHYSICAL` is the result under `WALK_LOGICAL`; and under `WALK_PHYSICAL` a
symbolic link that carries `FILE_ATTRIBUTE_DIRECTORY` is reported through
`pre_directory` and `post_directory` and is descended into, with no `symlink`
callback. -/
theorem walk_physical_descends_into_link :
    (∀ (root : List Char) (found : Option Entry),
      walk root .WALK_PHYSICAL found = walk root .WALK_LOGICAL found) ∧
    exampleLink.file_data.dwFileAttributes &&& FILE_ATTRIBUTE_REPARSE_POINT ≠ 0 ∧
    exampleLink.file_data.dwReserved0 = IO_REPARSE_TAG_SYMLINK ∧
    walk "root".toList .WALK_PHYSICAL (some linkRoot) =
      ([⟨.pre_directory, "root".toList, ⟨0, 0, 0⟩⟩,
        ⟨.pre_directory, "root\\link".toList, ⟨0, 0, 0⟩⟩,
        ⟨.file, "root\\link\\inner.txt".toList, ⟨0, 0, 0⟩⟩,
        ⟨.post_directory, "root\\link".toList, ⟨0, 0, 0⟩⟩,
        ⟨.post_directory, "root".toList, ⟨0, 0, 0⟩⟩], none) := by
  refine ⟨fun root found => rfl, by decide, by decide, by decide⟩

end Win

/-! ## `rmtree` -/

/-- The operations issued for a well-nested trace: after the `rmdir` of a
directory no operation names a path beneath it. -/
theorem rmtree_ops_ordered (sep : Char) (trace : List Posix.Call) (h : WellNested sep trace) :
    (trace.filterMap RmtreeVisitor).Pairwise
      (fun a b => ∀ d, a = .rmdir d → beneath sep d b.path = false) := by
  refine List.Pairwise.filterMap RmtreeVisitor (fun a b hab oa ha ob hb d hd => ?_) h
  subst hd
  unfold ordered at hab
  rw [Bool.and_eq_true, Bool.not_eq_true', Bool.not_eq_true'] at hab
  have h2 := hab.2
  have hb' : ob.path = b.path := by
    unfold RmtreeVisitor at hb
    cases hcb : b.callback <;> rw [hcb] at hb <;> simp at hb <;> rw [← hb] <;> rfl
  have ha' : a.callback = .post_directory ∧ a.path = d := by
    unfold RmtreeVisitor at ha
    cases hca : a.callback <;> rw [hca] at ha <;> simp at ha
    exact ⟨rfl, ha⟩
  rw [ha'.1, ha'.2] at h2
  rw [hb']
  simpa using h2

/-- The operations `rmtreeVisit` issues are the first of those of the trace. -/
theorem rmtreeVisit_ops (sep : Char) : ∀ (trace : List Posix.Call) (fs : List FsNode),
    (rmtreeVisit sep trace fs).1 <+: trace.filterMap RmtreeVisitor
  | [], fs => by
    simp [rmtreeVisit]
  | c :: rest, fs => by
    have ih := rmtreeVisit_ops sep rest
    cases hv : RmtreeVisitor c with
    | none =>
      simp only [rmtreeVisit, hv, List.filterMap_cons]
      exact ih fs
    | some op =>
      cases ha : FsOp.apply sep fs op with
      | none =>
        simp only [rmtreeVisit, hv, ha, List.filterMap_cons]
        exact List.prefix_iff_eq_append.mpr (by simp)
      | some fs2 =>
        simp only [rmtreeVisit, hv, ha, List.filterMap_cons]
        exact (List.prefix_cons_inj op).mpr (ih fs2)

/-- C24: the visitor of `rmtree` issues one `unlink` of the visited path for
`file`, `symlink`, `broken_symlink` and `other`, one `rmdir` of it for
`post_directory`, and nothing for `pre_directory` and `cycle_directory`; hence
among the operations for a well-nested trace no operation on a path beneath a
directory comes after that directory's `rmdir`, and the operations `rmtree`
issues are the first of these; and on the tree `root/{file.txt, sub/inner.txt}`
both `rmtree`s start one walk, remove the two files, then `sub`, then `root`,
leave no path of the tree and throw nothing. -/
theorem rmtree_visitor_removes_children_first :
    (∀ (path : List Char) (st : Posix.Stat),
      RmtreeVisitor ⟨.file, path, st⟩ = some (.unlink path) ∧
      RmtreeVisitor ⟨.symlink, path, st⟩ = some (.unlink path) ∧
      RmtreeVisitor ⟨.broken_symlink, path, st⟩ = some (.unlink path) ∧
      RmtreeVisitor ⟨.other, path, st⟩ = some (.unlink path) ∧
      RmtreeVisitor ⟨.post_directory, path, st⟩ = some (.rmdir path) ∧
      RmtreeVisitor ⟨.pre_directory, path, st⟩ = none ∧
      RmtreeVisitor ⟨.cycle_directory, path, st⟩ = none) ∧
    (∀ (sep : Char) (trace : List Posix.Call), WellNested sep trace →
      (trace.filterMap RmtreeVisitor).Pairwise
        (fun a b => ∀ d, a = .rmdir d → beneath sep d b.path = false)) ∧
    (∀ (sep : Char) (trace : List Posix.Call) (fs : List FsNode),
      (rmtreeVisit sep trace fs).1 <+: trace.filterMap RmtreeVisitor) ∧
    Posix.rmtree (fun _ _ => some Posix.exampleEntries) [] Posix.exampleFs "root".toList =
      ⟨1, [.unlink "root/file.txt".toList, .unlink "root/sub/inner.txt".toList,
          .rmdir "root/sub".toList, .rmdir "root".toList], [], none, none⟩ ∧
    Win.rmtree (some Win.exampleRoot) Win.exampleFs "root".toList =
      ⟨1, [.unlink "root\\file.txt".toList, .unlink "root\\sub\\inner.txt".toList,
          .rmdir "root\\sub".toList, .rmdir "root".toList], [], none, none⟩ := by
  refine ⟨fun path st => ⟨rfl, rfl, rfl, rfl, rfl, rfl, rfl⟩, rmtree_ops_ordered,
    rmtreeVisit_ops, by decide, by decide⟩

/-- Witness for C24: the trace of the Windows `walk` over the example tree is
well nested, and in the operations issued for it nothing beneath a directory
follows the directory's `rmdir`. -/
theorem rmtree_visitor_removes_children_first_witness :
    ((Win.walk "root".toList .WALK_PHYSICAL (some Win.exampleRoot)).1.filterMap
        RmtreeVisitor).Pairwise
      (fun a b => ∀ d, a = .rmdir d → beneath '\\' d b.path = false) :=
  rmtree_visitor_removes_children_first.2.1 '\\' _ (by decide)

/-- C25: when `path::exists` answers false for the path, both `rmtree`s start
no walk, issue no `unlink` and no `rmdir`, leave the state as it is and throw
nothing. -/
theorem rmtree_missing_path (fts_open : List Char → Nat → Option (List Posix.FtsEnt))
    (strerror : List Char) (found : Option Win.Entry) (fs : List FsNode) (path : List Char)
    (h : path_exists fs path = false) :
    Posix.rmtree fts_open strerror fs path = ⟨0, [], fs, none, none⟩ ∧
    Win.rmtree found fs path = ⟨0, [], fs, none, none⟩ := by
  simp [Posix.rmtree, Win.rmtree, h]

/-- Witness for C25: `rmtree` of `root` once the example tree has been
removed, whatever the enumeration would answer. -/
theorem rmtree_missing_path_witness :
    Posix.rmtree (fun _ _ => some Posix.exampleEntries) [] [] "root".toList =
      ⟨0, [], [], none, none⟩ ∧
    Win.rmtree (some Win.exampleRoot) [] "root".toList = ⟨0, [], [], none, none⟩ :=
  rmtree_missing_path (fun _ _ => some Posix.exampleEntries) [] (some Win.exampleRoot) []
    "root".toList (by decide)



/-! ## `string_to_int` -/

theorem digit_nonneg (c : Char) (d : Int) (h : digit c = some d) : 0 ≤ d := by
  unfold digit at h
  split at h
  · cases h
    exact Int.ofNat_nonneg _
  · cases h

theorem decimal_step_le (digits : List Char) : ∀ v : Int, 0 ≤ v →
    v ≤ digits.foldl (fun a c => a * 10 + (digit c).getD 0) v := by
  induction digits with
  | nil =>
    intro v _
    exact Int.le_refl v
  | cons c rest ih =>
    intro v hv
    have hd : 0 ≤ (digit c).getD 0 := by
      cases h : digit c with
      | none => simp
      | some d => simpa using digit_nonneg c d h
    have := ih (v * 10 + (digit c).getD 0) (by omega)
    simp only [List.foldl_cons]
    omega

theorem foldl_neg (digits : List Char) : ∀ v : Int,
    digits.foldl (fun a c => a * 10 - (digit c).getD 0) (-v) =
      -digits.foldl (fun a c => a * 10 + (digit c).getD 0) v := by
  induction digits with
  | nil =>
    intro v
    rfl
  | cons c rest ih =>
    intro v
    simp only [List.foldl_cons]
    rw [← ih]
    congr 1
    omega

/-- The digit loop on the non-negative side. -/
theorem digits_loop_pos (T : IntType) (digits : List Char)
    (hall : ∀ c ∈ digits, (digit c).isSome = true) : ∀ v : Int, 0 ≤ v → v ≤ T.max →
    (digits.foldl (fun a c => a * 10 + (digit c).getD 0) v ≤ T.max →
      string_to_int_digits T false digits v =
        (.NONE, digits.foldl (fun a c => a * 10 + (digit c).getD 0) v)) ∧
    (T.max < digits.foldl (fun a c => a * 10 + (digit c).getD 0) v →
      (string_to_int_digits T false digits v).1 = .INTEGER_OVERFLOW) := by
  induction digits with
  | nil =>
    intro v _ hmax
    refine ⟨fun _ => rfl, fun h => ?_⟩
    simp only [List.foldl_nil] at h
    omega
  | cons c rest ih =>
    intro v hv hmax
    obtain ⟨d, hd⟩ := Option.isSome_iff_exists.mp (hall c (List.mem_cons_self _ _))
    have hd0 := digit_nonneg c d hd
    have hrest : ∀ c ∈ rest, (digit c).isSome = true :=
      fun x hx => hall x (List.mem_cons_of_mem _ hx)
    have hmono := decimal_step_le rest (v * 10 + d) (by omega)
    simp only [List.foldl_cons, hd, Option.getD_some, string_to_int_digits, Bool.false_eq_true,
      if_false]
    by_cases hov : T.max < v * 10 + d
    · rw [if_pos hov]
      exact ⟨fun h => by omega, fun _ => rfl⟩
    · rw [if_neg hov]
      exact ih hrest (v * 10 + d) (by omega) (by omega)

/-- The digit loop on the negative side. -/
theorem digits_loop_neg (T : IntType) (digits : List Char)
    (hall : ∀ c ∈ digits, (digit c).isSome = true) : ∀ v : Int, v ≤ 0 → T.min ≤ v →
    (T.min ≤ digits.foldl (fun a c => a * 10 - (digit c).getD 0) v →
      string_to_int_digits T true digits v =
        (.NONE, digits.foldl (fun a c => a * 10 - (digit c).getD 0) v)) ∧
    (digits.foldl (fun a c => a * 10 - (digit c).getD 0) v < T.min →
      (string_to_int_digits T true digits v).1 = .INTEGER_OVERFLOW) := by
  induction digits with
  | nil =>
    intro v _ hmin
    refine ⟨fun _ => rfl, fun h => ?_⟩
    simp only [List.foldl_nil] at h
    omega
  | cons c rest ih =>
    intro v hv hmin
    obtain ⟨d, hd⟩ := Option.isSome_iff_exists.mp (hall c (List.mem_cons_self _ _))
    have hd0 := digit_nonneg c d hd
    have hrest : ∀ c ∈ rest, (digit c).isSome = true :=
      fun x hx => hall x (List.mem_cons_of_mem _ hx)
    have hmono := decimal_step_le rest (-(v * 10 - d)) (by omega)
    have hneg := foldl_neg rest (-(v * 10 - d))
    rw [Int.neg_neg] at hneg
    simp only [List.foldl_cons, hd, Option.getD_some, string_to_int_digits, if_true]
    by_cases hov : v * 10 - d < T.min
    · rw [if_pos hov]
      exact ⟨fun h => by omega, fun _ => rfl⟩
    · rw [if_neg hov]
      exact ih hrest (v * 10 - d) (by omega) (by omega)

theorem intTypes_range : ∀ T ∈ intTypes, T.min ≤ 0 ∧ 0 ≤ T.max := by
  decide

theorem decimal_nonneg (digits : List Char) : 0 ≤ decimal digits :=
  decimal_step_le digits 0 (Int.le_refl 0)

/-- `string_to_int` on a string of one or more digits. -/
theorem string_to_int_digits_only (T : IntType) (hT : T.min ≤ 0 ∧ 0 ≤ T.max)
    (digits : List Char) (hne : digits ≠ []) (hall : ∀ c ∈ digits, (digit c).isSome = true) :
    (decimal digits ≤ T.max → string_to_int T digits = (.NONE, some (decimal digits))) ∧
    (T.max < decimal digits → string_to_int T digits = (.INTEGER_OVERFLOW, none)) := by
  have hhead : (decide (digits.head? = some '-')) = false := by
    cases digits with
    | nil => rfl
    | cons c rest =>
      have hc := hall c (List.mem_cons_self _ _)
      have : c ≠ '-' := by
        intro e
        rw [e] at hc
        exact absurd hc (by decide)
      simpa using this
  have hloop := digits_loop_pos T digits hall 0 (Int.le_refl 0) hT.2
  unfold string_to_int
  simp only [hhead, Bool.false_eq_true, if_false, if_neg hne]
  constructor
  · intro h
    rw [hloop.1 h]
    rfl
  · intro h
    have h1 := hloop.2 h
    generalize string_to_int_digits T false digits 0 = r at h1
    obtain ⟨f, v⟩ := r
    simp only at h1
    subst h1
    rfl

/-- `string_to_int` on `-` followed by one or more digits. -/
theorem string_to_int_minus (T : IntType) (hT : T.min ≤ 0 ∧ 0 ≤ T.max)
    (digits : List Char) (hne : digits ≠ []) (hall : ∀ c ∈ digits, (digit c).isSome = true) :
    (T.min ≤ -decimal digits →
      string_to_int T ('-' :: digits) = (.NONE, some (-decimal digits))) ∧
    (-decimal digits < T.min →
      string_to_int T ('-' :: digits) = (.INTEGER_OVERFLOW, none)) := by
  have hloop := digits_loop_neg T digits hall 0 (Int.le_refl 0) hT.1
  have hneg := foldl_neg digits 0
  rw [Int.neg_zero] at hneg
  rw [hneg] at hloop
  unfold string_to_int
  simp only [List.head?_cons, decide_True, if_true, List.tail_cons, if_neg hne]
  constructor
  · intro h
    rw [hloop.1 h]
    rfl
  · intro h
    have h1 := hloop.2 h
    generalize string_to_int_digits T true digits 0 = r at h1
    obtain ⟨f, v⟩ := r
    simp only at h1
    subst h1
    rfl

/-- The two shapes of a literal. -/
theorem isLiteral_cases (s : List Char) (h : isLiteral s = true) :
    (∃ digits, s = '-' :: digits ∧ digits ≠ [] ∧ (∀ c ∈ digits, (digit c).isSome = true) ∧
      denoted s = -decimal digits) ∨
    (s ≠ [] ∧ (∀ c ∈ s, (digit c).isSome = true) ∧ denoted s = decimal s) := by
  cases s with
  | nil => simp [isLiteral] at h
  | cons c rest =>
    by_cases hc : c = '-'
    · subst hc
      left
      simp only [isLiteral, Bool.and_eq_true, Bool.not_eq_true', List.all_eq_true] at h
      refine ⟨rest, rfl, ?_, h.2, rfl⟩
      intro e
      rw [e] at h
      simp at h
    · right
      have h1 : isLiteral (c :: rest) =
          (!(c :: rest).isEmpty && (c :: rest).all (fun c => (digit c).isSome)) := by
        unfold isLiteral
        split
        · rename_i heq
          simp only [List.cons.injEq] at heq
          exact absurd heq.1 hc
        · rfl
      have h2 : denoted (c :: rest) = decimal (c :: rest) := by
        unfold denoted
        split
        · rename_i heq
          simp only [List.cons.injEq] at heq
          exact absurd heq.1 hc
        · rfl
      rw [h1] at h
      simp only [Bool.and_eq_true, List.all_eq_true] at h
      exact ⟨by simp, h.2, h2⟩

/-- C26: for each of the eight integer types `T` and every string `s` of one
or more decimal digits, optionally preceded by `-`, `string_to_int<T>(s, out)`
succeeds exactly when the integer `s` denotes lies in `[min(T), max(T)]`; on
success `out` is that integer, and otherwise the failure is
`INTEGER_OVERFLOW`. -/
theorem string_to_int_in_range (T : IntType) (hT : T ∈ intTypes) (s : List Char)
    (hs : isLiteral s = true) :
    ((string_to_int T s).1 = .NONE ↔ T.min ≤ denoted s ∧ denoted s ≤ T.max) ∧
    ((string_to_int T s).1 = .NONE → (string_to_int T s).2 = some (denoted s)) ∧
    ((string_to_int T s).1 ≠ .NONE → string_to_int T s = (.INTEGER_OVERFLOW, none)) := by
  have hr := intTypes_range T hT
  rcases isLiteral_cases s hs with ⟨digits, rfl, hne, hall, hden⟩ | ⟨hne, hall, hden⟩
  · have h := string_to_int_minus T hr digits hne hall
    have h0 := decimal_nonneg digits
    rw [hden]
    by_cases hle : T.min ≤ -decimal digits
    · rw [h.1 hle]
      exact ⟨⟨fun _ => ⟨hle, by omega⟩, fun _ => rfl⟩, fun _ => rfl, fun hc => absurd rfl hc⟩
    · rw [h.2 (by omega)]
      exact ⟨⟨fun hc => (by cases hc), fun hc => absurd hc.1 hle⟩, fun hc => (by cases hc),
        fun _ => rfl⟩
  · have h := string_to_int_digits_only T hr s hne hall
    have h0 := decimal_nonneg s
    rw [hden]
    by_cases hle : decimal s ≤ T.max
    · rw [h.1 hle]
      exact ⟨⟨fun _ => ⟨by omega, hle⟩, fun _ => rfl⟩, fun _ => rfl, fun hc => absurd rfl hc⟩
    · rw [h.2 (by omega)]
      exact ⟨⟨fun hc => (by cases hc), fun hc => absurd hc.2 hle⟩, fun hc => (by cases hc),
        fun _ => rfl⟩

/-- Witness for C26: the strings of the tests.  For `int8_t`, `127` and `-128`
succeed and `128`, `-129` and `0000000000000000000000128` fail; `-1` fails for
every unsigned type. -/
theorem string_to_int_in_range_witness :
    ((string_to_int ⟨8, true⟩ "-128".toList).1 = .NONE ↔
      IntType.min ⟨8, true⟩ ≤ denoted "-128".toList ∧
        denoted "-128".toList ≤ IntType.max ⟨8, true⟩) ∧
    string_to_int ⟨8, true⟩ "127".toList = (.NONE, some 127) ∧
    string_to_int ⟨8, true⟩ "-128".toList = (.NONE, some (-128)) ∧
    string_to_int ⟨8, true⟩ "128".toList = (.INTEGER_OVERFLOW, none) ∧
    string_to_int ⟨8, true⟩ "-129".toList = (.INTEGER_OVERFLOW, none) ∧
    string_to_int ⟨8, true⟩ "0000000000000000000000128".toList = (.INTEGER_OVERFLOW, none) ∧
    (∀ T ∈ intTypes, T.is_signed = false →
      string_to_int T "-1".toList = (.INTEGER_OVERFLOW, none)) :=
  ⟨(string_to_int_in_range ⟨8, true⟩ (by decide) "-128".toList (by decide)).1,
    by decide, by decide, by decide, by decide, by decide, by decide⟩


/-! ## `upper` and `lower` -/

theorem mem_lowercaseLetters (c : Char) (h : 'a' ≤ c ∧ c ≤ 'z') : c ∈ lowercaseLetters := by
  have h1 : 97 ≤ c.toNat := h.1
  have h2 : c.toNat ≤ 122 := h.2
  have hc : c = Char.ofNat c.toNat := (Char.ofNat_toNat c).symm
  rw [hc]
  generalize c.toNat = n at h1 h2
  interval_cases n <;> decide

theorem mem_uppercaseLetters (c : Char) (h : 'A' ≤ c ∧ c ≤ 'Z') : c ∈ uppercaseLetters := by
  have h1 : 65 ≤ c.toNat := h.1
  have h2 : c.toNat ≤ 90 := h.2
  have hc : c = Char.ofNat c.toNat := (Char.ofNat_toNat c).symm
  rw [hc]
  generalize c.toNat = n at h1 h2
  interval_cases n <;> decide

theorem upperRune_of_not_mem (c : Char) (h : c ∉ lowercaseLetters) : upperRune c = c := by
  unfold upperRune
  rw [if_neg (fun hc => h (mem_lowercaseLetters c hc))]

theorem lowerRune_of_not_mem (c : Char) (h : c ∉ uppercaseLetters) : lowerRune c = c := by
  unfold lowerRune
  rw [if_neg (fun hc => h (mem_uppercaseLetters c hc))]

theorem upperRune_letters : lowercaseLetters.map upperRune = uppercaseLetters := by
  decide

theorem lowerRune_letters : uppercaseLetters.map lowerRune = lowercaseLetters := by
  decide

/-- C27: `upper` keeps the number of code points, puts the uppercase letter
of the same rank at every position that holds one of the ASCII letters `a` to
`z`, and leaves every other code point as it is, among them the digits, the
ASCII uppercase letters and every code point outside ASCII; `lower` does the
same with `A` to `Z` taken to `a` to `z`. -/
theorem upper_lower_ascii_letters (s : List Char) :
    (upper s).length = s.length ∧ (lower s).length = s.length ∧
    (∀ (i : Nat) (c : Char), s[i]? = some c →
      (∀ k : Nat, lowercaseLetters[k]? = some c → (upper s)[i]? = uppercaseLetters[k]?) ∧
      (c ∉ lowercaseLetters → (upper s)[i]? = some c) ∧
      (∀ k : Nat, uppercaseLetters[k]? = some c → (lower s)[i]? = lowercaseLetters[k]?) ∧
      (c ∉ uppercaseLetters → (lower s)[i]? = some c)) ∧
    (∀ c : Char, (c.isDigit = true ∨ c ∈ uppercaseLetters ∨ 128 ≤ c.toNat) →
      c ∉ lowercaseLetters) ∧
    (∀ c : Char, (c.isDigit = true ∨ c ∈ lowercaseLetters ∨ 128 ≤ c.toNat) →
      c ∉ uppercaseLetters) := by
  refine ⟨by simp [upper], by simp [lower], fun i c hc => ⟨fun k hk => ?_, fun hn => ?_,
    fun k hk => ?_, fun hn => ?_⟩, fun c hc hm => ?_, fun c hc hm => ?_⟩
  · rw [← upperRune_letters]
    simp only [upper, List.getElem?_map, hc, hk, Option.map_some']
  · simp only [upper, List.getElem?_map, hc, Option.map_some', upperRune_of_not_mem c hn]
  · rw [← lowerRune_letters]
    simp only [lower, List.getElem?_map, hc, hk, Option.map_some']
  · simp only [lower, List.getElem?_map, hc, Option.map_some', lowerRune_of_not_mem c hn]
  · have hall : ∀ x ∈ lowercaseLetters,
        x.isDigit = false ∧ x ∉ uppercaseLetters ∧ x.toNat < 128 := by
      decide
    have := hall c hm
    rcases hc with hc | hc | hc
    · rw [this.1] at hc
      cases hc
    · exact this.2.1 hc
    · omega
  · have hall : ∀ x ∈ uppercaseLetters,
        x.isDigit = false ∧ x ∉ lowercaseLetters ∧ x.toNat < 128 := by
      decide
    have := hall c hm
    rcases hc with hc | hc | hc
    · rw [this.1] at hc
      cases hc
    · exact this.2.1 hc
    · omega

/-- Witness for C27: the strings of the tests. -/
theorem upper_lower_ascii_letters_witness :
    (upper "w00t".toList)[0]? = uppercaseLetters[22]? ∧
    upper "".toList = "".toList ∧ upper "a".toList = "A".toList ∧
    upper "Na".toList = "NA".toList ∧ upper "WTF".toList = "WTF".toList ∧
    upper "w00t".toList = "W00T".toList ∧ upper "Ελένη".toList = "Ελένη".toList ∧
    upper "林さん".toList = "林さん".toList ∧
    lower "".toList = "".toList ∧ lower "A".toList = "a".toList ∧
    lower "Na".toList = "na".toList ∧ lower "ill".toList = "ill".toList ∧
    lower "HNO2".toList = "hno2".toList ∧ lower "Ελένη".toList = "Ελένη".toList ∧
    lower "林さん".toList = "林さん".toList :=
  ⟨((upper_lower_ascii_letters "w00t".toList).2.2.1 0 'w' (by decide)).1 22 (by decide),
    by decide, by decide, by decide, by decide, by decide, by decide, by decide, by decide,
    by decide, by decide, by decide, by decide, by decide, by decide⟩



/-! ## POSIX `basename`: where the separator can appear -/

namespace Posix

/-- POSIX `basename` of a non-empty path made of separators only. -/
theorem basename_all_sep (P : List Char) (hne : P ≠ []) (h : ∀ c ∈ P, c = sep) :
    basename P = [sep] := by
  have := split_all_sep P hne h
  simp only [split, Prod.mk.injEq] at this
  exact this.2

/-- POSIX `basename` of a path that holds a character other than the
separator: a non-empty name without separator. -/
theorem basename_of_name (P : List Char) (h : ∃ c ∈ P, c ≠ sep) :
    sep ∉ basename P ∧ basename P ≠ [] := by
  induction P using List.reverseRecOn with
  | nil =>
    rcases h with ⟨c, hc, _⟩
    simp at hc
  | append_singleton init last ih =>
    by_cases hl : last = sep
    · subst hl
      have hinit : ∃ c ∈ init, c ≠ sep := by
        rcases h with ⟨c, hc, hcs⟩
        rcases List.mem_append.mp hc with hc | hc
        · exact ⟨c, hc, hcs⟩
        · simp only [List.mem_singleton] at hc
          exact absurd hc hcs
      have hne : init ≠ [] := by
        rcases hinit with ⟨c, hc, _⟩
        exact List.ne_nil_of_mem hc
      rw [basename_append_sep init hne]
      exact ih hinit
    · by_cases hs : sep ∈ init ++ [last]
      · rcases exists_last_sep _ hs with ⟨a, b, e, hb⟩
        have hbne : b ≠ [] := by
          intro hb0
          subst hb0
          have h1 : (init ++ [last]).getLast? = some last := by simp
          rw [e] at h1
          simp at h1
          exact hl h1.symm
        rw [e, basename_append_cons a b hb hbne]
        exact ⟨hb, hbne⟩
      · rw [basename_of_not_mem _ hs]
        exact ⟨hs, by simp⟩

/-- C31: for every path `P`, POSIX `basename P` contains `/` exactly when `P`
is non-empty and made of `/` only, and then it is `/`; and `basename P` is
empty exactly when `P` is empty. -/
theorem basename_sep_iff_all_sep (P : List Char) :
    (sep ∈ basename P ↔ (P ≠ [] ∧ ∀ c ∈ P, c = sep)) ∧
    ((P ≠ [] ∧ ∀ c ∈ P, c = sep) → basename P = [sep]) ∧
    (basename P = [] ↔ P = []) := by
  by_cases hall : ∀ c ∈ P, c = sep
  · by_cases hne : P = []
    · subst hne
      have e : basename [] = [] := basename_of_not_mem [] (by simp)
      rw [e]
      simp
    · have e := basename_all_sep P hne hall
      rw [e]
      exact ⟨⟨fun _ => ⟨hne, hall⟩, fun _ => List.mem_singleton.mpr rfl⟩, fun _ => rfl,
        ⟨fun hb => (by cases hb), fun hp => absurd hp hne⟩⟩
  · have hex : ∃ c ∈ P, c ≠ sep := by
      by_contra hc
      apply hall
      intro c hcP
      by_contra hcs
      exact hc ⟨c, hcP, hcs⟩
    have hne : P ≠ [] := by
      rcases hex with ⟨c, hc, _⟩
      exact List.ne_nil_of_mem hc
    have h := basename_of_name P hex
    refine ⟨⟨fun hm => absurd hm h.1, fun hm => absurd hm.2 hall⟩, fun hm => absurd hm.2 hall,
      ⟨fun hb => absurd hb h.2, fun hp => absurd hp hne⟩⟩

/-- Witness for C31: `basename "//" = "/"`. -/
theorem basename_sep_iff_all_sep_witness : basename "//".toList = [sep] :=
  (basename_sep_iff_all_sep "//".toList).2.1 ⟨by decide, by decide⟩

end Posix

/-! ## Windows `splitdrive`: nothing is lost -/

namespace Win

/-- C32: for every path `P`, the drive and the remainder that Windows
`splitdrive` returns make up `P` again, and the pair is one of four: no drive;
a drive `X:`; a UNC share followed by a path; a UNC share alone. -/
theorem splitdrive_concat (P : List Char) :
    (splitdrive P).1 ++ (splitdrive P).2 = P ∧
    (splitdrive P = ([], P) ∨
      (∃ x rest, P = x :: ':' :: rest ∧ splitdrive P = ([x, ':'], rest)) ∨
      (∃ m mt rest, P = '\\' :: '\\' :: (m ++ '\\' :: (mt ++ '\\' :: rest)) ∧
        splitdrive P = ('\\' :: '\\' :: (m ++ '\\' :: mt), '\\' :: rest)) ∨
      (∃ m mt, P = '\\' :: '\\' :: (m ++ '\\' :: mt) ∧ splitdrive P = (P, []))) := by
  refine ⟨splitdrive_append P, ?_⟩
  rcases splitdrive_cases P with h | ⟨x, rest, e, h⟩ | ⟨m, mt, rest, _, _, _, _, e, h⟩ |
    ⟨m, mt, _, _, _, _, e, h⟩
  · exact Or.inl h
  · exact Or.inr (Or.inl ⟨x, rest, e, h⟩)
  · exact Or.inr (Or.inr (Or.inl ⟨m, mt, rest, e, h⟩))
  · exact Or.inr (Or.inr (Or.inr ⟨m, mt, e, h⟩))

end Win



/-! ## Encodings -/

/-- A loop that appends one element for each element read is a `map`. -/
theorem foldl_append_singleton {α β : Type} (f : α → β) (l : List α) :
    ∀ acc : List β, l.foldl (fun out a => out ++ [f a]) acc = acc ++ l.map f := by
  induction l with
  | nil =>
    intro acc
    simp
  | cons a rest ih =>
    intro acc
    rw [List.foldl_cons, ih]
    simp

namespace ascii

theorem encode_eq_map (s : List Nat) :
    encode s = s.map (fun r => if r < 0x80 then r % 256 else kAsciiUnknownCodePoint % 256) := by
  unfold encode
  rw [foldl_append_singleton]
  rfl

theorem decode_eq_map (d : List Nat) :
    decode d = d.map (fun byte => if byte < 0x80 then byte else kUnknownCodePoint) := by
  unfold decode
  rw [foldl_append_singleton]
  rfl

/-- Replacing the code points from `0x80` on by `?` leaves a string as it is
exactly when it has none. -/
theorem map_question_eq_self (s : List Nat) :
    s.map (fun r => if r < 0x80 then r else 0x3F) = s ↔ ∀ r ∈ s, r < 0x80 := by
  induction s with
  | nil => simp
  | cons r rest ih =>
    simp only [List.map_cons, List.cons.injEq, List.mem_cons, forall_eq_or_imp]
    rw [ih]
    constructor
    · rintro ⟨hr, hrest⟩
      refine ⟨?_, hrest⟩
      by_contra hc
      rw [if_neg hc] at hr
      omega
    · rintro ⟨hr, hrest⟩
      exact ⟨if_pos hr, hrest⟩

/-- C35: for every string `s`, `ascii::decode(ascii::encode(s))` is `s` with
every code point from `0x80` on replaced by `?` (`0x3F`), and it is `s` exactly
when every code point of `s` is below `0x80`; for every byte sequence `d`,
`ascii::encode(ascii::decode(d))` is `d` with every byte from `0x80` on replaced
by `0x3F`. -/
theorem ascii_round_trips (s d : List Nat) :
    decode (encode s) = s.map (fun r => if r < 0x80 then r else 0x3F) ∧
    (decode (encode s) = s ↔ ∀ r ∈ s, r < 0x80) ∧
    encode (decode d) = d.map (fun byte => if byte < 0x80 then byte else 0x3F) := by
  have h1 : decode (encode s) = s.map (fun r => if r < 0x80 then r else 0x3F) := by
    rw [encode_eq_map, decode_eq_map, List.map_map]
    apply List.map_congr_left
    intro r _
    simp only [Function.comp, kAsciiUnknownCodePoint, kUnknownCodePoint]
    by_cases hr : r < 0x80
    · have e : r % 256 = r := Nat.mod_eq_of_lt (by omega)
      rw [if_pos hr, if_pos hr, e, if_pos hr]
    · rw [if_neg hr, if_neg hr]
      rfl
  refine ⟨h1, ?_, ?_⟩
  · rw [h1]
    exact map_question_eq_self s
  · rw [decode_eq_map, encode_eq_map, List.map_map]
    apply List.map_congr_left
    intro b _
    simp only [Function.comp, kAsciiUnknownCodePoint, kUnknownCodePoint]
    by_cases hb : b < 0x80
    · have e : b % 256 = b := Nat.mod_eq_of_lt (by omega)
      rw [if_pos hb, if_pos hb, if_pos hb, e]
    · rw [if_neg hb, if_neg hb]
      rfl

end ascii

namespace latin1

theorem latin1_encode_eq_map (s : List Nat) :
    encode s = s.map (fun r => if r < 0x100 then r % 256 else 0x3f) := by
  unfold encode
  rw [foldl_append_singleton]
  rfl

theorem latin1_decode_eq (d : List Nat) : decode d = d := by
  unfold decode
  rw [foldl_append_singleton]
  simp

/-- C34: for every byte sequence `d`, `latin1::encode(latin1::decode(d))` is
`d`, and the decoded string has one code point for each byte, equal to the
value of the byte. -/
theorem latin1_round_trip (d : List Nat) (hd : ∀ b ∈ d, b < 256) :
    encode (decode d) = d ∧ (decode d).length = d.length ∧
    ∀ i : Nat, (decode d)[i]? = d[i]? := by
  rw [latin1_decode_eq]
  refine ⟨?_, rfl, fun _ => rfl⟩
  rw [latin1_encode_eq_map]
  conv_rhs => rw [← List.map_id d]
  apply List.map_congr_left
  intro b hb
  have := hd b hb
  simp only [id]
  rw [if_pos (by omega)]
  omega

/-- Witness for C34: the bytes `0x41`, `0x80`, `0xff`. -/
theorem latin1_round_trip_witness :
    encode (decode [0x41, 0x80, 0xff]) = [0x41, 0x80, 0xff] ∧
    (decode [0x41, 0x80, 0xff]).length = 3 ∧
    ∀ i : Nat, (decode [0x41, 0x80, 0xff])[i]? = [0x41, 0x80, 0xff][i]? :=
  latin1_round_trip [0x41, 0x80, 0xff] (by decide)

end latin1


/-- Witness for C35: the string `A`, `é`, `林` and the bytes `0x41`, `0xe9`. -/
theorem ascii_round_trips_witness :
    ascii.decode (ascii.encode [0x41, 0xE9, 0x6797]) = [0x41, 0x3F, 0x3F] ∧
    ascii.encode (ascii.decode [0x41, 0xE9]) = [0x41, 0x3F] :=
  ⟨(ascii.ascii_round_trips [0x41, 0xE9, 0x6797] []).1,
    (ascii.ascii_round_trips [] [0x41, 0xE9]).2.2⟩


namespace macroman

theorem macroman_encode_eq_map (s : List Nat) :
    encode s = s.map (encodeRune kMacRomanSupplement) := by
  unfold encode
  rw [foldl_append_singleton]
  rfl

theorem macroman_decode_eq_map (d : List Nat) :
    decode d = d.map (decodeByte kMacRomanSupplement) := by
  unfold decode
  rw [foldl_append_singleton]
  rfl

/-- The scan stops at the first entry equal to the code point, which is at or
before any position that holds it. -/
theorem encodeScan_first (r : Nat) : ∀ (l : List Nat) (k i : Nat), l[i]? = some r →
    ∃ j, j ≤ i ∧ encodeScan r l k = (0x80 + (k + j)) % 256
  | [], _, _, h => by simp at h
  | x :: rest, k, i, h => by
    by_cases hx : r = x
    · exact ⟨0, Nat.zero_le _, by simp [encodeScan, hx]⟩
    · cases i with
      | zero =>
        simp only [List.getElem?_cons_zero, Option.some.injEq] at h
        exact absurd h.symm hx
      | succ i =>
        simp only [List.getElem?_cons_succ] at h
        rcases encodeScan_first r rest (k + 1) i h with ⟨j, hj, e⟩
        refine ⟨j + 1, by omega, ?_⟩
        simp only [encodeScan, if_neg hx, e]
        congr 1
        omega

/-- In a table without repeated value the scan finds each entry at its own
position. -/
theorem encodeScan_nodup (r : Nat) : ∀ (l : List Nat) (k i : Nat), l.Nodup → l[i]? = some r →
    encodeScan r l k = (0x80 + (k + i)) % 256
  | [], _, _, _, h => by simp at h
  | x :: rest, k, i, hn, h => by
    cases i with
    | zero =>
      simp only [List.getElem?_cons_zero, Option.some.injEq] at h
      simp [encodeScan, h]
    | succ i =>
      simp only [List.getElem?_cons_succ] at h
      have hmem : r ∈ rest := List.getElem?_mem h
      have hx : r ≠ x := by
        intro e
        rw [e] at hmem
        exact (List.nodup_cons.mp hn).1 hmem
      simp only [encodeScan, if_neg hx]
      rw [encodeScan_nodup r rest (k + 1) i (List.nodup_cons.mp hn).2 h]
      congr 1
      omega

theorem decodeByte_high (table : List Nat) (b : Nat) (hb : 0x80 ≤ b) (hlen : b - 0x80 < table.length) :
    table[b - 0x80]? = some (decodeByte table b) := by
  unfold decodeByte
  rw [if_neg (by omega), List.getD_eq_getElem?_getD, List.getElem?_eq_getElem hlen]
  rfl

/-- One byte round-trips through a table of 128 different values, none below
`0x80`. -/
theorem encodeRune_decodeByte (table : List Nat) (hlen : table.length = 128)
    (hn : table.Nodup) (hhigh : ∀ x ∈ table, 0x80 ≤ x) (b : Nat) (hb : b < 256) :
    encodeRune table (decodeByte table b) = b := by
  by_cases hlow : b < 0x80
  · unfold decodeByte encodeRune
    rw [if_pos hlow, if_pos hlow]
    exact Nat.mod_eq_of_lt (by omega)
  · have hget := decodeByte_high table b (by omega) (by omega)
    have hx : 0x80 ≤ decodeByte table b := hhigh _ (List.getElem?_mem hget)
    unfold encodeRune
    rw [if_neg (by omega), encodeScan_nodup _ table 0 (b - 0x80) hn hget]
    omega

/-- A table of 128 values through which every byte round-trips has no
repeated value and no value below `0x80`. -/
theorem table_of_round_trip (table : List Nat) (hlen : table.length = 128)
    (h : ∀ b, b < 256 → encodeRune table (decodeByte table b) = b) :
    table.Nodup ∧ ∀ x ∈ table, 0x80 ≤ x := by
  have hhigh : ∀ i, i < 128 → ∀ x, table[i]? = some x → 0x80 ≤ x := by
    intro i hi x hx
    by_contra hc
    have hget := decodeByte_high table (0x80 + i) (by omega) (by omega)
    rw [show 0x80 + i - 0x80 = i by omega, hx] at hget
    have hrt := h (0x80 + i) (by omega)
    rw [← Option.some.inj hget] at hrt
    unfold encodeRune at hrt
    rw [if_pos (by omega)] at hrt
    have := Nat.mod_le x 256
    omega
  constructor
  · rw [List.nodup_iff_getElem?_ne_getElem?]
    intro i j hij hj heq
    rw [hlen] at hj
    have hjx : table[j]? = some (table.getD j 0) := by
      rw [List.getD_eq_getElem?_getD, List.getElem?_eq_getElem (by omega)]
      rfl
    have hix : table[i]? = some (table.getD j 0) := by rw [heq, hjx]
    have hx := hhigh j hj _ hjx
    have hget := decodeByte_high table (0x80 + j) (by omega) (by omega)
    rw [show 0x80 + j - 0x80 = j by omega, hjx] at hget
    have hrt := h (0x80 + j) (by omega)
    rw [← Option.some.inj hget] at hrt
    unfold encodeRune at hrt
    rw [if_neg (by omega)] at hrt
    rcases encodeScan_first _ table 0 i hix with ⟨k, hk, e⟩
    rw [e] at hrt
    omega
  · intro x hx
    rcases List.getElem?_of_mem hx with ⟨i, hi⟩
    have hil : i < table.length := by
      by_contra hc
      rw [List.getElem?_eq_none (by omega)] at hi
      cases hi
    exact hhigh i (by omega) x hi

theorem kMacRomanSupplement_length : kMacRomanSupplement.length = 128 := by
  rfl

set_option maxRecDepth 100000 in
theorem kMacRomanSupplement_nodup : kMacRomanSupplement.Nodup := by
  decide

set_option maxRecDepth 100000 in
theorem kMacRomanSupplement_high : ∀ x ∈ kMacRomanSupplement, 0x80 ≤ x := by
  decide

/-- C33: for every byte sequence `d`, `macroman::encode(macroman::decode(d))`
is `d`; the supplement table has 128 entries, no repeated value and no value
below `0x80`, and for a table of 128 entries that is exactly what makes every
byte round-trip. -/
theorem macroman_round_trip :
    (∀ d : List Nat, (∀ b ∈ d, b < 256) → encode (decode d) = d) ∧
    kMacRomanSupplement.length = 128 ∧ kMacRomanSupplement.Nodup ∧
    (∀ x ∈ kMacRomanSupplement, 0x80 ≤ x) ∧
    (∀ table : List Nat, table.length = 128 →
      ((∀ b, b < 256 → encodeRune table (decodeByte table b) = b) ↔
        (table.Nodup ∧ ∀ x ∈ table, 0x80 ≤ x))) := by
  refine ⟨fun d hd => ?_, kMacRomanSupplement_length, kMacRomanSupplement_nodup,
    kMacRomanSupplement_high, fun table hlen => ⟨table_of_round_trip table hlen,
      fun h b hb => encodeRune_decodeByte table hlen h.1 h.2 b hb⟩⟩
  rw [macroman_decode_eq_map, macroman_encode_eq_map, List.map_map]
  conv_rhs => rw [← List.map_id d]
  apply List.map_congr_left
  intro b hb
  exact encodeRune_decodeByte kMacRomanSupplement kMacRomanSupplement_length
    kMacRomanSupplement_nodup kMacRomanSupplement_high b (hd b hb)

/-- Witness for C33: the bytes `0x41`, `0x80` (A with diaeresis), `0xf0` (the
Apple logo) and `0xff` (caron). -/
theorem macroman_round_trip_witness :
    decode [0x41, 0x80, 0xf0, 0xff] = [0x41, 0xC4, 0xF8FF, 0x02C7] ∧
    encode (decode [0x41, 0x80, 0xf0, 0xff]) = [0x41, 0x80, 0xf0, 0xff] :=
  ⟨by decide, macroman_round_trip.1 [0x41, 0x80, 0xf0, 0xff] (by decide)⟩

end macroman



/-! ## `Bytes`: the representation invariant -/

namespace Bytes

/-- The loop of `reserve` ends only at a value that reaches the request. -/
theorem reserveLoop_ge : ∀ (fuel capacity n m : Nat),
    reserveLoop fuel capacity n = some m → capacity ≤ m
  | 0, _, _, _, h => by simp [reserveLoop] at h
  | fuel + 1, capacity, n, m, h => by
    simp only [reserveLoop] at h
    split at h
    · exact reserveLoop_ge fuel capacity _ m h
    · simp only [Option.some.injEq] at h
      omega


/-- The ways `reserve` ends: at once when the capacity reaches the request;
otherwise after the loop, by `std::bad_alloc` with the buffer as it was, or
with the new array and the capacity the loop found. -/
theorem reserve_cases (fuel : Nat) (alloc : Nat → Option (Nat → Nat)) (b : Bytes) (c : Nat)
    (out : Outcome) (h : reserve fuel alloc b c = some out) :
    (c ≤ b._capacity ∧ out = .returned b) ∨
    (b._capacity < c ∧ ∃ n, reserveLoop fuel c (size_t (b._capacity * 2)) = some n ∧
      ((alloc n = none ∧ out = .bad_alloc b) ∨
        ∃ new_data, alloc n = some new_data ∧
          out = .returned ⟨memcpy new_data 0 b._data b._size, b._size, n⟩)) := by
  unfold reserve at h
  by_cases hlt : b._capacity < c
  · right
    rw [if_pos hlt] at h
    cases hl : reserveLoop fuel c (size_t (b._capacity * 2)) with
    | none =>
      rw [hl] at h
      cases h
    | some n =>
      rw [hl] at h
      simp only at h
      refine ⟨hlt, n, rfl, ?_⟩
      cases ha : alloc n with
      | none =>
        rw [ha] at h
        simp only [Option.some.injEq] at h
        exact Or.inl ⟨rfl, h.symm⟩
      | some new_data =>
        rw [ha] at h
        simp only [Option.some.injEq] at h
        exact Or.inr ⟨new_data, rfl, h.symm⟩
  · left
    rw [if_neg hlt] at h
    simp only [Option.some.injEq] at h
    exact ⟨by omega, h.symm⟩

/-- What `reserve` leaves when it ends. -/
theorem reserve_spec (fuel : Nat) (alloc : Nat → Option (Nat → Nat)) (b : Bytes) (c : Nat)
    (out : Outcome) (h : reserve fuel alloc b c = some out) :
    out.buffer._size = b._size ∧ b._capacity ≤ out.buffer._capacity ∧
      (∀ i, i < b._size → out.buffer._data i = b._data i) ∧
      (out.isReturned = true → c ≤ out.buffer._capacity) ∧
      (out.isReturned = false → out = .bad_alloc b ∧ b._capacity < c) := by
  rcases reserve_cases fuel alloc b c out h with ⟨hle, e⟩ | ⟨hlt, n, hn, ⟨_, e⟩ | ⟨nd, _, e⟩⟩
  · subst e
    exact ⟨rfl, Nat.le_refl _, fun _ _ => rfl, fun _ => hle, fun h' => (by cases h')⟩
  · subst e
    exact ⟨rfl, Nat.le_refl _, fun _ _ => rfl, fun h' => (by cases h'), fun _ => ⟨rfl, hlt⟩⟩
  · subst e
    have hge := reserveLoop_ge _ _ _ _ hn
    refine ⟨rfl, by simp only [Outcome.buffer]; omega, fun i hi => ?_, fun _ => hge,
      fun h' => (by cases h')⟩
    simp only [Outcome.buffer, memcpy]
    rw [if_pos ⟨Nat.zero_le _, by omega⟩]
    rfl

theorem new_inv (fresh : Nat → Nat) : Inv (new fresh) := by
  unfold Inv new kDefaultBytesSize
  simp

/-- The loop of `reserve` from a non-zero value towards a request of at most
`2 ^ 63`: no doubling wraps, and the loop ends at the first doubled value that
reaches the request. -/
theorem reserveLoop_ends : ∀ (fuel capacity n : Nat), 0 < n → capacity ≤ 2 ^ 63 →
    capacity ≤ n * 2 ^ fuel →
    ∃ k, reserveLoop (fuel + 1) capacity n = some (n * 2 ^ k) ∧ capacity ≤ n * 2 ^ k ∧
      ∀ j, j < k → n * 2 ^ j < capacity
  | 0, capacity, n, _, _, h => by
    refine ⟨0, ?_, by simpa using h, fun j hj => absurd hj (Nat.not_lt_zero j)⟩
    simp only [reserveLoop, pow_zero, Nat.mul_one] at h ⊢
    rw [if_neg (by omega)]
  | fuel + 1, capacity, n, hn, hc, h => by
    by_cases hlt : n < capacity
    · have hw : size_t (n * 2) = n * 2 := Nat.mod_eq_of_lt (by omega)
      have h2 : capacity ≤ n * 2 * 2 ^ fuel := by
        rw [Nat.mul_assoc, ← Nat.pow_succ']
        exact h
      rcases reserveLoop_ends fuel capacity (n * 2) (by omega) hc h2 with ⟨k, hk, hge, hmin⟩
      refine ⟨k + 1, ?_, ?_, ?_⟩
      · rw [reserveLoop, if_pos hlt, hw, hk, Nat.pow_succ', Nat.mul_assoc]
      · rw [Nat.pow_succ', ← Nat.mul_assoc]
        exact hge
      · intro j hj
        cases j with
        | zero => simpa using hlt
        | succ j =>
          rw [Nat.pow_succ', ← Nat.mul_assoc]
          exact hmin j (by omega)
    · refine ⟨0, ?_, by simp only [pow_zero, Nat.mul_one]; omega,
        fun j hj => absurd hj (Nat.not_lt_zero j)⟩
      rw [reserveLoop, if_neg hlt, pow_zero, Nat.mul_one]


/-- The function `reserve` for a request of at most `2 ^ 63`: it ends; beyond
the old capacity it asks the allocator for the old capacity times the smallest
power of two, at least 2, that reaches the request. -/
theorem reserve_ends (fuel : Nat) (alloc : Nat → Option (Nat → Nat)) (b : Bytes) (c : Nat)
    (hb : Inv b) (hc : c ≤ 2 ^ 63) (hfuel : 64 ≤ fuel) :
    (c ≤ b._capacity → reserve fuel alloc b c = some (.returned b)) ∧
    (b._capacity < c → ∃ k, 1 ≤ k ∧ c ≤ b._capacity * 2 ^ k ∧
      (∀ j, 1 ≤ j → j < k → b._capacity * 2 ^ j < c) ∧
      reserve fuel alloc b c =
        some (match alloc (b._capacity * 2 ^ k) with
          | none => .bad_alloc b
          | some new_data =>
            .returned ⟨memcpy new_data 0 b._data b._size, b._size, b._capacity * 2 ^ k⟩)) := by
  constructor
  · intro h
    unfold reserve
    rw [if_neg (by omega)]
  · intro h
    have hw : size_t (b._capacity * 2) = b._capacity * 2 := Nat.mod_eq_of_lt (by omega)
    obtain ⟨f, rfl⟩ : ∃ f, fuel = f + 1 := ⟨fuel - 1, by omega⟩
    have hbig : c ≤ b._capacity * 2 * 2 ^ f := by
      have h1 : 2 ^ 63 ≤ 2 ^ f := Nat.pow_le_pow_right (by decide) (by omega)
      have h2 : 1 * 2 ^ f ≤ b._capacity * 2 * 2 ^ f :=
        Nat.mul_le_mul_right _ (by unfold Inv at hb; omega)
      omega
    rcases reserveLoop_ends f c (b._capacity * 2) (by unfold Inv at hb; omega) hc hbig with
      ⟨k, hk, hge, hmin⟩
    have e2 : b._capacity * 2 * 2 ^ k = b._capacity * 2 ^ (k + 1) := by
      rw [Nat.pow_succ', Nat.mul_assoc]
    refine ⟨k + 1, by omega, ?_, ?_, ?_⟩
    · rw [← e2]
      exact hge
    · intro j hj1 hj2
      obtain ⟨i, rfl⟩ : ∃ i, j = i + 1 := ⟨j - 1, by omega⟩
      rw [Nat.pow_succ', ← Nat.mul_assoc]
      exact hmin i (by omega)
    · unfold reserve
      rw [if_pos h, hw, hk, e2]
      simp only
      cases alloc (b._capacity * 2 ^ (k + 1)) <;> rfl

/-- The function `reserve` ends for a request of at most `2 ^ 63`, and it
returns when the allocator gives the array. -/
theorem reserve_isSome (fuel : Nat) (alloc : Nat → Option (Nat → Nat)) (b : Bytes) (c : Nat)
    (hb : Inv b) (hc : c ≤ 2 ^ 63) (hfuel : 64 ≤ fuel) :
    ∃ out, reserve fuel alloc b c = some out ∧
      ((∀ n, (alloc n).isSome = true) → out.isReturned = true) := by
  have h := reserve_ends fuel alloc b c hb hc hfuel
  by_cases hle : c ≤ b._capacity
  · exact ⟨_, h.1 hle, fun _ => rfl⟩
  · rcases h.2 (by omega) with ⟨k, _, _, _, e⟩
    refine ⟨_, e, fun ha => ?_⟩
    have := ha (b._capacity * 2 ^ k)
    cases hk : alloc (b._capacity * 2 ^ k) with
    | none =>
      rw [hk] at this
      cases this
    | some nd => rfl

end Bytes

namespace Bytes

/-- Counterexample for C37: `reserve(2^63)` on a default-constructed buffer,
with an allocator that refuses arrays of more than `2 ^ 32` bytes: the request
is at most `2 ^ 63`, `reserve` ends by `std::bad_alloc`, and the capacity is
still 16, below the request. -/
theorem reserve_throws_bad_alloc :
    Inv (new (fun _ => 0)) ∧ 2 ^ 63 ≤ 2 ^ 63 ∧ allocSmall (2 ^ 63) = none ∧
    (reserve 64 allocSmall (new (fun _ => 0)) (2 ^ 63)).map
      (fun o => (o.isReturned, o.buffer._size, o.buffer._capacity)) = some (false, 0, 16) ∧
    ¬ (2 ^ 63 ≤ 16) := by
  refine ⟨new_inv _, Nat.le_refl _, rfl, by decide, by decide⟩

/-- C37, amended: for every buffer with `size <= capacity` and
`capacity >= 16` and every request `c <= 2^63`, `reserve(c)` ends, in the same
way for every amount of fuel from 64 on.  It returns the buffer as it is when
the capacity already reaches `c`.  Otherwise it asks the allocator for the old
capacity times the smallest power of two, at least 2, that reaches `c`: when
the allocator throws `std::bad_alloc` the buffer is left as it was, and when it
gives the array `reserve` returns with that capacity.  Whenever it returns, the
size and the first `size` bytes are as before, the capacity has not decreased
and is at least `c`. -/
theorem reserve_grows_by_doubling (alloc : Nat → Option (Nat → Nat)) (b : Bytes) (c : Nat)
    (hb : Inv b) (hc : c ≤ 2 ^ 63) :
    ∃ out, (∀ fuel, 64 ≤ fuel → reserve fuel alloc b c = some out) ∧
      (c ≤ b._capacity → out = .returned b) ∧
      (b._capacity < c → ∃ k, 1 ≤ k ∧ c ≤ b._capacity * 2 ^ k ∧
        (∀ j, 1 ≤ j → j < k → b._capacity * 2 ^ j < c) ∧
        ((alloc (b._capacity * 2 ^ k) = none ∧ out = .bad_alloc b) ∨
          ∃ new_data, alloc (b._capacity * 2 ^ k) = some new_data ∧
            out = .returned
              ⟨memcpy new_data 0 b._data b._size, b._size, b._capacity * 2 ^ k⟩)) ∧
      (out.isReturned = true →
        out.buffer._size = b._size ∧ (∀ i, i < b._size → out.buffer._data i = b._data i) ∧
        b._capacity ≤ out.buffer._capacity ∧ c ≤ out.buffer._capacity) ∧
      (out.isReturned = false → out = .bad_alloc b ∧ b._capacity < c) ∧
      ((∀ n, (alloc n).isSome = true) → out.isReturned = true) := by
  obtain ⟨out, hout, hret⟩ := reserve_isSome 64 alloc b c hb hc (Nat.le_refl _)
  have hs := reserve_spec 64 alloc b c out hout
  have hall : ∀ fuel, 64 ≤ fuel → reserve fuel alloc b c = some out := by
    intro fuel hf
    by_cases hle : c ≤ b._capacity
    · rw [(reserve_ends fuel alloc b c hb hc hf).1 hle,
        ← (reserve_ends 64 alloc b c hb hc (Nat.le_refl _)).1 hle, hout]
    · rcases (reserve_ends fuel alloc b c hb hc hf).2 (by omega) with ⟨k', hk1', hge', hmin', e'⟩
      rcases (reserve_ends 64 alloc b c hb hc (Nat.le_refl _)).2 (by omega) with
        ⟨k, hk1, hge, hmin, e⟩
      have hkk : k' = k := by
        rcases Nat.lt_trichotomy k' k with h | h | h
        · have := hmin k' hk1' h
          omega
        · exact h
        · have := hmin' k hk1 h
          omega
      rw [e', hkk, ← e, hout]
  refine ⟨out, hall, fun hle => ?_, fun hlt => ?_, fun hr => ⟨hs.1, hs.2.2.1, hs.2.1,
    hs.2.2.2.1 hr⟩, hs.2.2.2.2, hret⟩
  · have := (reserve_ends 64 alloc b c hb hc (Nat.le_refl _)).1 hle
    rw [hout] at this
    exact Option.some.inj this
  · rcases (reserve_ends 64 alloc b c hb hc (Nat.le_refl _)).2 hlt with ⟨k, hk1, hge, hmin, e⟩
    refine ⟨k, hk1, hge, hmin, ?_⟩
    rw [hout] at e
    have e' := Option.some.inj e
    cases hk : alloc (b._capacity * 2 ^ k) with
    | none =>
      rw [hk] at e'
      exact Or.inl ⟨rfl, e'⟩
    | some nd =>
      rw [hk] at e'
      exact Or.inr ⟨nd, rfl, e'⟩

/-- Witness for C37: `reserve(100)` on a buffer of capacity 16 that holds
three bytes, with an allocator that gives every array: it returns with
capacity `16 * 2 ^ 3`. -/
theorem reserve_grows_by_doubling_witness :
    ∃ out : Outcome, (∀ fuel, 64 ≤ fuel →
        reserve fuel allocAll ⟨fun i => i + 1, 3, 16⟩ 100 = some out) ∧
      out.isReturned = true ∧
      (reserve 64 allocAll ⟨fun i => i + 1, 3, 16⟩ 100).map
        (fun o => (o.isReturned, o.buffer._size, o.buffer._capacity)) = some (true, 3, 128) :=
  (reserve_grows_by_doubling allocAll ⟨fun i => i + 1, 3, 16⟩ 100 (by decide)
    (by decide)).imp (fun _ h => ⟨h.1, h.2.2.2.2.2 (fun _ => rfl), by decide⟩)

end Bytes

namespace BytesPiece

/-- Without wrap-around in `index + size`, `substr` returns exactly when the
range lies within the piece, and then gives that range. -/
theorem substr_of_no_wrap (p : BytesPiece) (index size : Nat) (h : index + size < 2 ^ 64) :
    ((substr p index size).isSome = true ↔ index + size ≤ p._size) ∧
    ∀ r, substr p index size = some r →
      r._size = size ∧ ∀ i, i < size → r._data i = p._data (index + i) := by
  unfold substr size_t
  rw [Nat.mod_eq_of_lt h]
  by_cases hle : index + size ≤ p._size
  · rw [if_neg (by omega)]
    refine ⟨⟨fun _ => hle, fun _ => rfl⟩, fun r hr => ?_⟩
    simp only [Option.some.injEq] at hr
    subst hr
    exact ⟨rfl, fun _ _ => rfl⟩
  · rw [if_pos (by omega)]
    exact ⟨⟨fun h' => (by cases h'), fun h' => absurd h' hle⟩, fun r hr => (by cases hr)⟩

/-- C38: the bounds check of `substr` is evaluated modulo `2 ^ 64`: `substr`
returns normally exactly when `(index + size) mod 2^64 <= n`, and on a piece of
size 5, `substr(2^64 - 1, 2)` returns a piece of size 2 although the range
`[2^64 - 1, 2^64 + 1)` does not lie within `[0, 5)`. -/
theorem substr_check_wraps :
    (∀ (p : BytesPiece) (index size : Nat),
      (substr p index size).isSome = decide (size_t (index + size) ≤ p._size)) ∧
    (substr ⟨fun i => i, 5⟩ (2 ^ 64 - 1) 2).map (fun r => r._size) = some 2 ∧
    ¬ (2 ^ 64 - 1 + 2 ≤ 5) := by
  refine ⟨fun p index size => ?_, by decide, by decide⟩
  unfold substr
  by_cases h : size_t (index + size) ≤ p._size
  · rw [if_neg (by omega)]
    simp [h]
  · rw [if_pos (by omega)]
    simp [h]

end BytesPiece

/-! ## `StringMap::insert` -/

namespace StringMap

theorem mapFind_le {T : Type} : ∀ (m : List (List Char × T)) (key : List Char),
    mapFind m key ≤ m.length
  | [], _ => Nat.le_refl 0
  | e :: rest, key => by
    simp only [mapFind, List.length_cons]
    split
    · omega
    · have := mapFind_le rest key
      omega

/-- The function `find` reaches `end()` exactly for a key without binding. -/
theorem mapFind_eq_length {T : Type} : ∀ (m : List (List Char × T)) (key : List Char),
    mapFind m key = m.length ↔ get m key = none
  | [], _ => by simp [mapFind, get]
  | e :: rest, key => by
    simp only [mapFind, get, List.length_cons]
    split
    · simp
    · have := mapFind_eq_length rest key
      rw [← this]
      omega

/-- The function `find` gives the position of the entry for a bound key. -/
theorem mapFind_get {T : Type} : ∀ (m : List (List Char × T)) (key : List Char) (v : T),
    get m key = some v → m[mapFind m key]? = some (key, v)
  | [], _, _, h => by simp [get] at h
  | e :: rest, key, v, h => by
    simp only [mapFind, get] at h ⊢
    split
    · rename_i he
      rw [if_pos he] at h
      simp only [Option.some.injEq] at h
      rw [List.getElem?_cons_zero, ← he, ← h]
    · rename_i he
      rw [if_neg he] at h
      rw [List.getElem?_cons_succ]
      exact mapFind_get rest key v h

theorem mapPlace_length {T : Type} : ∀ (m : List (List Char × T)) (entry : List Char × T),
    (mapPlace m entry).1.length = m.length + 1
  | [], _ => rfl
  | e :: rest, entry => by
    simp only [mapPlace]
    split
    · rfl
    · simp only [List.length_cons, mapPlace_length rest entry]

theorem mapPlace_getElem {T : Type} : ∀ (m : List (List Char × T)) (entry : List Char × T),
    (mapPlace m entry).1[(mapPlace m entry).2]? = some entry
  | [], _ => rfl
  | e :: rest, entry => by
    simp only [mapPlace]
    split
    · rfl
    · simp only [List.getElem?_cons_succ]
      exact mapPlace_getElem rest entry

theorem mapPlace_perm {T : Type} : ∀ (m : List (List Char × T)) (entry : List Char × T),
    (mapPlace m entry).1.Perm (entry :: m)
  | [], _ => List.Perm.refl _
  | e :: rest, entry => by
    simp only [mapPlace]
    split
    · exact List.Perm.refl _
    · exact ((mapPlace_perm rest entry).cons e).trans (List.Perm.swap entry e rest)

theorem mapPlace_get_self {T : Type} : ∀ (m : List (List Char × T)) (entry : List Char × T),
    get m entry.1 = none → get (mapPlace m entry).1 entry.1 = some entry.2
  | [], _, _ => by simp [mapPlace, get]
  | e :: rest, entry, h => by
    simp only [get] at h
    split at h
    · cases h
    · rename_i he
      simp only [mapPlace]
      split
      · simp [get]
      · simp only [get, if_neg he]
        exact mapPlace_get_self rest entry h

theorem mapPlace_get_other {T : Type} : ∀ (m : List (List Char × T)) (entry : List Char × T)
    (key : List Char), key ≠ entry.1 → get (mapPlace m entry).1 key = get m key
  | [], entry, key, h => by
    simp only [mapPlace, get, if_neg (Ne.symm h)]
  | e :: rest, entry, key, h => by
    simp only [mapPlace]
    split
    · simp only [get, if_neg (Ne.symm h)]
    · simp only [get]
      rw [mapPlace_get_other rest entry key h]

/-- C39: for every `StringMap` `m`, key `k` and value `v`: when `m` has a
binding for `k`, `insert((k, v))` leaves `m` as it is, returns `false`, and the
iterator is at the entry of `k` with the value it had; when `m` has none, it
returns `true`, the map has one entry more, binds `k` to `v`, binds every other
key as before, holds the old entries and the new one and nothing else, and the
iterator is at the new entry. -/
theorem insert_keeps_or_adds {T : Type} (m : StringMap T) (k : List Char) (v : T) :
    (∀ v0, get m._map k = some v0 →
      (insert m (k, v)).1 = m ∧ (insert m (k, v)).2.2 = false ∧
      (insert m (k, v)).1._map[(insert m (k, v)).2.1]? = some (k, v0)) ∧
    (get m._map k = none →
      (insert m (k, v)).2.2 = true ∧
      size (insert m (k, v)).1 = size m + 1 ∧
      get (insert m (k, v)).1._map k = some v ∧
      (∀ k', k' ≠ k → get (insert m (k, v)).1._map k' = get m._map k') ∧
      (insert m (k, v)).1._map.Perm ((k, v) :: m._map) ∧
      (insert m (k, v)).1._map[(insert m (k, v)).2.1]? = some (k, v)) := by
  constructor
  · intro v0 h
    have hne : mapFind m._map k ≠ m._map.length := by
      intro e
      rw [(mapFind_eq_length m._map k).mp e] at h
      cases h
    simp only [insert, if_neg hne]
    exact ⟨trivial, trivial, mapFind_get m._map k v0 h⟩
  · intro h
    have he : mapFind m._map k = m._map.length := (mapFind_eq_length m._map k).mpr h
    simp only [insert, mapInsert, if_pos he, size]
    exact ⟨trivial, mapPlace_length m._map (k, v), mapPlace_get_self m._map (k, v) h,
      fun k' hk' => mapPlace_get_other m._map (k, v) k' hk', mapPlace_perm m._map (k, v),
      mapPlace_getElem m._map (k, v)⟩

/-- Witness for C39: into the map `a -> 1, c -> 3`, `insert((a, 9))` changes
nothing and `insert((b, 2))` adds the binding between the two. -/
theorem insert_keeps_or_adds_witness :
    ((insert (⟨[("a".toList, 1), ("c".toList, 3)]⟩ : StringMap Nat) ("a".toList, 9)).1._map =
        [("a".toList, 1), ("c".toList, 3)] ∧
      (insert (⟨[("a".toList, 1), ("c".toList, 3)]⟩ : StringMap Nat) ("a".toList, 9)).2 =
        (0, false)) ∧
    ((insert (⟨[("a".toList, 1), ("c".toList, 3)]⟩ : StringMap Nat) ("b".toList, 2)).1._map =
        [("a".toList, 1), ("b".toList, 2), ("c".toList, 3)] ∧
      (insert (⟨[("a".toList, 1), ("c".toList, 3)]⟩ : StringMap Nat) ("b".toList, 2)).2 =
        (1, true)) ∧
    (insert (⟨[("a".toList, 1), ("c".toList, 3)]⟩ : StringMap Nat) ("a".toList, 9)).1 =
      ⟨[("a".toList, 1), ("c".toList, 3)]⟩ ∧
    get (insert (⟨[("a".toList, 1), ("c".toList, 3)]⟩ : StringMap Nat) ("b".toList, 2)).1._map
      "b".toList = some 2 :=
  ⟨by decide, by decide,
    ((insert_keeps_or_adds (⟨[("a".toList, 1), ("c".toList, 3)]⟩ : StringMap Nat) "a".toList
      9).1 1 (by decide)).1,
    ((insert_keeps_or_adds (⟨[("a".toList, 1), ("c".toList, 3)]⟩ : StringMap Nat) "b".toList
      2).2 (by decide)).2.2.1⟩

end StringMap

end Sfz
